import Mathlib

/-!
# gosecretive: scrubbing and restoring string leaves of composite values

A shallow embedding of `gosecretive.go` (`Scrub`, `Restore`, `travel`,
`DefaultOnValueFuncHandler`) together with the part of Go's `reflect`
package that the traversal relies on.

Modelling conventions

* A Go value as seen through `reflect` is a `Value`: a tree whose nodes are
  the kinds `travel` dispatches on.  What reaches the `default` branch of
  `travel` is an `array`, which keeps its elements (`travel` has no case for
  `reflect.Array`), or an opaque `other` leaf (numbers, booleans, channels,
  functions ...).
* Struct fields carry the `reflect.StructField` data the traversal and
  `reflect` look at: `Name`, `PkgPath` (empty exactly for exported fields) and
  `Anonymous` (embedded field).
* A map is the list of its entries in the order in which `MapKeys` returned
  the keys during the run at hand; keys are strings (`key.String()` is the key
  itself).  A Go map has pairwise distinct keys.
* `map[string]string` is a `Secrets` association list with unique keys.
* A callback is a Go closure: it may read and write captured state, which is
  threaded explicitly (`σ`).  A deterministic callback is a pure function of
  its two arguments, see `OnValueFuncHandler.ofFun`.
* A run-time panic of the Go code is the result `none`.
* The argument of `Scrub` and `Restore` is the value `reflect.ValueOf(obj)`
  of a non-nil `obj`.
-/

namespace Gosecretive

/-! ## Values -/

/-- Type of a leaf of kind `reflect.String`: the predeclared type `string`, or
a defined type whose underlying type is `string` (such as `SomeType` in the
tests). -/
inductive StringType
  | plain
  | named (name : String)
deriving DecidableEq

/-- The fields of `reflect.StructField` used by the traversal. -/
structure StructField where
  name : String
  pkgPath : String
  anonymous : Bool
deriving DecidableEq

/-- Method `IsExported` of `reflect.StructField`: the package path is empty. -/
def StructField.IsExported (f : StructField) : Bool :=
  decide (f.pkgPath = "")

/-- A Go value as `travel` sees it through `reflect`, by kind.  An `array` is a
value of kind `reflect.Array` with its elements; `other` is a value of any
kind not listed (bool, numbers, channels, functions ...). -/
inductive Value
  | str (typ : StringType) (s : String)
  | other (payload : Nat)
  | array (elems : List Value)
  | nilPtr
  | ptr (elem : Value)
  | nilIface
  | iface (elem : Value)
  | struct (fields : List (StructField × Value))
  | nilSlice
  | slice (elems : List Value)
  | nilMap
  | map (entries : List (String × Value))

/-- The read-only bits of `reflect`'s value flag: `flagStickyRO` (reached
through an unexported, not embedded field) and `flagEmbedRO` (an unexported
embedded field itself). -/
structure flag where
  stickyRO : Bool
  embedRO : Bool
deriving DecidableEq

/-- Flag `flagRO`: either read-only bit is set.  `Set`, `SetString` and
`Interface` panic on such a value. -/
def flag.ro (fl : flag) : Bool :=
  fl.stickyRO || fl.embedRO

/-- Flag of `v.Field(i)`: the sticky bit is inherited, the embed bit is not;
an unexported field sets the embed bit when embedded and the sticky bit
otherwise. -/
def flag.field (fl : flag) (f : StructField) : flag :=
  ⟨fl.stickyRO || (!f.IsExported && !f.anonymous), !f.IsExported && f.anonymous⟩

/-- Flag of a value obtained from `reflect.ValueOf` or `reflect.New`. -/
def flag.rw : flag :=
  ⟨false, false⟩

/-! ## The secrets map -/

/-- Go's `map[string]string`, as an association list. -/
abbrev Secrets := List (String × String)

/-- Map read `m[key]` with the `ok` result. -/
def Secrets.lookup : Secrets → String → Option String
  | [], _ => none
  | (k, v) :: m, key => if k = key then some v else Secrets.lookup m key

/-- Map write `m[key] = val`. -/
def Secrets.assign : Secrets → String → String → Secrets
  | [], key, val => [(key, val)]
  | (k, v) :: m, key, val =>
      if k = key then (key, val) :: m else (k, v) :: Secrets.assign m key val

/-! ## Callbacks -/

/-- Type `OnValueFuncHandler`: given the field path and the value to scrub, the
callback returns the new value to set (`some`) or `nil` (`none`); `σ` is the
state the closure captures. -/
abbrev OnValueFuncHandler (σ : Type) := String → Value → σ → Option String × σ

/-- A deterministic callback: a pure function of the path and the value. -/
def OnValueFuncHandler.ofFun (C : String → Value → Option String) :
    OnValueFuncHandler Unit :=
  fun fieldPath valueToScrub st => (C fieldPath valueToScrub, st)

/-- A deterministic callback that also records every invocation, in order. -/
def OnValueFuncHandler.logged (C : String → Value → Option String) :
    OnValueFuncHandler (List (String × Value)) :=
  fun fieldPath valueToScrub log =>
    (C fieldPath valueToScrub, log ++ [(fieldPath, valueToScrub)])

/-- The decision of `DefaultOnValueFuncHandler`: a non-empty value of type
`string` is replaced by `"$ref-"` followed by the field path. -/
def defaultDecision (fieldPath : String) (valueToScrub : Value) : Option String :=
  match valueToScrub with
  | .str .plain valueStr => if valueStr ≠ "" then some ("$ref-" ++ fieldPath) else none
  | _ => none

/-- Variable `DefaultOnValueFuncHandler`. -/
def DefaultOnValueFuncHandler {σ : Type} : OnValueFuncHandler σ :=
  fun fieldPath valueToScrub st => (defaultDecision fieldPath valueToScrub, st)

/-! ## The traversal -/

mutual
/-- Function `travel`: the copy of `original` built in `travelValue`, the
secrets map and the callback state after the call; `none` when the call
panics.  `fl` holds the read-only bits shared by `travelValue` and `original`
(both are reached through the same fields). -/
def travel {σ : Type} (callback : OnValueFuncHandler σ) (fieldPath : String) (fl : flag) :
    Value → Secrets → σ → Option (Value × Secrets × σ)
  -- case reflect.Ptr
  | .nilPtr, secrets, st => some (.nilPtr, secrets, st)
  | .ptr v, secrets, st =>
      -- travelValue.Set(reflect.New(v.Type())) needs an assignable travelValue
      if fl.ro then none
      else
        match travel callback fieldPath flag.rw v secrets st with
        | none => none
        | some (v', secrets', st') => some (.ptr v', secrets', st')
  -- case reflect.Interface
  | .nilIface, _, _ =>
      -- original.Elem() is the zero Value and v.Type() panics
      none
  | .iface v, secrets, st =>
      -- under a read-only flag the inner call or the final travelValue.Set panics
      if fl.ro then none
      else
        match travel callback fieldPath flag.rw v secrets st with
        | none => none
        | some (v', secrets', st') => some (.iface v', secrets', st')
  -- case reflect.Struct
  | .struct fields, secrets, st =>
      match travelFields callback fieldPath fl fields secrets st with
      | none => none
      | some (fields', secrets', st') => some (.struct fields', secrets', st')
  -- case reflect.Slice
  | .nilSlice, secrets, st => some (.nilSlice, secrets, st)
  | .slice elems, secrets, st =>
      -- travelValue.Set(reflect.MakeSlice(...))
      if fl.ro then none
      else
        match travelElems callback fieldPath 0 elems secrets st with
        | none => none
        | some (elems', secrets', st') => some (.slice elems', secrets', st')
  -- case reflect.Map
  | .nilMap, secrets, st => some (.nilMap, secrets, st)
  | .map entries, secrets, st =>
      -- travelValue.Set(reflect.MakeMap(...))
      if fl.ro then none
      else
        match travelEntries callback fieldPath entries secrets st with
        | none => none
        | some (entries', secrets', st') => some (.map entries', secrets', st')
  -- case reflect.String
  | .str typ s, secrets, st =>
      -- original.Interface() panics on a read-only value
      if fl.ro then none
      else
        match callback fieldPath (.str typ s) st with
        | (some newContent, st') =>
            if s ≠ newContent then
              some (.str typ newContent, Secrets.assign secrets newContent s, st')
            else some (.str typ s, secrets, st')
        | (none, st') => some (.str typ s, secrets, st')
  -- default: travelValue.Set(original)
  | .other payload, secrets, st =>
      if fl.ro then none else some (.other payload, secrets, st)
  -- default, for reflect.Array: travelValue.Set(original)
  | .array elems, secrets, st =>
      if fl.ro then none else some (.array elems, secrets, st)
/-- The loop of `travel` over the fields of a struct. -/
def travelFields {σ : Type} (callback : OnValueFuncHandler σ) (fieldPath : String) (fl : flag) :
    List (StructField × Value) → Secrets → σ →
      Option (List (StructField × Value) × Secrets × σ)
  | [], secrets, st => some ([], secrets, st)
  | (f, v) :: rest, secrets, st =>
      match travel callback (fieldPath ++ "/" ++ f.name) (fl.field f) v secrets st with
      | none => none
      | some (v', secrets', st') =>
          match travelFields callback fieldPath fl rest secrets' st' with
          | none => none
          | some (rest', secrets'', st'') => some ((f, v') :: rest', secrets'', st'')
/-- The loop of `travel` over the elements of a slice, from index `i` on. -/
def travelElems {σ : Type} (callback : OnValueFuncHandler σ) (fieldPath : String) (i : Nat) :
    List Value → Secrets → σ → Option (List Value × Secrets × σ)
  | [], secrets, st => some ([], secrets, st)
  | v :: rest, secrets, st =>
      match travel callback (fieldPath ++ "[" ++ toString i ++ "]") flag.rw v secrets st with
      | none => none
      | some (v', secrets', st') =>
          match travelElems callback fieldPath (i + 1) rest secrets' st' with
          | none => none
          | some (rest', secrets'', st'') => some (v' :: rest', secrets'', st'')
/-- The loop of `travel` over the entries of a map. -/
def travelEntries {σ : Type} (callback : OnValueFuncHandler σ) (fieldPath : String) :
    List (String × Value) → Secrets → σ → Option (List (String × Value) × Secrets × σ)
  | [], secrets, st => some ([], secrets, st)
  | (key, v) :: rest, secrets, st =>
      match travel callback (fieldPath ++ "/" ++ key) flag.rw v secrets st with
      | none => none
      | some (v', secrets', st') =>
          match travelEntries callback fieldPath rest secrets' st' with
          | none => none
          | some (rest', secrets'', st'') => some ((key, v') :: rest', secrets'', st'')
end

/-! ## Entry points -/

/-- Function `Scrub`: the scrubbed object, the secrets map, and the state of
the callback after the call. -/
def Scrub {σ : Type} (obj : Value) (scrubFuncHandler : Option (OnValueFuncHandler σ))
    (st : σ) : Option (Value × Secrets × σ) :=
  let handler : OnValueFuncHandler σ :=
    match scrubFuncHandler with
    | none => DefaultOnValueFuncHandler
    | some h => h
  travel handler "" flag.rw obj [] st

/-- The callback `Restore` passes to `travel`: a value of type `string` that is
a key of `secrets` is replaced by the entry. -/
def restoreDecision (secrets : Secrets) (_fieldPath : String) (value : Value) :
    Option String :=
  match value with
  | .str .plain valueStr => Secrets.lookup secrets valueStr
  | _ => none

/-- The loop of `Restore` that copies the secrets map. -/
def copySecrets (secrets : Secrets) : Secrets :=
  secrets.foldl (fun secretsCopy kv => Secrets.assign secretsCopy kv.1 kv.2) []

/-- Function `Restore`. -/
def Restore (obj : Value) (secrets : Secrets) : Option Value :=
  match travel (OnValueFuncHandler.ofFun (restoreDecision secrets)) "/" flag.rw obj
      (copySecrets secrets) () with
  | none => none
  | some (restored, _, _) => some restored



/-! ## The traversal, described by path -/

mutual
/-- Whether `travel` completes on a value carrying the read-only bits `fl`:
no nil interface is met and nothing is set through an unexported field. -/
def travelOk (fl : flag) : Value → Bool
  | .nilPtr => true
  | .ptr v => !fl.ro && travelOk flag.rw v
  | .nilIface => false
  | .iface v => !fl.ro && travelOk flag.rw v
  | .struct fields => travelOkFields fl fields
  | .nilSlice => true
  | .slice elems => !fl.ro && travelOkElems elems
  | .nilMap => true
  | .map entries => !fl.ro && travelOkEntries entries
  | .str _ _ => !fl.ro
  | .other _ => !fl.ro
  | .array _ => !fl.ro
/-- All fields of a struct can be traversed. -/
def travelOkFields (fl : flag) : List (StructField × Value) → Bool
  | [] => true
  | (f, v) :: rest => travelOk (fl.field f) v && travelOkFields fl rest
/-- All elements of a slice can be traversed. -/
def travelOkElems : List Value → Bool
  | [] => true
  | v :: rest => travelOk flag.rw v && travelOkElems rest
/-- All entries of a map can be traversed. -/
def travelOkEntries : List (String × Value) → Bool
  | [] => true
  | (_, v) :: rest => travelOk flag.rw v && travelOkEntries rest
end

mutual
/-- The string leaves `travel` reaches, in traversal order, each with its
path: the concatenation, from `path`, of `"/" ++ fieldName` for a struct field,
`"[" ++ index ++ "]"` for a slice element and `"/" ++ key` for a map entry;
a pointer or an interface adds nothing.  An array is not entered. -/
def visits (path : String) : Value → List (String × Value)
  | .str typ s => [(path, .str typ s)]
  | .ptr v => visits path v
  | .iface v => visits path v
  | .struct fields => visitsFields path fields
  | .slice elems => visitsElems path 0 elems
  | .map entries => visitsEntries path entries
  | .other _ => []
  | .array _ => []
  | .nilPtr => []
  | .nilIface => []
  | .nilSlice => []
  | .nilMap => []
/-- String leaves below the fields of a struct. -/
def visitsFields (path : String) : List (StructField × Value) → List (String × Value)
  | [] => []
  | (f, v) :: rest => visits (path ++ "/" ++ f.name) v ++ visitsFields path rest
/-- String leaves below the elements of a slice, the first having index `i`. -/
def visitsElems (path : String) (i : Nat) : List Value → List (String × Value)
  | [] => []
  | v :: rest => visits (path ++ "[" ++ toString i ++ "]") v ++ visitsElems path (i + 1) rest
/-- String leaves below the entries of a map. -/
def visitsEntries (path : String) : List (String × Value) → List (String × Value)
  | [] => []
  | (key, v) :: rest => visits (path ++ "/" ++ key) v ++ visitsEntries path rest
end

mutual
/-- The value with each string leaf that `travel` reaches, at path `p` and
with value `v`, replaced by `t` when `C p v = some t`, and left as it is when
`C` declines; an array is kept as it is. -/
def scrubbed (C : String → Value → Option String) (path : String) : Value → Value
  | .str typ s =>
      match C path (.str typ s) with
      | some t => .str typ t
      | none => .str typ s
  | .ptr v => .ptr (scrubbed C path v)
  | .iface v => .iface (scrubbed C path v)
  | .struct fields => .struct (scrubbedFields C path fields)
  | .slice elems => .slice (scrubbedElems C path 0 elems)
  | .map entries => .map (scrubbedEntries C path entries)
  | .other payload => .other payload
  | .array elems => .array elems
  | .nilPtr => .nilPtr
  | .nilIface => .nilIface
  | .nilSlice => .nilSlice
  | .nilMap => .nilMap
/-- Replacement below the fields of a struct. -/
def scrubbedFields (C : String → Value → Option String) (path : String) :
    List (StructField × Value) → List (StructField × Value)
  | [] => []
  | (f, v) :: rest => (f, scrubbed C (path ++ "/" ++ f.name) v) :: scrubbedFields C path rest
/-- Replacement below the elements of a slice, the first having index `i`. -/
def scrubbedElems (C : String → Value → Option String) (path : String) (i : Nat) :
    List Value → List Value
  | [] => []
  | v :: rest =>
      scrubbed C (path ++ "[" ++ toString i ++ "]") v :: scrubbedElems C path (i + 1) rest
/-- Replacement below the entries of a map. -/
def scrubbedEntries (C : String → Value → Option String) (path : String) :
    List (String × Value) → List (String × Value)
  | [] => []
  | (key, v) :: rest => (key, scrubbed C (path ++ "/" ++ key) v) :: scrubbedEntries C path rest
end

/-- Content of a string leaf. -/
def Value.content : Value → String
  | .str _ s => s
  | _ => ""

/-- The write `travel` makes to the secrets map at one string leaf. -/
def recordLeaf (C : String → Value → Option String) (secrets : Secrets)
    (leaf : String × Value) : Secrets :=
  match C leaf.1 leaf.2 with
  | some t => if leaf.2.content ≠ t then Secrets.assign secrets t leaf.2.content else secrets
  | none => secrets

/-- The writes `travel` makes to the secrets map along a list of leaves. -/
def recorded (C : String → Value → Option String) (secrets : Secrets)
    (leaves : List (String × Value)) : Secrets :=
  leaves.foldl (recordLeaf C) secrets

/-- A deterministic callback with an observer `g` of its invocations. -/
def OnValueFuncHandler.observe {σ : Type} (C : String → Value → Option String)
    (g : String → Value → σ → σ) : OnValueFuncHandler σ :=
  fun fieldPath valueToScrub st => (C fieldPath valueToScrub, g fieldPath valueToScrub st)

/-- State of the observer after a list of invocations. -/
def observed {σ : Type} (g : String → Value → σ → σ) (st : σ)
    (leaves : List (String × Value)) : σ :=
  leaves.foldl (fun st leaf => g leaf.1 leaf.2 st) st

/-! ## The callback contract -/

/-- The replacement strings a callback returns along a list of leaves. -/
def tokens (C : String → Value → Option String) (leaves : List (String × Value)) :
    List String :=
  leaves.filterMap (fun leaf => C leaf.1 leaf.2)

/-- A leaf that `travel` leaves unchanged: the callback declines, or returns
the content the leaf already has. -/
def Untouched (C : String → Value → Option String) (leaf : String × Value) : Prop :=
  C leaf.1 leaf.2 = none ∨ C leaf.1 leaf.2 = some leaf.2.content

instance (C : String → Value → Option String) (leaf : String × Value) :
    Decidable (Untouched C leaf) :=
  inferInstanceAs (Decidable (_ ∨ _))

/-- The tokens returned for different leaves are pairwise distinct. -/
def UniqueTokens (C : String → Value → Option String) (leaves : List (String × Value)) :
    Prop :=
  (tokens C leaves).Nodup

/-- No returned token equals the content of a leaf that stays unchanged. -/
def TokensAvoidUntouched (C : String → Value → Option String)
    (leaves : List (String × Value)) : Prop :=
  ∀ t ∈ tokens C leaves, ∀ leaf ∈ leaves, Untouched C leaf → leaf.2.content ≠ t

instance (C : String → Value → Option String) (leaves : List (String × Value)) :
    Decidable (UniqueTokens C leaves) :=
  inferInstanceAs (Decidable (List.Nodup _))

instance (C : String → Value → Option String) (leaves : List (String × Value)) :
    Decidable (TokensAvoidUntouched C leaves) :=
  inferInstanceAs (Decidable (∀ t ∈ tokens C leaves, ∀ leaf ∈ leaves, _ → _))

/-- Whether a leaf has the predeclared type `string`. -/
def Value.isPlain : Value → Bool
  | .str .plain _ => true
  | _ => false

/-- Only leaves of the predeclared type `string` are replaced. -/
def ReplacesPlainOnly (C : String → Value → Option String)
    (leaves : List (String × Value)) : Prop :=
  ∀ leaf ∈ leaves, Untouched C leaf ∨ leaf.2.isPlain = true

instance (C : String → Value → Option String) (leaves : List (String × Value)) :
    Decidable (ReplacesPlainOnly C leaves) :=
  inferInstanceAs (Decidable (∀ leaf ∈ leaves, _ ∨ _))

/-! ## Restoring, by content -/

mutual
/-- The value with every leaf of type `string` that `travel` reaches and whose
content is a key of `secrets` replaced by the entry; everything else is
copied. -/
def restored (secrets : Secrets) : Value → Value
  | .str .plain x =>
      match Secrets.lookup secrets x with
      | some y => .str .plain y
      | none => .str .plain x
  | .str (.named n) x => .str (.named n) x
  | .ptr v => .ptr (restored secrets v)
  | .iface v => .iface (restored secrets v)
  | .struct fields => .struct (restoredFields secrets fields)
  | .slice elems => .slice (restoredElems secrets elems)
  | .map entries => .map (restoredEntries secrets entries)
  | .other payload => .other payload
  | .array elems => .array elems
  | .nilPtr => .nilPtr
  | .nilIface => .nilIface
  | .nilSlice => .nilSlice
  | .nilMap => .nilMap
/-- Restoring the fields of a struct. -/
def restoredFields (secrets : Secrets) :
    List (StructField × Value) → List (StructField × Value)
  | [] => []
  | (f, v) :: rest => (f, restored secrets v) :: restoredFields secrets rest
/-- Restoring the elements of a slice. -/
def restoredElems (secrets : Secrets) : List Value → List Value
  | [] => []
  | v :: rest => restored secrets v :: restoredElems secrets rest
/-- Restoring the entries of a map. -/
def restoredEntries (secrets : Secrets) : List (String × Value) → List (String × Value)
  | [] => []
  | (key, v) :: rest => (key, restored secrets v) :: restoredEntries secrets rest
end

/-! ## Positions and shapes -/

/-- One step from a value to a part of it. -/
inductive Step
  | deref
  | field (name : String)
  | index (i : Nat)
  | key (k : String)

/-- The field of that name. -/
def fieldNamed (name : String) : List (StructField × Value) → Option Value
  | [] => none
  | (f, v) :: rest => if f.name = name then some v else fieldNamed name rest

/-- The entry under that key. -/
def entryAt (k : String) : List (String × Value) → Option Value
  | [] => none
  | (key, v) :: rest => if key = k then some v else entryAt k rest

/-- The part of a value one step away. -/
def Value.child : Value → Step → Option Value
  | .ptr v, .deref => some v
  | .iface v, .deref => some v
  | .struct fields, .field name => fieldNamed name fields
  | .slice elems, .index i => elems[i]?
  | .array elems, .index i => elems[i]?
  | .map entries, .key k => entryAt k entries
  | _, _ => none

/-- The part of a value at a position. -/
def Value.sub : Value → List Step → Option Value
  | v, [] => some v
  | v, step :: position => (v.child step).bind (fun w => w.sub position)

/-- The kinds `travel` distinguishes. -/
inductive Kind
  | string
  | ptr
  | interface
  | struct
  | slice
  | map
  | array
  | other
deriving DecidableEq

/-- Method `Kind` of `reflect.Value`. -/
def Value.kind : Value → Kind
  | .str _ _ => .string
  | .other _ => .other
  | .array _ => .array
  | .nilPtr => .ptr
  | .ptr _ => .ptr
  | .nilIface => .interface
  | .iface _ => .interface
  | .struct _ => .struct
  | .nilSlice => .slice
  | .slice _ => .slice
  | .nilMap => .map
  | .map _ => .map

/-- An absent (nil) pointer, interface, slice or map. -/
def Value.isAbsent : Value → Bool
  | .nilPtr => true
  | .nilIface => true
  | .nilSlice => true
  | .nilMap => true
  | _ => false

/-- An initialized slice or map without elements. -/
def Value.isEmptyInit : Value → Bool
  | .slice [] => true
  | .map [] => true
  | _ => false

mutual
/-- The value with the content of every string leaf erased. -/
def skeleton : Value → Value
  | .str typ _ => .str typ ""
  | .ptr v => .ptr (skeleton v)
  | .iface v => .iface (skeleton v)
  | .struct fields => .struct (skeletonFields fields)
  | .slice elems => .slice (skeletonElems elems)
  | .map entries => .map (skeletonEntries entries)
  | .other payload => .other payload
  | .array elems => .array (skeletonElems elems)
  | .nilPtr => .nilPtr
  | .nilIface => .nilIface
  | .nilSlice => .nilSlice
  | .nilMap => .nilMap
/-- Erasing below the fields of a struct. -/
def skeletonFields : List (StructField × Value) → List (StructField × Value)
  | [] => []
  | (f, v) :: rest => (f, skeleton v) :: skeletonFields rest
/-- Erasing below the elements of a slice. -/
def skeletonElems : List Value → List Value
  | [] => []
  | v :: rest => skeleton v :: skeletonElems rest
/-- Erasing below the entries of a map. -/
def skeletonEntries : List (String × Value) → List (String × Value)
  | [] => []
  | (key, v) :: rest => (key, skeleton v) :: skeletonEntries rest
end

/-! ## Values and callbacks of the tests -/

/-- Function `stringInSlice` of the tests. -/
def stringInSlice (s : String) : List String → Bool
  | [] => false
  | v :: ss => if v = s then true else stringInSlice s ss

/-- Function `scrubbingFunction` of the tests. -/
def scrubbingFunction (allowedFieldPaths : List String) : String → Value → Option String :=
  fun fieldPath _ =>
    if stringInSlice fieldPath allowedFieldPaths then some ("scrubbed" ++ fieldPath) else none

/-- An exported, not embedded field. -/
def exportedField (name : String) : StructField :=
  ⟨name, "", false⟩

/-- An exported embedded field. -/
def embeddedField (name : String) : StructField :=
  ⟨name, "", true⟩

/-- Type `SomeType` of the tests. -/
def SomeType : StringType :=
  .named "SomeType"

/-- A value of the struct type `A` of the tests. -/
def structA (string : String) (int : Nat) (mapStrToInterface : Value) : Value :=
  .struct [(exportedField "String", .str .plain string), (exportedField "Int", .other int),
    (exportedField "MapStrToInterface", mapStrToInterface)]

/-- A value of the struct type `B` of the tests, which embeds `A`. -/
def structB (a : Value) (stringOther : String) (typeString : String) : Value :=
  .struct [(embeddedField "A", a), (exportedField "StringOther", .str .plain stringOther),
    (exportedField "TypeString", .str SomeType typeString)]

/-- The raw object of the test case "Struct with embedded struct". -/
def rawB : Value :=
  .ptr (structB (structA "Expose Me" 1 (.map [("name", .iface (.str .plain "B/A"))]))
    "hideMe" "SomeTypeName")

/-- The raw object of the test case "Struct containing a list" (type `D`). -/
def rawD : Value :=
  .ptr (.struct [
    (exportedField "List", .slice [.str .plain "a", .str .plain "b", .str .plain "c"]),
    (exportedField "InitializedListEmpty", .slice []),
    (exportedField "UnInitializedList", .nilSlice),
    (exportedField "InitializedMapEmpty", .map []),
    (exportedField "UnInitializedMap", .nilMap),
    (exportedField "InitializedStructEmpty", structA "" 0 .nilMap),
    (exportedField "InitializedStructPtrEmpty", .ptr (structA "" 0 .nilMap)),
    (exportedField "UnInitializedStructPtr", .nilPtr),
    (exportedField "UnInitializedStruct", structA "" 0 .nilMap)])

/-- The scrubbed object of the test case "Struct containing a list". -/
def scrubbedD : Value :=
  .ptr (.struct [
    (exportedField "List",
      .slice [.str .plain "scrubbed/List[0]", .str .plain "b", .str .plain "scrubbed/List[2]"]),
    (exportedField "InitializedListEmpty", .slice []),
    (exportedField "UnInitializedList", .nilSlice),
    (exportedField "InitializedMapEmpty", .map []),
    (exportedField "UnInitializedMap", .nilMap),
    (exportedField "InitializedStructEmpty", structA "" 0 .nilMap),
    (exportedField "InitializedStructPtrEmpty", .ptr (structA "" 0 .nilMap)),
    (exportedField "UnInitializedStructPtr", .nilPtr),
    (exportedField "UnInitializedStruct", structA "" 0 .nilMap)])

/-- The secrets of the test case "Struct containing a list". -/
def secretsD : Secrets :=
  [("scrubbed/List[0]", "a"), ("scrubbed/List[2]", "c")]

/-- The object `rawB` with the field `TypeString` scrubbed. -/
def scrubbedTypeStringB : Value :=
  .ptr (structB (structA "Expose Me" 1 (.map [("name", .iface (.str .plain "B/A"))]))
    "hideMe" "scrubbed/TypeString")

/-- The callback of the path example: it matches the path `/a[0]` only. -/
def onlyFirstOfA : String → Value → Option String :=
  fun fieldPath _ => if fieldPath = "/a[0]" then some "<token>" else none

/-- The object `rawB` scrubbed by the default callback. -/
def defaultScrubbedB : Value :=
  .ptr (structB
    (structA "$ref-/A/String" 1
      (.map [("name", .iface (.str .plain "$ref-/A/MapStrToInterface/name"))]))
    "$ref-/StringOther" "SomeTypeName")

/-- A callback that declines everywhere. -/
def declineAll : String → Value → Option String :=
  fun _ _ => none

/-- A deterministic callback whose answer depends on the value: it appends
an exclamation mark. -/
def appendMark : String → Value → Option String :=
  fun _ valueToScrub => some (valueToScrub.content ++ "!")

/-- No original stored in the secrets is itself a key that maps to a
different string. -/
def NoChains (S : Secrets) : Prop :=
  ∀ e ∈ S, Secrets.lookup S e.2 = none ∨ Secrets.lookup S e.2 = some e.2

instance (S : Secrets) : Decidable (NoChains S) :=
  inferInstanceAs (Decidable (∀ e ∈ S, _ ∨ _))

/-- Two values have the same shape: at every position both have a part or
neither has, of the same kind, absent (nil) in both or in neither, and an
initialized empty slice or map in both or in neither. -/
def SameShape (V W : Value) : Prop :=
  ∀ position : List Step,
    (W.sub position).map Value.kind = (V.sub position).map Value.kind ∧
    (W.sub position).map Value.isAbsent = (V.sub position).map Value.isAbsent ∧
    (W.sub position).map Value.isEmptyInit = (V.sub position).map Value.isEmptyInit

/-- Any callback, made to record every invocation next to its own state. -/
def OnValueFuncHandler.withLog {σ : Type} (callback : OnValueFuncHandler σ) :
    OnValueFuncHandler (σ × List (String × Value)) :=
  fun fieldPath valueToScrub st =>
    ((callback fieldPath valueToScrub st.1).1,
      ((callback fieldPath valueToScrub st.1).2, st.2 ++ [(fieldPath, valueToScrub)]))

/-- A value of the struct type `C` of the tests. -/
def structC (string : String) (mapStrToStr interface otherStruct otherStructPtr : Value) :
    Value :=
  .struct [(exportedField "String", .str .plain string),
    (exportedField "MapStrToStr", mapStrToStr),
    (exportedField "Interface", interface),
    (exportedField "OtherStruct", otherStruct),
    (exportedField "OtherStructPtr", otherStructPtr)]

/-- The object `&C{String: "C"}`: the field `Interface` holds no value and the
field `OtherStructPtr` is a nil pointer. -/
def rawCNilInterface : Value :=
  .ptr (structC "C" .nilMap .nilIface (structA "" 0 .nilMap) .nilPtr)

/-- The object `&C{String: "C", Interface: "dontell"}`: the field
`OtherStructPtr` is a nil pointer, no interface is nil. -/
def rawCNilPtr : Value :=
  .ptr (structC "C" .nilMap (.iface (.str .plain "dontell")) (structA "" 0 .nilMap) .nilPtr)

/-- The object `&A{MapStrToInterface: map[string]interface{}{"k": nil}}`: a map
entry holds no value. -/
def rawANilEntry : Value :=
  .ptr (structA "hideMe" 1 (.map [("k", .nilIface)]))

mutual
/-- Whether the value holds an interface without a value somewhere `travel`
reaches. -/
def Value.hasNilIface : Value → Bool
  | .nilIface => true
  | .iface v => v.hasNilIface
  | .ptr v => v.hasNilIface
  | .struct fields => hasNilIfaceFields fields
  | .slice elems => hasNilIfaceElems elems
  | .map entries => hasNilIfaceEntries entries
  | .str _ _ => false
  | .other _ => false
  | .array _ => false
  | .nilPtr => false
  | .nilSlice => false
  | .nilMap => false
/-- Some field holds an interface without a value. -/
def hasNilIfaceFields : List (StructField × Value) → Bool
  | [] => false
  | (_, v) :: rest => v.hasNilIface || hasNilIfaceFields rest
/-- Some element holds an interface without a value. -/
def hasNilIfaceElems : List Value → Bool
  | [] => false
  | v :: rest => v.hasNilIface || hasNilIfaceElems rest
/-- Some entry holds an interface without a value. -/
def hasNilIfaceEntries : List (String × Value) → Bool
  | [] => false
  | (_, v) :: rest => v.hasNilIface || hasNilIfaceEntries rest
end

/-- A faulty callback: it returns the token `"T"` for the paths `/StringOther`
and `/TypeString`. -/
def collidingFunction : String → Value → Option String :=
  fun fieldPath _ =>
    if stringInSlice fieldPath ["/StringOther", "/TypeString"] then some "T" else none

/-- The object `rawB` with the fields `StringOther` and `TypeString`
replaced by the token `"T"`. -/
def collidedB : Value :=
  .ptr (structB (structA "Expose Me" 1 (.map [("name", .iface (.str .plain "B/A"))])) "T" "T")

/-- A token-stable callback: whenever it returns a token `t` for a leaf at
path `p`, asked again at `p` for a leaf holding `t` it declines or returns `t`
again. -/
def TokenStable (C : String → Value → Option String) : Prop :=
  ∀ (p : String) (typ : StringType) (x t : String),
    C p (.str typ x) = some t → C p (.str typ t) = none ∨ C p (.str typ t) = some t

/-- The string leaves `travel` reaches in the value have pairwise distinct
rendered paths. -/
def DistinctPaths (V : Value) : Prop :=
  ((visits "" V).map Prod.fst).Nodup

instance (V : Value) : Decidable (DistinctPaths V) :=
  inferInstanceAs (Decidable (List.Nodup _))

/-- A slice whose elements already look like tokens of the default policy. -/
def tokenLikeSlice : Value :=
  .slice [.str .plain "$ref-[1]", .str .plain "x", .str .plain "$ref-[2]"]

/-! ## Maps as references

Go maps are references.  To say which map a write goes to, the maps of type
`map[string]string` live in a heap and `travel` is given the address of the
map it writes to. -/

/-- The maps of type `map[string]string` that exist, by address. -/
abbrev MapHeap := List Secrets

/-- A value of type `map[string]string`: `none` is the nil map, `some a` the map
at address `a`. -/
abbrev MapRef := Option Nat

/-- The content of the map a reference points to; the nil map has no entry. -/
def MapHeap.read (heap : MapHeap) : MapRef → Secrets
  | none => []
  | some a => heap.getD a []

/-- Map write `m[key] = val` through a reference; a write to the nil map
panics. -/
def MapHeap.assign (heap : MapHeap) (m : MapRef) (key val : String) : Option MapHeap :=
  match m with
  | none => none
  | some a =>
      if a < heap.length then
        some (heap.set a (Secrets.assign (heap.read (some a)) key val))
      else none

/-- Type `OnValueFuncHandler` for a closure that may read the maps that
exist when it is called. -/
abbrev OnValueFuncHandlerAt (σ : Type) := String → Value → MapHeap → σ → Option String × σ

mutual
/-- Function `travel`, with the parameter `secrets` a reference to a map in the
heap. -/
def travelAt {σ : Type} (callback : OnValueFuncHandlerAt σ) (fieldPath : String) (fl : flag)
    (secrets : MapRef) : Value → MapHeap → σ → Option (Value × MapHeap × σ)
  -- case reflect.Ptr
  | .nilPtr, heap, st => some (.nilPtr, heap, st)
  | .ptr v, heap, st =>
      if fl.ro then none
      else
        match travelAt callback fieldPath flag.rw secrets v heap st with
        | none => none
        | some (v', heap', st') => some (.ptr v', heap', st')
  -- case reflect.Interface
  | .nilIface, _, _ => none
  | .iface v, heap, st =>
      if fl.ro then none
      else
        match travelAt callback fieldPath flag.rw secrets v heap st with
        | none => none
        | some (v', heap', st') => some (.iface v', heap', st')
  -- case reflect.Struct
  | .struct fields, heap, st =>
      match travelFieldsAt callback fieldPath fl secrets fields heap st with
      | none => none
      | some (fields', heap', st') => some (.struct fields', heap', st')
  -- case reflect.Slice
  | .nilSlice, heap, st => some (.nilSlice, heap, st)
  | .slice elems, heap, st =>
      if fl.ro then none
      else
        match travelElemsAt callback fieldPath 0 secrets elems heap st with
        | none => none
        | some (elems', heap', st') => some (.slice elems', heap', st')
  -- case reflect.Map
  | .nilMap, heap, st => some (.nilMap, heap, st)
  | .map entries, heap, st =>
      if fl.ro then none
      else
        match travelEntriesAt callback fieldPath secrets entries heap st with
        | none => none
        | some (entries', heap', st') => some (.map entries', heap', st')
  -- case reflect.String
  | .str typ s, heap, st =>
      if fl.ro then none
      else
        match callback fieldPath (.str typ s) heap st with
        | (some newContent, st') =>
            if s ≠ newContent then
              -- secrets[*newContent] = original.String()
              match heap.assign secrets newContent s with
              | none => none
              | some heap' => some (.str typ newContent, heap', st')
            else some (.str typ s, heap, st')
        | (none, st') => some (.str typ s, heap, st')
  -- default
  | .other payload, heap, st =>
      if fl.ro then none else some (.other payload, heap, st)
  | .array elems, heap, st =>
      if fl.ro then none else some (.array elems, heap, st)
/-- The loop of `travelAt` over the fields of a struct. -/
def travelFieldsAt {σ : Type} (callback : OnValueFuncHandlerAt σ) (fieldPath : String)
    (fl : flag) (secrets : MapRef) :
    List (StructField × Value) → MapHeap → σ →
      Option (List (StructField × Value) × MapHeap × σ)
  | [], heap, st => some ([], heap, st)
  | (f, v) :: rest, heap, st =>
      match travelAt callback (fieldPath ++ "/" ++ f.name) (fl.field f) secrets v heap st with
      | none => none
      | some (v', heap', st') =>
          match travelFieldsAt callback fieldPath fl secrets rest heap' st' with
          | none => none
          | some (rest', heap'', st'') => some ((f, v') :: rest', heap'', st'')
/-- The loop of `travelAt` over the elements of a slice, from index `i` on. -/
def travelElemsAt {σ : Type} (callback : OnValueFuncHandlerAt σ) (fieldPath : String)
    (i : Nat) (secrets : MapRef) :
    List Value → MapHeap → σ → Option (List Value × MapHeap × σ)
  | [], heap, st => some ([], heap, st)
  | v :: rest, heap, st =>
      match travelAt callback (fieldPath ++ "[" ++ toString i ++ "]") flag.rw secrets v heap st
        with
      | none => none
      | some (v', heap', st') =>
          match travelElemsAt callback fieldPath (i + 1) secrets rest heap' st' with
          | none => none
          | some (rest', heap'', st'') => some (v' :: rest', heap'', st'')
/-- The loop of `travelAt` over the entries of a map. -/
def travelEntriesAt {σ : Type} (callback : OnValueFuncHandlerAt σ) (fieldPath : String)
    (secrets : MapRef) :
    List (String × Value) → MapHeap → σ → Option (List (String × Value) × MapHeap × σ)
  | [], heap, st => some ([], heap, st)
  | (key, v) :: rest, heap, st =>
      match travelAt callback (fieldPath ++ "/" ++ key) flag.rw secrets v heap st with
      | none => none
      | some (v', heap', st') =>
          match travelEntriesAt callback fieldPath secrets rest heap' st' with
          | none => none
          | some (rest', heap'', st'') => some ((key, v') :: rest', heap'', st'')
end

/-- The callback of `Restore`, a closure over the reference `secrets`. -/
def restoreCallbackAt (secrets : MapRef) : OnValueFuncHandlerAt Unit :=
  fun fieldPath value heap st => (restoreDecision (heap.read secrets) fieldPath value, st)

/-- The loop of `Restore` that copies the map `secrets` into the map
`secretsCopy`, entry by entry. -/
def copySecretsAt (heap : MapHeap) (secrets secretsCopy : MapRef) : Option MapHeap :=
  (heap.read secrets).foldl
    (fun h kv => h.bind (fun h => h.assign secretsCopy kv.1 kv.2)) (some heap)

/-- Function `Restore`, with the parameter `secrets` a reference to the
caller's map: the restored object and the maps that exist after the call. -/
def RestoreAt (heap : MapHeap) (obj : Value) (secrets : MapRef) : Option (Value × MapHeap) :=
  -- secretsCopy := make(map[string]string)
  let secretsCopy : MapRef := some heap.length
  let heap₁ : MapHeap := heap ++ [[]]
  match copySecretsAt heap₁ secrets secretsCopy with
  | none => none
  | some heap₂ =>
      match travelAt (restoreCallbackAt secrets) "/" flag.rw secretsCopy obj heap₂ () with
      | none => none
      | some (restored, heap₃, _) => some (restored, heap₃)

/-! ## Objects in memory

To say which objects a call writes and which objects its result refers to,
values carry the addresses of the objects they refer to, and the traversal
keeps a record of the objects it writes and of the next free address. -/

/-- A Go value with the addresses of the objects it refers to: the variable a
pointer points to, the backing array of a slice, the table of a map, and the
objects an opaque value (a channel, a function ...) refers to.  The elements
of an array lie in the array itself. -/
inductive AValue
  | str (typ : StringType) (s : String)
  | other (payload : Nat) (refs : List Nat)
  | array (elems : List AValue)
  | nilPtr
  | ptr (addr : Nat) (elem : AValue)
  | nilIface
  | iface (elem : AValue)
  | struct (fields : List (StructField × AValue))
  | nilSlice
  | slice (addr : Nat) (elems : List AValue)
  | nilMap
  | map (addr : Nat) (entries : List (String × AValue))

mutual
/-- The value without the addresses. -/
def AValue.erase : AValue → Value
  | .str typ s => .str typ s
  | .other payload _ => .other payload
  | .array elems => .array (eraseElems elems)
  | .nilPtr => .nilPtr
  | .ptr _ v => .ptr v.erase
  | .nilIface => .nilIface
  | .iface v => .iface v.erase
  | .struct fields => .struct (eraseFields fields)
  | .nilSlice => .nilSlice
  | .slice _ elems => .slice (eraseElems elems)
  | .nilMap => .nilMap
  | .map _ entries => .map (eraseEntries entries)
/-- The fields without the addresses. -/
def eraseFields : List (StructField × AValue) → List (StructField × Value)
  | [] => []
  | (f, v) :: rest => (f, v.erase) :: eraseFields rest
/-- The elements without the addresses. -/
def eraseElems : List AValue → List Value
  | [] => []
  | v :: rest => v.erase :: eraseElems rest
/-- The entries without the addresses. -/
def eraseEntries : List (String × AValue) → List (String × Value)
  | [] => []
  | (key, v) :: rest => (key, v.erase) :: eraseEntries rest
end

mutual
/-- The addresses of all objects the value refers to, directly or through
other objects. -/
def AValue.addresses : AValue → List Nat
  | .str _ _ => []
  | .other _ refs => refs
  | .array elems => addressesElems elems
  | .nilPtr => []
  | .ptr addr v => addr :: v.addresses
  | .nilIface => []
  | .iface v => v.addresses
  | .struct fields => addressesFields fields
  | .nilSlice => []
  | .slice addr elems => addr :: addressesElems elems
  | .nilMap => []
  | .map addr entries => addr :: addressesEntries entries
/-- The addresses the fields refer to. -/
def addressesFields : List (StructField × AValue) → List Nat
  | [] => []
  | (_, v) :: rest => v.addresses ++ addressesFields rest
/-- The addresses the elements refer to. -/
def addressesElems : List AValue → List Nat
  | [] => []
  | v :: rest => v.addresses ++ addressesElems rest
/-- The addresses the entries refer to. -/
def addressesEntries : List (String × AValue) → List Nat
  | [] => []
  | (_, v) :: rest => v.addresses ++ addressesEntries rest
end

mutual
/-- The addresses referred to by the parts of the value that `travel` copies
as they are: its arrays and its opaque values. -/
def AValue.opaqueRefs : AValue → List Nat
  | .str _ _ => []
  | .other _ refs => refs
  | .array elems => addressesElems elems
  | .nilPtr => []
  | .ptr _ v => v.opaqueRefs
  | .nilIface => []
  | .iface v => v.opaqueRefs
  | .struct fields => opaqueRefsFields fields
  | .nilSlice => []
  | .slice _ elems => opaqueRefsElems elems
  | .nilMap => []
  | .map _ entries => opaqueRefsEntries entries
/-- The addresses referred to by the parts of the fields copied as they are. -/
def opaqueRefsFields : List (StructField × AValue) → List Nat
  | [] => []
  | (_, v) :: rest => v.opaqueRefs ++ opaqueRefsFields rest
/-- The addresses referred to by the parts of the elements copied as they
are. -/
def opaqueRefsElems : List AValue → List Nat
  | [] => []
  | v :: rest => v.opaqueRefs ++ opaqueRefsElems rest
/-- The addresses referred to by the parts of the entries copied as they
are. -/
def opaqueRefsEntries : List (String × AValue) → List Nat
  | [] => []
  | (_, v) :: rest => v.opaqueRefs ++ opaqueRefsEntries rest
end

/-- What a run has done to memory: the addresses of the objects it has written
(an object is written once per write) and the next free address. -/
structure Memory where
  written : List Nat
  next : Nat

/-- The memory after a write to the object at `addr`. -/
def Memory.write (mem : Memory) (addr : Nat) : Memory :=
  ⟨addr :: mem.written, mem.next⟩

/-- The memory after the allocation of a new object, at the address
`mem.next`. -/
def Memory.alloc (mem : Memory) : Memory :=
  ⟨mem.written, mem.next + 1⟩

mutual
/-- Function `travel` with its effects on memory.  `travelValue` is the address
of the object the destination lies in, `secretsAt` the address of the map
`secrets`; the result holds the copy with the addresses of its objects. -/
def travelIn {σ : Type} (callback : OnValueFuncHandler σ) (fieldPath : String) (fl : flag)
    (travelValue secretsAt : Nat) :
    AValue → Secrets → σ → Memory → Option (AValue × Secrets × σ × Memory)
  -- case reflect.Ptr
  | .nilPtr, secrets, st, mem => some (.nilPtr, secrets, st, mem)
  | .ptr _ v, secrets, st, mem =>
      if fl.ro then none
      else
        -- travelValue.Set(reflect.New(v.Type())): a new variable, at mem.next, and a
        -- write of the pointer to it into the destination
        match travelIn callback fieldPath flag.rw mem.next secretsAt v secrets st
            (mem.alloc.write travelValue) with
        | none => none
        | some (v', secrets', st', mem') => some (.ptr mem.next v', secrets', st', mem')
  -- case reflect.Interface
  | .nilIface, _, _, _ => none
  | .iface v, secrets, st, mem =>
      if fl.ro then none
      else
        -- copyValue := reflect.New(v.Type()).Elem(): a new variable, at mem.next
        match travelIn callback fieldPath flag.rw mem.next secretsAt v secrets st mem.alloc with
        | none => none
        | some (v', secrets', st', mem') =>
            -- travelValue.Set(copyValue)
            some (.iface v', secrets', st', mem'.write travelValue)
  -- case reflect.Struct: the fields lie in the object the struct lies in
  | .struct fields, secrets, st, mem =>
      match travelFieldsIn callback fieldPath fl travelValue secretsAt fields secrets st mem with
      | none => none
      | some (fields', secrets', st', mem') => some (.struct fields', secrets', st', mem')
  -- case reflect.Slice
  | .nilSlice, secrets, st, mem => some (.nilSlice, secrets, st, mem)
  | .slice _ elems, secrets, st, mem =>
      if fl.ro then none
      else
        -- travelValue.Set(reflect.MakeSlice(...)): a new backing array, at mem.next
        match travelElemsIn callback fieldPath 0 mem.next secretsAt elems secrets st
            (mem.alloc.write travelValue) with
        | none => none
        | some (elems', secrets', st', mem') => some (.slice mem.next elems', secrets', st', mem')
  -- case reflect.Map
  | .nilMap, secrets, st, mem => some (.nilMap, secrets, st, mem)
  | .map _ entries, secrets, st, mem =>
      if fl.ro then none
      else
        -- travelValue.Set(reflect.MakeMap(...)): a new table, at mem.next
        match travelEntriesIn callback fieldPath mem.next secretsAt entries secrets st
            (mem.alloc.write travelValue) with
        | none => none
        | some (entries', secrets', st', mem') => some (.map mem.next entries', secrets', st', mem')
  -- case reflect.String
  | .str typ s, secrets, st, mem =>
      if fl.ro then none
      else
        match callback fieldPath (.str typ s) st with
        | (some newContent, st') =>
            if s ≠ newContent then
              -- secrets[*newContent] = original.String(); travelValue.SetString(*newContent)
              some (.str typ newContent, Secrets.assign secrets newContent s, st',
                (mem.write secretsAt).write travelValue)
            else some (.str typ s, secrets, st', mem.write travelValue)
        | (none, st') => some (.str typ s, secrets, st', mem.write travelValue)
  -- default: travelValue.Set(original), the value with the references it holds
  | .other payload refs, secrets, st, mem =>
      if fl.ro then none else some (.other payload refs, secrets, st, mem.write travelValue)
  -- default, for reflect.Array: the elements as they are
  | .array elems, secrets, st, mem =>
      if fl.ro then none else some (.array elems, secrets, st, mem.write travelValue)
/-- The loop of `travelIn` over the fields of a struct. -/
def travelFieldsIn {σ : Type} (callback : OnValueFuncHandler σ) (fieldPath : String) (fl : flag)
    (travelValue secretsAt : Nat) :
    List (StructField × AValue) → Secrets → σ → Memory →
      Option (List (StructField × AValue) × Secrets × σ × Memory)
  | [], secrets, st, mem => some ([], secrets, st, mem)
  | (f, v) :: rest, secrets, st, mem =>
      match travelIn callback (fieldPath ++ "/" ++ f.name) (fl.field f) travelValue secretsAt v
          secrets st mem with
      | none => none
      | some (v', secrets', st', mem') =>
          match travelFieldsIn callback fieldPath fl travelValue secretsAt rest secrets' st' mem'
            with
          | none => none
          | some (rest', secrets'', st'', mem'') => some ((f, v') :: rest', secrets'', st'', mem'')
/-- The loop of `travelIn` over the elements of a slice, from index `i` on; the
elements of the copy lie in its backing array, at `travelValue`. -/
def travelElemsIn {σ : Type} (callback : OnValueFuncHandler σ) (fieldPath : String) (i : Nat)
    (travelValue secretsAt : Nat) :
    List AValue → Secrets → σ → Memory → Option (List AValue × Secrets × σ × Memory)
  | [], secrets, st, mem => some ([], secrets, st, mem)
  | v :: rest, secrets, st, mem =>
      match travelIn callback (fieldPath ++ "[" ++ toString i ++ "]") flag.rw travelValue
          secretsAt v secrets st mem with
      | none => none
      | some (v', secrets', st', mem') =>
          match travelElemsIn callback fieldPath (i + 1) travelValue secretsAt rest secrets' st'
              mem' with
          | none => none
          | some (rest', secrets'', st'', mem'') => some (v' :: rest', secrets'', st'', mem'')
/-- The loop of `travelIn` over the entries of a map; `travelValue` is the
address of the table of the copy. -/
def travelEntriesIn {σ : Type} (callback : OnValueFuncHandler σ) (fieldPath : String)
    (travelValue secretsAt : Nat) :
    List (String × AValue) → Secrets → σ → Memory →
      Option (List (String × AValue) × Secrets × σ × Memory)
  | [], secrets, st, mem => some ([], secrets, st, mem)
  | (key, v) :: rest, secrets, st, mem =>
      -- copyValue := reflect.New(v.Type()).Elem(): a new variable, at mem.next
      match travelIn callback (fieldPath ++ "/" ++ key) flag.rw mem.next secretsAt v secrets st
          mem.alloc with
      | none => none
      | some (v', secrets', st', mem') =>
          -- travelValue.SetMapIndex(key, copyValue)
          match travelEntriesIn callback fieldPath travelValue secretsAt rest secrets' st'
              (mem'.write travelValue) with
          | none => none
          | some (rest', secrets'', st'', mem'') =>
              some ((key, v') :: rest', secrets'', st'', mem'')
end

/-- Function `Scrub` with its effects on memory, `next` being the next free
address when it is called: the object `scrubbedObj` is allocated at `next`,
the map `secrets` at `next + 1`. -/
def ScrubIn {σ : Type} (obj : AValue) (scrubFuncHandler : Option (OnValueFuncHandler σ))
    (st : σ) (next : Nat) : Option (AValue × Secrets × σ × Memory) :=
  let handler : OnValueFuncHandler σ :=
    match scrubFuncHandler with
    | none => DefaultOnValueFuncHandler
    | some h => h
  travelIn handler "" flag.rw next (next + 1) obj [] st ⟨[], next + 2⟩

/-- Function `Restore` with its effects on memory: the object `scrubbedObj` is
allocated at `next`, the map `secretsCopy` at `next + 1` and written once per
entry of `secrets`. -/
def RestoreIn (obj : AValue) (secrets : Secrets) (next : Nat) : Option (AValue × Memory) :=
  match travelIn (OnValueFuncHandler.ofFun (restoreDecision secrets)) "/" flag.rw next (next + 1)
      obj (copySecrets secrets) () ⟨secrets.map (fun _ => next + 1), next + 2⟩ with
  | none => none
  | some (restored, _, _, mem) => some (restored, mem)

/-- Every object written so far, and every object allocated from now on, has
an address from `lo` on. -/
def Memory.FreshFrom (mem : Memory) (lo : Nat) : Prop :=
  (∀ a ∈ mem.written, lo ≤ a) ∧ lo ≤ mem.next

/-- An object of a type `struct { Name string; Arr [1][]string }` behind a
pointer: the struct lies at address 0, and the array `Arr`, which `travel`
copies as it is, holds a slice whose backing array lies at address 1. -/
def objWithArray : AValue :=
  .ptr 0 (.struct [(exportedField "Name", .str .plain "secret"),
    (exportedField "Arr", .array [.slice 1 [.str .plain "x"]])])

mutual
/-- Following the specification: all string leaves of a value, in order, each
with its path (a struct field adds `"/" ++ fieldName`, an element of a slice or of an
array `"[" ++ index ++ "]"`, a map entry `"/" ++ key`, a pointer or an
interface nothing) and with whether it is held in an array (`inArray`, set
from the first array on the way down). -/
def stringLeaves (inArray : Bool) (path : String) : Value → List (Bool × String × Value)
  | .str typ s => [(inArray, path, .str typ s)]
  | .ptr v => stringLeaves inArray path v
  | .iface v => stringLeaves inArray path v
  | .struct fields => stringLeavesFields inArray path fields
  | .slice elems => stringLeavesElems inArray path 0 elems
  | .array elems => stringLeavesElems true path 0 elems
  | .map entries => stringLeavesEntries inArray path entries
  | .other _ => []
  | .nilPtr => []
  | .nilIface => []
  | .nilSlice => []
  | .nilMap => []
/-- All string leaves below the fields of a struct. -/
def stringLeavesFields (inArray : Bool) (path : String) :
    List (StructField × Value) → List (Bool × String × Value)
  | [] => []
  | (f, v) :: rest =>
      stringLeaves inArray (path ++ "/" ++ f.name) v ++ stringLeavesFields inArray path rest
/-- All string leaves below the elements of a slice or of an array, the first
having index `i`. -/
def stringLeavesElems (inArray : Bool) (path : String) (i : Nat) :
    List Value → List (Bool × String × Value)
  | [] => []
  | v :: rest =>
      stringLeaves inArray (path ++ "[" ++ toString i ++ "]") v ++
        stringLeavesElems inArray path (i + 1) rest
/-- All string leaves below the entries of a map. -/
def stringLeavesEntries (inArray : Bool) (path : String) :
    List (String × Value) → List (Bool × String × Value)
  | [] => []
  | (key, v) :: rest =>
      stringLeaves inArray (path ++ "/" ++ key) v ++ stringLeavesEntries inArray path rest
end

/-- The string leaves that are not held in an array, with their paths. -/
def outsideArrays (leaves : List (Bool × String × Value)) : List (String × Value) :=
  (leaves.filter (fun leaf => !leaf.1)).map (fun leaf => leaf.2)

/-- An object of a type `struct { Name string; Keys [2]string }` behind a
pointer. -/
def objWithStringArray : Value :=
  .ptr (.struct [(exportedField "Name", .str .plain "n"),
    (exportedField "Keys", .array [.str .plain "k0", .str .plain "k1"])])

/-- The callback is stable on the tokens it returns for the given leaves:
where it returns a token `t` for one of them, at path `p`, asked again at `p`
for that leaf holding `t` it declines or returns `t` again. -/
def TokenStableOn (C : String → Value → Option String) (leaves : List (String × Value)) :
    Prop :=
  ∀ (p : String) (typ : StringType) (x t : String), (p, Value.str typ x) ∈ leaves →
    C p (.str typ x) = some t → C p (.str typ t) = none ∨ C p (.str typ t) = some t

/-! # Theorems -/

theorem recorded_append (C : String → Value → Option String) (s : Secrets)
    (l₁ l₂ : List (String × Value)) :
    recorded C s (l₁ ++ l₂) = recorded C (recorded C s l₁) l₂ := by
  simp [recorded, List.foldl_append]

theorem observed_append {σ : Type} (g : String → Value → σ → σ) (st : σ)
    (l₁ l₂ : List (String × Value)) :
    observed g st (l₁ ++ l₂) = observed g (observed g st l₁) l₂ := by
  simp [observed, List.foldl_append]

mutual
theorem travel_observe {σ : Type} (C : String → Value → Option String)
    (g : String → Value → σ → σ) (path : String) (fl : flag) :
    ∀ (v : Value) (s : Secrets) (st : σ),
      travel (OnValueFuncHandler.observe C g) path fl v s st =
        if travelOk fl v then
          some (scrubbed C path v, recorded C s (visits path v), observed g st (visits path v))
        else none
  | .nilPtr, s, st => by simp [travel, travelOk, scrubbed, visits, recorded, observed]
  | .ptr v, s, st => by
      simp only [travel, travelOk, scrubbed, visits]
      rw [travel_observe C g path flag.rw v s st]
      cases fl.ro <;> cases travelOk flag.rw v <;> simp
  | .nilIface, s, st => by simp [travel, travelOk]
  | .iface v, s, st => by
      simp only [travel, travelOk, scrubbed, visits]
      rw [travel_observe C g path flag.rw v s st]
      cases fl.ro <;> cases travelOk flag.rw v <;> simp
  | .struct fields, s, st => by
      simp only [travel, travelOk, scrubbed, visits]
      rw [travelFields_observe C g path fl fields s st]
      cases travelOkFields fl fields <;> simp
  | .nilSlice, s, st => by simp [travel, travelOk, scrubbed, visits, recorded, observed]
  | .slice elems, s, st => by
      simp only [travel, travelOk, scrubbed, visits]
      rw [travelElems_observe C g path 0 elems s st]
      cases fl.ro <;> cases travelOkElems elems <;> simp
  | .nilMap, s, st => by simp [travel, travelOk, scrubbed, visits, recorded, observed]
  | .map entries, s, st => by
      simp only [travel, travelOk, scrubbed, visits]
      rw [travelEntries_observe C g path entries s st]
      cases fl.ro <;> cases travelOkEntries entries <;> simp
  | .str typ x, s, st => by
      simp only [travel, travelOk, scrubbed, visits, OnValueFuncHandler.observe]
      cases fl.ro
      · cases hC : C path (.str typ x) with
        | none => simp [recorded, observed, recordLeaf, hC]
        | some t =>
          by_cases hx : x = t
          · subst hx
            simp [recorded, observed, recordLeaf, hC, Value.content]
          · simp [recorded, observed, recordLeaf, hC, hx, Value.content]
      · simp
  | .other n, s, st => by
      simp only [travel, travelOk, scrubbed, visits]
      cases fl.ro <;> simp [recorded, observed]
  | .array elems, s, st => by
      simp only [travel, travelOk, scrubbed, visits]
      cases fl.ro <;> simp [recorded, observed]
theorem travelFields_observe {σ : Type} (C : String → Value → Option String)
    (g : String → Value → σ → σ) (path : String) (fl : flag) :
    ∀ (fields : List (StructField × Value)) (s : Secrets) (st : σ),
      travelFields (OnValueFuncHandler.observe C g) path fl fields s st =
        if travelOkFields fl fields then
          some (scrubbedFields C path fields, recorded C s (visitsFields path fields),
            observed g st (visitsFields path fields))
        else none
  | [], s, st => by simp [travelFields, travelOkFields, scrubbedFields, visitsFields, recorded, observed]
  | (f, v) :: rest, s, st => by
      simp only [travelFields, travelOkFields, scrubbedFields, visitsFields]
      rw [travel_observe C g (path ++ "/" ++ f.name) (fl.field f) v s st]
      cases travelOk (fl.field f) v
      · simp
      · simp only [if_true]
        rw [travelFields_observe C g path fl rest]
        cases travelOkFields fl rest <;> simp [recorded_append, observed_append]
theorem travelElems_observe {σ : Type} (C : String → Value → Option String)
    (g : String → Value → σ → σ) (path : String) :
    ∀ (i : Nat) (elems : List Value) (s : Secrets) (st : σ),
      travelElems (OnValueFuncHandler.observe C g) path i elems s st =
        if travelOkElems elems then
          some (scrubbedElems C path i elems, recorded C s (visitsElems path i elems),
            observed g st (visitsElems path i elems))
        else none
  | i, [], s, st => by simp [travelElems, travelOkElems, scrubbedElems, visitsElems, recorded, observed]
  | i, v :: rest, s, st => by
      simp only [travelElems, travelOkElems, scrubbedElems, visitsElems]
      rw [travel_observe C g (path ++ "[" ++ toString i ++ "]") flag.rw v s st]
      cases travelOk flag.rw v
      · simp
      · simp only [if_true]
        rw [travelElems_observe C g path (i + 1) rest]
        cases travelOkElems rest <;> simp [recorded_append, observed_append]
theorem travelEntries_observe {σ : Type} (C : String → Value → Option String)
    (g : String → Value → σ → σ) (path : String) :
    ∀ (entries : List (String × Value)) (s : Secrets) (st : σ),
      travelEntries (OnValueFuncHandler.observe C g) path entries s st =
        if travelOkEntries entries then
          some (scrubbedEntries C path entries, recorded C s (visitsEntries path entries),
            observed g st (visitsEntries path entries))
        else none
  | [], s, st => by simp [travelEntries, travelOkEntries, scrubbedEntries, visitsEntries, recorded, observed]
  | (key, v) :: rest, s, st => by
      simp only [travelEntries, travelOkEntries, scrubbedEntries, visitsEntries]
      rw [travel_observe C g (path ++ "/" ++ key) flag.rw v s st]
      cases travelOk flag.rw v
      · simp
      · simp only [if_true]
        rw [travelEntries_observe C g path rest]
        cases travelOkEntries rest <;> simp [recorded_append, observed_append]
end

/-! ## The secrets map -/

theorem lookup_assign (m : Secrets) (key val k : String) :
    Secrets.lookup (Secrets.assign m key val) k =
      if key = k then some val else Secrets.lookup m k := by
  induction m with
  | nil => simp [Secrets.assign, Secrets.lookup]
  | cons e m ih =>
    obtain ⟨k₀, v₀⟩ := e
    by_cases h₀ : k₀ = key
    · subst h₀
      by_cases h₁ : k₀ = k <;> simp [Secrets.assign, Secrets.lookup, h₁]
    · by_cases h₁ : k₀ = k
      · subst h₁
        have h₂ : ¬ key = k₀ := fun h => h₀ h.symm
        simp [Secrets.assign, Secrets.lookup, h₀, h₂]
      · simp [Secrets.assign, Secrets.lookup, h₀, h₁, ih]

theorem assign_ne_nil (m : Secrets) (key val : String) : Secrets.assign m key val ≠ [] := by
  cases m with
  | nil => simp [Secrets.assign]
  | cons e m =>
    obtain ⟨k₀, v₀⟩ := e
    by_cases h₀ : k₀ = key <;> simp [Secrets.assign, h₀]

/-! ## The entry points, described by path -/

theorem observed_const {σ : Type} (st : σ) (leaves : List (String × Value)) :
    observed (fun _ _ st => st) st leaves = st := by
  induction leaves with
  | nil => rfl
  | cons l ls ih => simp [observed]

theorem observed_log (log leaves : List (String × Value)) :
    observed (fun fieldPath valueToScrub log => log ++ [(fieldPath, valueToScrub)]) log leaves =
      log ++ leaves := by
  induction leaves generalizing log with
  | nil => simp [observed]
  | cons l ls ih =>
    have h := ih (log ++ [(l.1, l.2)])
    simp only [observed, List.foldl_cons] at h ⊢
    rw [h]
    simp

theorem travel_ofFun (C : String → Value → Option String) (path : String) (fl : flag)
    (v : Value) (s : Secrets) :
    travel (OnValueFuncHandler.ofFun C) path fl v s () =
      if travelOk fl v then some (scrubbed C path v, recorded C s (visits path v), ())
      else none :=
  travel_observe C (fun _ _ st => st) path fl v s ()

theorem Scrub_ofFun (V : Value) (C : String → Value → Option String) :
    Scrub V (some (OnValueFuncHandler.ofFun C)) () =
      if travelOk flag.rw V then
        some (scrubbed C "" V, recorded C [] (visits "" V), ())
      else none :=
  travel_ofFun C "" flag.rw V []

theorem Scrub_logged (V : Value) (C : String → Value → Option String) :
    Scrub V (some (OnValueFuncHandler.logged C)) [] =
      if travelOk flag.rw V then
        some (scrubbed C "" V, recorded C [] (visits "" V), visits "" V)
      else none := by
  have h := travel_observe C
    (fun fieldPath valueToScrub log => log ++ [(fieldPath, valueToScrub)]) "" flag.rw V [] []
  rw [observed_log] at h
  simpa [Scrub, OnValueFuncHandler.logged, OnValueFuncHandler.observe] using h

theorem Scrub_default {σ : Type} (V : Value) (st : σ) :
    Scrub V (none : Option (OnValueFuncHandler σ)) st =
      if travelOk flag.rw V then
        some (scrubbed defaultDecision "" V, recorded defaultDecision [] (visits "" V), st)
      else none := by
  have h := travel_observe defaultDecision (fun _ _ (st : σ) => st) "" flag.rw V [] st
  rw [observed_const] at h
  exact h

theorem Restore_eq_scrubbed (V : Value) (S : Secrets) :
    Restore V S =
      if travelOk flag.rw V then some (scrubbed (restoreDecision S) "/" V) else none := by
  unfold Restore
  rw [travel_ofFun]
  cases travelOk flag.rw V <;> simp


/-! ## Structure of the described traversal -/

mutual
theorem scrubbed_restoreDecision (S : Secrets) :
    ∀ (path : String) (v : Value), scrubbed (restoreDecision S) path v = restored S v
  | path, .str .plain x => by
      simp [scrubbed, restored, restoreDecision]
  | path, .str (.named n) x => by simp [scrubbed, restored, restoreDecision]
  | path, .ptr v => by simp [scrubbed, restored, scrubbed_restoreDecision S path v]
  | path, .iface v => by simp [scrubbed, restored, scrubbed_restoreDecision S path v]
  | path, .struct fields => by
      simp [scrubbed, restored, scrubbedFields_restoreDecision S path fields]
  | path, .slice elems => by
      simp [scrubbed, restored, scrubbedElems_restoreDecision S path 0 elems]
  | path, .map entries => by
      simp [scrubbed, restored, scrubbedEntries_restoreDecision S path entries]
  | path, .other n => by simp [scrubbed, restored]
  | path, .array elems => by simp [scrubbed, restored]
  | path, .nilPtr => by simp [scrubbed, restored]
  | path, .nilIface => by simp [scrubbed, restored]
  | path, .nilSlice => by simp [scrubbed, restored]
  | path, .nilMap => by simp [scrubbed, restored]
theorem scrubbedFields_restoreDecision (S : Secrets) :
    ∀ (path : String) (fields : List (StructField × Value)),
      scrubbedFields (restoreDecision S) path fields = restoredFields S fields
  | path, [] => by simp [scrubbedFields, restoredFields]
  | path, (f, v) :: rest => by
      simp [scrubbedFields, restoredFields, scrubbed_restoreDecision S _ v,
        scrubbedFields_restoreDecision S path rest]
theorem scrubbedElems_restoreDecision (S : Secrets) :
    ∀ (path : String) (i : Nat) (elems : List Value),
      scrubbedElems (restoreDecision S) path i elems = restoredElems S elems
  | path, i, [] => by simp [scrubbedElems, restoredElems]
  | path, i, v :: rest => by
      simp [scrubbedElems, restoredElems, scrubbed_restoreDecision S _ v,
        scrubbedElems_restoreDecision S path (i + 1) rest]
theorem scrubbedEntries_restoreDecision (S : Secrets) :
    ∀ (path : String) (entries : List (String × Value)),
      scrubbedEntries (restoreDecision S) path entries = restoredEntries S entries
  | path, [] => by simp [scrubbedEntries, restoredEntries]
  | path, (key, v) :: rest => by
      simp [scrubbedEntries, restoredEntries, scrubbed_restoreDecision S _ v,
        scrubbedEntries_restoreDecision S path rest]
end

mutual
theorem travelOk_scrubbed (C : String → Value → Option String) :
    ∀ (path : String) (fl : flag) (v : Value), travelOk fl (scrubbed C path v) = travelOk fl v
  | path, fl, .str typ x => by
      simp only [scrubbed]
      cases C path (.str typ x) <;> simp [travelOk]
  | path, fl, .ptr v => by simp [scrubbed, travelOk, travelOk_scrubbed C path flag.rw v]
  | path, fl, .iface v => by simp [scrubbed, travelOk, travelOk_scrubbed C path flag.rw v]
  | path, fl, .struct fields => by
      simp [scrubbed, travelOk, travelOkFields_scrubbed C path fl fields]
  | path, fl, .slice elems => by
      simp [scrubbed, travelOk, travelOkElems_scrubbed C path 0 elems]
  | path, fl, .map entries => by
      simp [scrubbed, travelOk, travelOkEntries_scrubbed C path entries]
  | path, fl, .other n => by simp [scrubbed, travelOk]
  | path, fl, .array elems => by simp [scrubbed, travelOk]
  | path, fl, .nilPtr => by simp [scrubbed, travelOk]
  | path, fl, .nilIface => by simp [scrubbed, travelOk]
  | path, fl, .nilSlice => by simp [scrubbed, travelOk]
  | path, fl, .nilMap => by simp [scrubbed, travelOk]
theorem travelOkFields_scrubbed (C : String → Value → Option String) :
    ∀ (path : String) (fl : flag) (fields : List (StructField × Value)),
      travelOkFields fl (scrubbedFields C path fields) = travelOkFields fl fields
  | path, fl, [] => by simp [scrubbedFields, travelOkFields]
  | path, fl, (f, v) :: rest => by
      simp [scrubbedFields, travelOkFields, travelOk_scrubbed C _ (fl.field f) v,
        travelOkFields_scrubbed C path fl rest]
theorem travelOkElems_scrubbed (C : String → Value → Option String) :
    ∀ (path : String) (i : Nat) (elems : List Value),
      travelOkElems (scrubbedElems C path i elems) = travelOkElems elems
  | path, i, [] => by simp [scrubbedElems, travelOkElems]
  | path, i, v :: rest => by
      simp [scrubbedElems, travelOkElems, travelOk_scrubbed C _ flag.rw v,
        travelOkElems_scrubbed C path (i + 1) rest]
theorem travelOkEntries_scrubbed (C : String → Value → Option String) :
    ∀ (path : String) (entries : List (String × Value)),
      travelOkEntries (scrubbedEntries C path entries) = travelOkEntries entries
  | path, [] => by simp [scrubbedEntries, travelOkEntries]
  | path, (key, v) :: rest => by
      simp [scrubbedEntries, travelOkEntries, travelOk_scrubbed C _ flag.rw v,
        travelOkEntries_scrubbed C path rest]
end

/-- The leaf a callback makes of a leaf. -/
theorem scrubbed_str (C : String → Value → Option String) (path : String) (typ : StringType)
    (x : String) :
    scrubbed C path (.str typ x) = .str typ ((C path (.str typ x)).getD x) := by
  simp only [scrubbed]
  cases C path (.str typ x) <;> rfl

mutual
theorem visits_scrubbed (C : String → Value → Option String) :
    ∀ (path : String) (v : Value),
      visits path (scrubbed C path v) =
        (visits path v).map (fun leaf => (leaf.1, scrubbed C leaf.1 leaf.2))
  | path, .str typ x => by
      rw [scrubbed_str]
      simp [visits, scrubbed_str]
  | path, .ptr v => by simp [scrubbed, visits, visits_scrubbed C path v]
  | path, .iface v => by simp [scrubbed, visits, visits_scrubbed C path v]
  | path, .struct fields => by simp [scrubbed, visits, visitsFields_scrubbed C path fields]
  | path, .slice elems => by simp [scrubbed, visits, visitsElems_scrubbed C path 0 elems]
  | path, .map entries => by simp [scrubbed, visits, visitsEntries_scrubbed C path entries]
  | path, .other n => by simp [scrubbed, visits]
  | path, .array elems => by simp [scrubbed, visits]
  | path, .nilPtr => by simp [scrubbed, visits]
  | path, .nilIface => by simp [scrubbed, visits]
  | path, .nilSlice => by simp [scrubbed, visits]
  | path, .nilMap => by simp [scrubbed, visits]
theorem visitsFields_scrubbed (C : String → Value → Option String) :
    ∀ (path : String) (fields : List (StructField × Value)),
      visitsFields path (scrubbedFields C path fields) =
        (visitsFields path fields).map (fun leaf => (leaf.1, scrubbed C leaf.1 leaf.2))
  | path, [] => by simp [scrubbedFields, visitsFields]
  | path, (f, v) :: rest => by
      simp [scrubbedFields, visitsFields, visits_scrubbed C _ v,
        visitsFields_scrubbed C path rest]
theorem visitsElems_scrubbed (C : String → Value → Option String) :
    ∀ (path : String) (i : Nat) (elems : List Value),
      visitsElems path i (scrubbedElems C path i elems) =
        (visitsElems path i elems).map (fun leaf => (leaf.1, scrubbed C leaf.1 leaf.2))
  | path, i, [] => by simp [scrubbedElems, visitsElems]
  | path, i, v :: rest => by
      simp [scrubbedElems, visitsElems, visits_scrubbed C _ v,
        visitsElems_scrubbed C path (i + 1) rest]
theorem visitsEntries_scrubbed (C : String → Value → Option String) :
    ∀ (path : String) (entries : List (String × Value)),
      visitsEntries path (scrubbedEntries C path entries) =
        (visitsEntries path entries).map (fun leaf => (leaf.1, scrubbed C leaf.1 leaf.2))
  | path, [] => by simp [scrubbedEntries, visitsEntries]
  | path, (key, v) :: rest => by
      simp [scrubbedEntries, visitsEntries, visits_scrubbed C _ v,
        visitsEntries_scrubbed C path rest]
end

mutual
theorem visits_isStr :
    ∀ (path : String) (v : Value), ∀ leaf ∈ visits path v, ∃ typ x, leaf.2 = .str typ x
  | path, .str typ x => by
      intro leaf h
      simp only [visits, List.mem_singleton] at h
      exact ⟨typ, x, by rw [h]⟩
  | path, .ptr v => by simpa [visits] using visits_isStr path v
  | path, .iface v => by simpa [visits] using visits_isStr path v
  | path, .struct fields => by simpa [visits] using visitsFields_isStr path fields
  | path, .slice elems => by simpa [visits] using visitsElems_isStr path 0 elems
  | path, .map entries => by simpa [visits] using visitsEntries_isStr path entries
  | path, .other n => by simp [visits]
  | path, .array elems => by simp [visits]
  | path, .nilPtr => by simp [visits]
  | path, .nilIface => by simp [visits]
  | path, .nilSlice => by simp [visits]
  | path, .nilMap => by simp [visits]
theorem visitsFields_isStr :
    ∀ (path : String) (fields : List (StructField × Value)),
      ∀ leaf ∈ visitsFields path fields, ∃ typ x, leaf.2 = .str typ x
  | path, [] => by simp [visitsFields]
  | path, (f, v) :: rest => by
      intro leaf h
      simp only [visitsFields, List.mem_append] at h
      rcases h with h | h
      · exact visits_isStr _ v leaf h
      · exact visitsFields_isStr path rest leaf h
theorem visitsElems_isStr :
    ∀ (path : String) (i : Nat) (elems : List Value),
      ∀ leaf ∈ visitsElems path i elems, ∃ typ x, leaf.2 = .str typ x
  | path, i, [] => by simp [visitsElems]
  | path, i, v :: rest => by
      intro leaf h
      simp only [visitsElems, List.mem_append] at h
      rcases h with h | h
      · exact visits_isStr _ v leaf h
      · exact visitsElems_isStr path (i + 1) rest leaf h
theorem visitsEntries_isStr :
    ∀ (path : String) (entries : List (String × Value)),
      ∀ leaf ∈ visitsEntries path entries, ∃ typ x, leaf.2 = .str typ x
  | path, [] => by simp [visitsEntries]
  | path, (key, v) :: rest => by
      intro leaf h
      simp only [visitsEntries, List.mem_append] at h
      rcases h with h | h
      · exact visits_isStr _ v leaf h
      · exact visitsEntries_isStr path rest leaf h
end

/-! ## Leafwise reasoning -/

mutual
theorem restored_scrubbed_of_leaves (S : Secrets) (C : String → Value → Option String) :
    ∀ (path : String) (v : Value),
      (∀ leaf ∈ visits path v, restored S (scrubbed C leaf.1 leaf.2) = leaf.2) →
        restored S (scrubbed C path v) = v
  | path, .str typ x => by
      intro h
      exact h (path, .str typ x) (by simp [visits])
  | path, .ptr v => by
      intro h
      simp only [scrubbed, restored, visits] at h ⊢
      rw [restored_scrubbed_of_leaves S C path v h]
  | path, .iface v => by
      intro h
      simp only [scrubbed, restored, visits] at h ⊢
      rw [restored_scrubbed_of_leaves S C path v h]
  | path, .struct fields => by
      intro h
      simp only [scrubbed, restored, visits] at h ⊢
      rw [restoredFields_scrubbed_of_leaves S C path fields h]
  | path, .slice elems => by
      intro h
      simp only [scrubbed, restored, visits] at h ⊢
      rw [restoredElems_scrubbed_of_leaves S C path 0 elems h]
  | path, .map entries => by
      intro h
      simp only [scrubbed, restored, visits] at h ⊢
      rw [restoredEntries_scrubbed_of_leaves S C path entries h]
  | path, .other n => by simp [scrubbed, restored]
  | path, .array elems => by simp [scrubbed, restored]
  | path, .nilPtr => by simp [scrubbed, restored]
  | path, .nilIface => by simp [scrubbed, restored]
  | path, .nilSlice => by simp [scrubbed, restored]
  | path, .nilMap => by simp [scrubbed, restored]
theorem restoredFields_scrubbed_of_leaves (S : Secrets) (C : String → Value → Option String) :
    ∀ (path : String) (fields : List (StructField × Value)),
      (∀ leaf ∈ visitsFields path fields, restored S (scrubbed C leaf.1 leaf.2) = leaf.2) →
        restoredFields S (scrubbedFields C path fields) = fields
  | path, [] => by simp [scrubbedFields, restoredFields]
  | path, (f, v) :: rest => by
      intro h
      simp only [visitsFields, List.mem_append] at h
      simp only [scrubbedFields, restoredFields]
      rw [restored_scrubbed_of_leaves S C _ v (fun leaf hl => h leaf (Or.inl hl)),
        restoredFields_scrubbed_of_leaves S C path rest (fun leaf hl => h leaf (Or.inr hl))]
theorem restoredElems_scrubbed_of_leaves (S : Secrets) (C : String → Value → Option String) :
    ∀ (path : String) (i : Nat) (elems : List Value),
      (∀ leaf ∈ visitsElems path i elems, restored S (scrubbed C leaf.1 leaf.2) = leaf.2) →
        restoredElems S (scrubbedElems C path i elems) = elems
  | path, i, [] => by simp [scrubbedElems, restoredElems]
  | path, i, v :: rest => by
      intro h
      simp only [visitsElems, List.mem_append] at h
      simp only [scrubbedElems, restoredElems]
      rw [restored_scrubbed_of_leaves S C _ v (fun leaf hl => h leaf (Or.inl hl)),
        restoredElems_scrubbed_of_leaves S C path (i + 1) rest
          (fun leaf hl => h leaf (Or.inr hl))]
theorem restoredEntries_scrubbed_of_leaves (S : Secrets) (C : String → Value → Option String) :
    ∀ (path : String) (entries : List (String × Value)),
      (∀ leaf ∈ visitsEntries path entries, restored S (scrubbed C leaf.1 leaf.2) = leaf.2) →
        restoredEntries S (scrubbedEntries C path entries) = entries
  | path, [] => by simp [scrubbedEntries, restoredEntries]
  | path, (key, v) :: rest => by
      intro h
      simp only [visitsEntries, List.mem_append] at h
      simp only [scrubbedEntries, restoredEntries]
      rw [restored_scrubbed_of_leaves S C _ v (fun leaf hl => h leaf (Or.inl hl)),
        restoredEntries_scrubbed_of_leaves S C path rest (fun leaf hl => h leaf (Or.inr hl))]
end

theorem scrubbed_str_eq_self_iff (C : String → Value → Option String) (path : String)
    (typ : StringType) (x : String) :
    scrubbed C path (.str typ x) = .str typ x ↔ Untouched C (path, .str typ x) := by
  simp only [scrubbed, Untouched, Value.content]
  cases C path (.str typ x) with
  | none => simp
  | some t =>
    simp only [Value.str.injEq, true_and, Option.some.injEq, false_or, reduceCtorEq]

mutual
theorem scrubbed_eq_self_iff (C : String → Value → Option String) :
    ∀ (path : String) (v : Value),
      scrubbed C path v = v ↔ ∀ leaf ∈ visits path v, Untouched C leaf
  | path, .str typ x => by
      rw [scrubbed_str_eq_self_iff]
      simp [visits]
  | path, .ptr v => by
      simp only [scrubbed, visits, Value.ptr.injEq]
      exact scrubbed_eq_self_iff C path v
  | path, .iface v => by
      simp only [scrubbed, visits, Value.iface.injEq]
      exact scrubbed_eq_self_iff C path v
  | path, .struct fields => by
      simp only [scrubbed, visits, Value.struct.injEq]
      exact scrubbedFields_eq_self_iff C path fields
  | path, .slice elems => by
      simp only [scrubbed, visits, Value.slice.injEq]
      exact scrubbedElems_eq_self_iff C path 0 elems
  | path, .map entries => by
      simp only [scrubbed, visits, Value.map.injEq]
      exact scrubbedEntries_eq_self_iff C path entries
  | path, .other n => by simp [scrubbed, visits]
  | path, .array elems => by simp [scrubbed, visits]
  | path, .nilPtr => by simp [scrubbed, visits]
  | path, .nilIface => by simp [scrubbed, visits]
  | path, .nilSlice => by simp [scrubbed, visits]
  | path, .nilMap => by simp [scrubbed, visits]
theorem scrubbedFields_eq_self_iff (C : String → Value → Option String) :
    ∀ (path : String) (fields : List (StructField × Value)),
      scrubbedFields C path fields = fields ↔ ∀ leaf ∈ visitsFields path fields, Untouched C leaf
  | path, [] => by simp [scrubbedFields, visitsFields]
  | path, (f, v) :: rest => by
      simp only [scrubbedFields, visitsFields, List.cons.injEq, Prod.mk.injEq, true_and,
        List.mem_append, or_imp, forall_and]
      rw [scrubbed_eq_self_iff C _ v, scrubbedFields_eq_self_iff C path rest]
theorem scrubbedElems_eq_self_iff (C : String → Value → Option String) :
    ∀ (path : String) (i : Nat) (elems : List Value),
      scrubbedElems C path i elems = elems ↔ ∀ leaf ∈ visitsElems path i elems, Untouched C leaf
  | path, i, [] => by simp [scrubbedElems, visitsElems]
  | path, i, v :: rest => by
      simp only [scrubbedElems, visitsElems, List.cons.injEq,
        List.mem_append, or_imp, forall_and]
      rw [scrubbed_eq_self_iff C _ v, scrubbedElems_eq_self_iff C path (i + 1) rest]
theorem scrubbedEntries_eq_self_iff (C : String → Value → Option String) :
    ∀ (path : String) (entries : List (String × Value)),
      scrubbedEntries C path entries = entries ↔
        ∀ leaf ∈ visitsEntries path entries, Untouched C leaf
  | path, [] => by simp [scrubbedEntries, visitsEntries]
  | path, (key, v) :: rest => by
      simp only [scrubbedEntries, visitsEntries, List.cons.injEq, Prod.mk.injEq, true_and,
        List.mem_append, or_imp, forall_and]
      rw [scrubbed_eq_self_iff C _ v, scrubbedEntries_eq_self_iff C path rest]
end

/-! ## The secrets recorded along a traversal -/

theorem recordLeaf_of_untouched (C : String → Value → Option String) (s : Secrets)
    (leaf : String × Value) (h : Untouched C leaf) : recordLeaf C s leaf = s := by
  unfold recordLeaf
  rcases h with h | h <;> simp [h]

theorem recordLeaf_of_touched (C : String → Value → Option String) (s : Secrets)
    (leaf : String × Value) (t : String) (h : C leaf.1 leaf.2 = some t)
    (ht : t ≠ leaf.2.content) :
    recordLeaf C s leaf = Secrets.assign s t leaf.2.content := by
  unfold recordLeaf
  simp [h, Ne.symm ht]

theorem untouched_or_touched (C : String → Value → Option String) (leaf : String × Value) :
    Untouched C leaf ∨ ∃ t, C leaf.1 leaf.2 = some t ∧ t ≠ leaf.2.content := by
  unfold Untouched
  cases h : C leaf.1 leaf.2 with
  | none => exact Or.inl (Or.inl rfl)
  | some t =>
    by_cases ht : t = leaf.2.content
    · exact Or.inl (Or.inr (by rw [ht]))
    · exact Or.inr ⟨t, rfl, ht⟩

theorem recorded_cons (C : String → Value → Option String) (s : Secrets)
    (leaf : String × Value) (leaves : List (String × Value)) :
    recorded C s (leaf :: leaves) = recorded C (recordLeaf C s leaf) leaves := rfl

theorem recorded_ne_nil (C : String → Value → Option String) :
    ∀ (leaves : List (String × Value)) (s : Secrets), s ≠ [] → recorded C s leaves ≠ []
  | [], s, hs => by simpa [recorded] using hs
  | leaf :: leaves, s, hs => by
      rw [recorded_cons]
      apply recorded_ne_nil C leaves
      rcases untouched_or_touched C leaf with h | ⟨t, h, ht⟩
      · rw [recordLeaf_of_untouched C s leaf h]
        exact hs
      · rw [recordLeaf_of_touched C s leaf t h ht]
        exact assign_ne_nil _ _ _

theorem recorded_eq_nil_iff (C : String → Value → Option String) :
    ∀ (leaves : List (String × Value)),
      recorded C [] leaves = [] ↔ ∀ leaf ∈ leaves, Untouched C leaf
  | [] => by simp [recorded]
  | leaf :: leaves => by
      rw [recorded_cons]
      rcases untouched_or_touched C leaf with h | ⟨t, h, ht⟩
      · rw [recordLeaf_of_untouched C [] leaf h, recorded_eq_nil_iff C leaves]
        simp [h]
      · rw [recordLeaf_of_touched C [] leaf t h ht]
        constructor
        · intro h0
          exact absurd h0 (recorded_ne_nil C leaves _ (assign_ne_nil _ _ _))
        · intro h0
          have h1 := h0 leaf (List.mem_cons_self _ _)
          rcases h1 with h1 | h1
          · rw [h] at h1
            cases h1
          · rw [h] at h1
            exact absurd (Option.some.inj h1) ht

theorem tokens_cons (C : String → Value → Option String) (leaf : String × Value)
    (leaves : List (String × Value)) :
    tokens C (leaf :: leaves) =
      match C leaf.1 leaf.2 with
      | some t => t :: tokens C leaves
      | none => tokens C leaves := by
  unfold tokens
  cases h : C leaf.1 leaf.2 <;> simp [List.filterMap_cons, h]

theorem mem_tokens (C : String → Value → Option String) (leaves : List (String × Value))
    (t : String) : t ∈ tokens C leaves ↔ ∃ leaf ∈ leaves, C leaf.1 leaf.2 = some t := by
  simp [tokens, List.mem_filterMap]

theorem lookup_recorded_frame (C : String → Value → Option String) (t : String) :
    ∀ (leaves : List (String × Value)) (s : Secrets), t ∉ tokens C leaves →
      Secrets.lookup (recorded C s leaves) t = Secrets.lookup s t
  | [], s, _ => rfl
  | leaf :: leaves, s, h => by
      rw [recorded_cons]
      have h₁ : t ∉ tokens C leaves := by
        intro hm
        apply h
        rw [mem_tokens] at hm ⊢
        obtain ⟨l, hl, hC⟩ := hm
        exact ⟨l, List.mem_cons_of_mem _ hl, hC⟩
      rw [lookup_recorded_frame C t leaves _ h₁]
      rcases untouched_or_touched C leaf with hu | ⟨t', hC, ht'⟩
      · rw [recordLeaf_of_untouched C s leaf hu]
      · rw [recordLeaf_of_touched C s leaf t' hC ht', lookup_assign]
        have hne : ¬ t' = t := by
          intro e
          apply h
          rw [mem_tokens]
          exact ⟨leaf, List.mem_cons_self _ _, by rw [hC, e]⟩
        simp [hne]

theorem lookup_recorded_unique (C : String → Value → Option String) :
    ∀ (leaves : List (String × Value)) (s : Secrets), UniqueTokens C leaves →
      ∀ leaf ∈ leaves, ∀ t, C leaf.1 leaf.2 = some t → t ≠ leaf.2.content →
        Secrets.lookup (recorded C s leaves) t = some leaf.2.content
  | [], s, _, leaf, hm, _, _, _ => by cases hm
  | l₀ :: leaves, s, hu, leaf, hm, t, hC, ht => by
      rw [recorded_cons]
      unfold UniqueTokens at hu
      rw [tokens_cons] at hu
      rcases List.mem_cons.mp hm with e | hm'
      · subst e
        rw [hC] at hu
        have hnot : t ∉ tokens C leaves := (List.nodup_cons.mp hu).1
        rw [lookup_recorded_frame C t leaves _ hnot, recordLeaf_of_touched C s leaf t hC ht,
          lookup_assign]
        simp
      · have hu' : UniqueTokens C leaves := by
          unfold UniqueTokens
          cases h₀ : C l₀.1 l₀.2 with
          | none => simpa [h₀] using hu
          | some t₀ =>
            rw [h₀] at hu
            exact (List.nodup_cons.mp hu).2
        exact lookup_recorded_unique C leaves _ hu' leaf hm' t hC ht

theorem lookup_recorded_none (C : String → Value → Option String)
    (leaves : List (String × Value)) (x : String) (h : x ∉ tokens C leaves) :
    Secrets.lookup (recorded C [] leaves) x = none := by
  rw [lookup_recorded_frame C x leaves [] h]
  rfl

/-! ## Invocations of an arbitrary callback -/

mutual
theorem travel_withLog {σ : Type} (callback : OnValueFuncHandler σ) :
    ∀ (path : String) (fl : flag) (v : Value) (s : Secrets) (st : σ)
      (log : List (String × Value)),
      travel (OnValueFuncHandler.withLog callback) path fl v s (st, log) =
        (travel callback path fl v s st).map
          (fun r => (r.1, r.2.1, (r.2.2, log ++ visits path v)))
  | path, fl, .nilPtr, s, st, log => by simp [travel, visits]
  | path, fl, .ptr v, s, st, log => by
      simp only [travel, visits]
      rw [travel_withLog callback path flag.rw v s st log]
      cases fl.ro <;> cases travel callback path flag.rw v s st <;> simp
  | path, fl, .nilIface, s, st, log => by simp [travel]
  | path, fl, .iface v, s, st, log => by
      simp only [travel, visits]
      rw [travel_withLog callback path flag.rw v s st log]
      cases fl.ro <;> cases travel callback path flag.rw v s st <;> simp
  | path, fl, .struct fields, s, st, log => by
      simp only [travel, visits]
      rw [travelFields_withLog callback path fl fields s st log]
      cases travelFields callback path fl fields s st <;> simp
  | path, fl, .nilSlice, s, st, log => by simp [travel, visits]
  | path, fl, .slice elems, s, st, log => by
      simp only [travel, visits]
      rw [travelElems_withLog callback path 0 elems s st log]
      cases fl.ro <;> cases travelElems callback path 0 elems s st <;> simp
  | path, fl, .nilMap, s, st, log => by simp [travel, visits]
  | path, fl, .map entries, s, st, log => by
      simp only [travel, visits]
      rw [travelEntries_withLog callback path entries s st log]
      cases fl.ro <;> cases travelEntries callback path entries s st <;> simp
  | path, fl, .str typ x, s, st, log => by
      simp only [travel, visits, OnValueFuncHandler.withLog]
      cases fl.ro
      · rcases hc : callback path (.str typ x) st with ⟨_ | t, st'⟩
        · simp
        · by_cases hx : x = t <;> simp [hx]
      · simp
  | path, fl, .other n, s, st, log => by
      simp only [travel, visits]
      cases fl.ro <;> simp
  | path, fl, .array elems, s, st, log => by
      simp only [travel, visits]
      cases fl.ro <;> simp
termination_by structural _ _ v => v
theorem travelFields_withLog {σ : Type} (callback : OnValueFuncHandler σ) :
    ∀ (path : String) (fl : flag) (fields : List (StructField × Value)) (s : Secrets) (st : σ)
      (log : List (String × Value)),
      travelFields (OnValueFuncHandler.withLog callback) path fl fields s (st, log) =
        (travelFields callback path fl fields s st).map
          (fun r => (r.1, r.2.1, (r.2.2, log ++ visitsFields path fields)))
  | path, fl, [], s, st, log => by simp [travelFields, visitsFields]
  | path, fl, (f, v) :: rest, s, st, log => by
      simp only [travelFields, visitsFields]
      rw [travel_withLog callback (path ++ "/" ++ f.name) (fl.field f) v s st log]
      cases ht : travel callback (path ++ "/" ++ f.name) (fl.field f) v s st with
      | none => simp
      | some r₁ =>
        simp only [Option.map_some']
        rw [travelFields_withLog callback path fl rest r₁.2.1 r₁.2.2 _]
        cases hr : travelFields callback path fl rest r₁.2.1 r₁.2.2 <;> simp [hr]
termination_by structural _ _ fields => fields
theorem travelElems_withLog {σ : Type} (callback : OnValueFuncHandler σ) :
    ∀ (path : String) (i : Nat) (elems : List Value) (s : Secrets) (st : σ)
      (log : List (String × Value)),
      travelElems (OnValueFuncHandler.withLog callback) path i elems s (st, log) =
        (travelElems callback path i elems s st).map
          (fun r => (r.1, r.2.1, (r.2.2, log ++ visitsElems path i elems)))
  | path, i, [], s, st, log => by simp [travelElems, visitsElems]
  | path, i, v :: rest, s, st, log => by
      simp only [travelElems, visitsElems]
      rw [travel_withLog callback (path ++ "[" ++ toString i ++ "]") flag.rw v s st log]
      cases ht : travel callback (path ++ "[" ++ toString i ++ "]") flag.rw v s st with
      | none => simp
      | some r₁ =>
        simp only [Option.map_some']
        rw [travelElems_withLog callback path (i + 1) rest r₁.2.1 r₁.2.2 _]
        cases hr : travelElems callback path (i + 1) rest r₁.2.1 r₁.2.2 <;> simp [hr]
termination_by structural _ _ elems => elems
theorem travelEntries_withLog {σ : Type} (callback : OnValueFuncHandler σ) :
    ∀ (path : String) (entries : List (String × Value)) (s : Secrets) (st : σ)
      (log : List (String × Value)),
      travelEntries (OnValueFuncHandler.withLog callback) path entries s (st, log) =
        (travelEntries callback path entries s st).map
          (fun r => (r.1, r.2.1, (r.2.2, log ++ visitsEntries path entries)))
  | path, [], s, st, log => by simp [travelEntries, visitsEntries]
  | path, (key, v) :: rest, s, st, log => by
      simp only [travelEntries, visitsEntries]
      rw [travel_withLog callback (path ++ "/" ++ key) flag.rw v s st log]
      cases ht : travel callback (path ++ "/" ++ key) flag.rw v s st with
      | none => simp
      | some r₁ =>
        simp only [Option.map_some']
        rw [travelEntries_withLog callback path rest r₁.2.1 r₁.2.2 _]
        cases hr : travelEntries callback path rest r₁.2.1 r₁.2.2 <;> simp [hr]
termination_by structural _ entries => entries
end

theorem Scrub_withLog {σ : Type} (V : Value) (callback : OnValueFuncHandler σ) (st : σ) :
    Scrub V (some (OnValueFuncHandler.withLog callback)) (st, []) =
      (Scrub V (some callback) st).map (fun r => (r.1, r.2.1, (r.2.2, visits "" V))) := by
  have h := travel_withLog callback "" flag.rw V [] st []
  simpa [Scrub] using h

/-! ## C1, C2: round trip -/

theorem restored_scrubbed_leaf (C : String → Value → Option String)
    (leaves : List (String × Value))
    (hU : UniqueTokens C leaves) (hA : TokensAvoidUntouched C leaves)
    (hP : ReplacesPlainOnly C leaves) (leaf : String × Value) (hm : leaf ∈ leaves)
    (typ : StringType) (x : String) (hx : leaf.2 = .str typ x) :
    restored (recorded C [] leaves) (scrubbed C leaf.1 leaf.2) = leaf.2 := by
  rcases untouched_or_touched C leaf with hu | ⟨t, hC, ht⟩
  · have hnot : x ∉ tokens C leaves := by
      intro hmem
      have := hA x hmem leaf hm hu
      rw [hx] at this
      exact this rfl
    have hs : scrubbed C leaf.1 leaf.2 = leaf.2 := by
      rw [hx]
      rw [scrubbed_str_eq_self_iff]
      rw [← hx]
      exact hu
    rw [hs, hx]
    cases typ with
    | plain => simp [restored, lookup_recorded_none C leaves x hnot]
    | named n => simp [restored]
  · have hplain : leaf.2.isPlain = true := by
      rcases hP leaf hm with hu | hp
      · rcases hu with hu | hu
        · rw [hC] at hu
          cases hu
        · rw [hC] at hu
          exact absurd (Option.some.inj hu) ht
      · exact hp
    have hl := lookup_recorded_unique C leaves [] hU leaf hm t hC ht
    rw [hx] at hplain hl hC ⊢
    cases typ with
    | plain =>
      simp only [Value.content] at hl
      simp [scrubbed, hC, restored, hl]
    | named n => simp [Value.isPlain] at hplain

/-- C1 (amended): round trip under the callback contract.  For every value `V`
and every deterministic callback `C` whose tokens over the traversal of `V` are
pairwise distinct, never equal the content of a leaf that stays unchanged, and
replace only leaves of the predeclared type `string`: if `Scrub V C` returns
`(V', S)` then `Restore V' S` returns `V`. -/
theorem C1_round_trip_under_contract (V : Value) (C : String → Value → Option String)
    (V' : Value) (S : Secrets)
    (hU : UniqueTokens C (visits "" V))
    (hA : TokensAvoidUntouched C (visits "" V))
    (hP : ReplacesPlainOnly C (visits "" V))
    (h : Scrub V (some (OnValueFuncHandler.ofFun C)) () = some (V', S, ())) :
    Restore V' S = some V := by
  rw [Scrub_ofFun] at h
  cases hok : travelOk flag.rw V with
  | false => simp [hok] at h
  | true =>
    simp only [hok, if_true, Option.some.injEq, Prod.mk.injEq, and_true] at h
    obtain ⟨hV, hS⟩ := h
    subst hV
    subst hS
    rw [Restore_eq_scrubbed, travelOk_scrubbed, hok, scrubbed_restoreDecision]
    simp only [if_true, Option.some.injEq]
    apply restored_scrubbed_of_leaves
    intro leaf hm
    obtain ⟨typ, x, hx⟩ := visits_isStr "" V leaf hm
    exact restored_scrubbed_leaf C (visits "" V) hU hA hP leaf hm typ x hx

/-- C1 (amended) at the test case "Struct containing a list". -/
theorem C1_round_trip_under_contract_witness :
    UniqueTokens (scrubbingFunction ["/List[0]", "/List[2]"]) (visits "" rawD) ∧
    TokensAvoidUntouched (scrubbingFunction ["/List[0]", "/List[2]"]) (visits "" rawD) ∧
    ReplacesPlainOnly (scrubbingFunction ["/List[0]", "/List[2]"]) (visits "" rawD) ∧
    Scrub rawD (some (OnValueFuncHandler.ofFun (scrubbingFunction ["/List[0]", "/List[2]"]))) ()
      = some (scrubbedD, secretsD, ()) ∧
    Restore scrubbedD secretsD = some rawD :=
  ⟨by decide, by decide, by decide, by rfl,
    C1_round_trip_under_contract rawD (scrubbingFunction ["/List[0]", "/List[2]"])
      scrubbedD secretsD (by decide) (by decide) (by decide) (by rfl)⟩

/-- C1 as stated fails: a deterministic callback that answers `"T"` everywhere
scrubs `["a", "b"]` to `["T", "T"]` with the secrets `T ↦ b`, and restoring
gives `["b", "b"]`. -/
theorem C1_counterexample :
    Scrub (.slice [.str .plain "a", .str .plain "b"])
        (some (OnValueFuncHandler.ofFun (fun _ _ => some "T"))) () =
      some (.slice [.str .plain "T", .str .plain "T"], [("T", "b")], ()) ∧
    Restore (.slice [.str .plain "T", .str .plain "T"]) [("T", "b")] =
      some (.slice [.str .plain "b", .str .plain "b"]) ∧
    Value.slice [.str .plain "b", .str .plain "b"] ≠
      Value.slice [.str .plain "a", .str .plain "b"] :=
  ⟨by rfl, by rfl, by simp⟩

/-- C2 at a failing input: the tests' object of type `B` and the tests'
`scrubbingFunction` for the path `/TypeString`.  The callback contract holds
(one token, different from every unchanged leaf), `Scrub` replaces the leaf of
type `SomeType` and records it, and `Restore` returns the scrubbed object
unchanged, not the original. -/
theorem C2_named_string_not_restored :
    UniqueTokens (scrubbingFunction ["/TypeString"]) (visits "" rawB) ∧
    TokensAvoidUntouched (scrubbingFunction ["/TypeString"]) (visits "" rawB) ∧
    Scrub rawB (some (OnValueFuncHandler.ofFun (scrubbingFunction ["/TypeString"]))) () =
      some (scrubbedTypeStringB, [("scrubbed/TypeString", "SomeTypeName")], ()) ∧
    Restore scrubbedTypeStringB [("scrubbed/TypeString", "SomeTypeName")] =
      some scrubbedTypeStringB ∧
    scrubbedTypeStringB ≠ rawB :=
  ⟨by decide, by decide, by rfl, by rfl,
    by simp [scrubbedTypeStringB, rawB, structB]⟩

/-! ## C3: paths -/

theorem outsideArrays_append (xs ys : List (Bool × String × Value)) :
    outsideArrays (xs ++ ys) = outsideArrays xs ++ outsideArrays ys := by
  simp [outsideArrays]

mutual
theorem outsideArrays_stringLeaves_true :
    ∀ (path : String) (v : Value), outsideArrays (stringLeaves true path v) = []
  | path, .str typ s => by simp [stringLeaves, outsideArrays]
  | path, .ptr v => by
      simp only [stringLeaves]
      exact outsideArrays_stringLeaves_true path v
  | path, .iface v => by
      simp only [stringLeaves]
      exact outsideArrays_stringLeaves_true path v
  | path, .struct fields => by
      simp only [stringLeaves]
      exact outsideArrays_stringLeavesFields_true path fields
  | path, .slice elems => by
      simp only [stringLeaves]
      exact outsideArrays_stringLeavesElems_true path 0 elems
  | path, .array elems => by
      simp only [stringLeaves]
      exact outsideArrays_stringLeavesElems_true path 0 elems
  | path, .map entries => by
      simp only [stringLeaves]
      exact outsideArrays_stringLeavesEntries_true path entries
  | path, .other n => by simp [stringLeaves, outsideArrays]
  | path, .nilPtr => by simp [stringLeaves, outsideArrays]
  | path, .nilIface => by simp [stringLeaves, outsideArrays]
  | path, .nilSlice => by simp [stringLeaves, outsideArrays]
  | path, .nilMap => by simp [stringLeaves, outsideArrays]
theorem outsideArrays_stringLeavesFields_true :
    ∀ (path : String) (fields : List (StructField × Value)),
      outsideArrays (stringLeavesFields true path fields) = []
  | path, [] => by simp [stringLeavesFields, outsideArrays]
  | path, (f, v) :: rest => by
      simp only [stringLeavesFields, outsideArrays_append]
      rw [outsideArrays_stringLeaves_true (path ++ "/" ++ f.name) v,
        outsideArrays_stringLeavesFields_true path rest]
      rfl
theorem outsideArrays_stringLeavesElems_true :
    ∀ (path : String) (i : Nat) (elems : List Value),
      outsideArrays (stringLeavesElems true path i elems) = []
  | path, i, [] => by simp [stringLeavesElems, outsideArrays]
  | path, i, v :: rest => by
      simp only [stringLeavesElems, outsideArrays_append]
      rw [outsideArrays_stringLeaves_true (path ++ "[" ++ toString i ++ "]") v,
        outsideArrays_stringLeavesElems_true path (i + 1) rest]
      rfl
theorem outsideArrays_stringLeavesEntries_true :
    ∀ (path : String) (entries : List (String × Value)),
      outsideArrays (stringLeavesEntries true path entries) = []
  | path, [] => by simp [stringLeavesEntries, outsideArrays]
  | path, (key, v) :: rest => by
      simp only [stringLeavesEntries, outsideArrays_append]
      rw [outsideArrays_stringLeaves_true (path ++ "/" ++ key) v,
        outsideArrays_stringLeavesEntries_true path rest]
      rfl
end

mutual
theorem visits_eq_outsideArrays :
    ∀ (path : String) (v : Value), visits path v = outsideArrays (stringLeaves false path v)
  | path, .str typ s => by simp [stringLeaves, outsideArrays, visits]
  | path, .ptr v => by
      simp only [stringLeaves, visits]
      exact visits_eq_outsideArrays path v
  | path, .iface v => by
      simp only [stringLeaves, visits]
      exact visits_eq_outsideArrays path v
  | path, .struct fields => by
      simp only [stringLeaves, visits]
      exact visitsFields_eq_outsideArrays path fields
  | path, .slice elems => by
      simp only [stringLeaves, visits]
      exact visitsElems_eq_outsideArrays path 0 elems
  | path, .array elems => by
      simp only [stringLeaves, visits]
      exact (outsideArrays_stringLeavesElems_true path 0 elems).symm
  | path, .map entries => by
      simp only [stringLeaves, visits]
      exact visitsEntries_eq_outsideArrays path entries
  | path, .other n => by simp [stringLeaves, outsideArrays, visits]
  | path, .nilPtr => by simp [stringLeaves, outsideArrays, visits]
  | path, .nilIface => by simp [stringLeaves, outsideArrays, visits]
  | path, .nilSlice => by simp [stringLeaves, outsideArrays, visits]
  | path, .nilMap => by simp [stringLeaves, outsideArrays, visits]
theorem visitsFields_eq_outsideArrays :
    ∀ (path : String) (fields : List (StructField × Value)),
      visitsFields path fields = outsideArrays (stringLeavesFields false path fields)
  | path, [] => by simp [stringLeavesFields, outsideArrays, visitsFields]
  | path, (f, v) :: rest => by
      simp only [stringLeavesFields, visitsFields, outsideArrays_append]
      rw [visits_eq_outsideArrays (path ++ "/" ++ f.name) v,
        visitsFields_eq_outsideArrays path rest]
theorem visitsElems_eq_outsideArrays :
    ∀ (path : String) (i : Nat) (elems : List Value),
      visitsElems path i elems = outsideArrays (stringLeavesElems false path i elems)
  | path, i, [] => by simp [stringLeavesElems, outsideArrays, visitsElems]
  | path, i, v :: rest => by
      simp only [stringLeavesElems, visitsElems, outsideArrays_append]
      rw [visits_eq_outsideArrays (path ++ "[" ++ toString i ++ "]") v,
        visitsElems_eq_outsideArrays path (i + 1) rest]
theorem visitsEntries_eq_outsideArrays :
    ∀ (path : String) (entries : List (String × Value)),
      visitsEntries path entries = outsideArrays (stringLeavesEntries false path entries)
  | path, [] => by simp [stringLeavesEntries, outsideArrays, visitsEntries]
  | path, (key, v) :: rest => by
      simp only [stringLeavesEntries, visitsEntries, outsideArrays_append]
      rw [visits_eq_outsideArrays (path ++ "/" ++ key) v,
        visitsEntries_eq_outsideArrays path rest]
end

/-- C3 (amended): path correctness of `Scrub`.  For every value and callback,
whatever state the callback captures, recording the invocations does not
change what `Scrub` returns, and when it returns the invocations are, in
order, the string leaves of the value that are not held in an array, each
once, with its current value and its path (from the empty root path,
`"/" ++ fieldName` per struct field, `"[" ++ index ++ "]"` per slice element,
`"/" ++ key` per map entry, nothing for a pointer or interface).  An array is
copied as a whole: the callback is not invoked for a string it holds, and that
string stays as it is.  For a deterministic callback `Scrub` returns exactly
when the traversal can complete, and the output is the value with each leaf
outside arrays replaced by the token the callback returns for it and kept
where it declines.  Scrubbing the map `a ↦ ["x", "y"]` with a callback that
matches only `/a[0]` gives `a ↦ ["<token>", "y"]` and the secrets
`<token> ↦ x` exactly. -/
theorem C3_paths_of_leaves_outside_arrays :
    (∀ (σ : Type) (V : Value) (callback : OnValueFuncHandler σ) (st : σ),
      Scrub V (some (OnValueFuncHandler.withLog callback)) (st, []) =
        (Scrub V (some callback) st).map (fun r => (r.1, r.2.1, (r.2.2, visits "" V)))) ∧
    (∀ (V : Value), visits "" V = outsideArrays (stringLeaves false "" V)) ∧
    (∀ (C : String → Value → Option String) (path : String) (elems : List Value),
      scrubbed C path (.array elems) = .array elems) ∧
    (∀ (V : Value) (C : String → Value → Option String),
      Scrub V (some (OnValueFuncHandler.logged C)) [] =
        if travelOk flag.rw V then
          some (scrubbed C "" V, recorded C [] (visits "" V), visits "" V)
        else none) ∧
    (∀ (V : Value) (C : String → Value → Option String),
      Scrub V (some (OnValueFuncHandler.ofFun C)) () =
        if travelOk flag.rw V then
          some (scrubbed C "" V, recorded C [] (visits "" V), ())
        else none) ∧
    Scrub (.map [("a", .slice [.str .plain "x", .str .plain "y"])])
        (some (OnValueFuncHandler.logged onlyFirstOfA)) [] =
      some (.map [("a", .slice [.str .plain "<token>", .str .plain "y"])],
        [("<token>", "x")],
        [("/a[0]", .str .plain "x"), ("/a[1]", .str .plain "y")]) :=
  ⟨fun _ V callback st => Scrub_withLog V callback st, visits_eq_outsideArrays "",
    fun _ _ _ => rfl, Scrub_logged, Scrub_ofFun, by rfl⟩

/-- C3 as stated fails: an object of a type `struct { Name string; Keys
[2]string }` has three string leaves, at the paths `/Name`, `/Keys[0]` and
`/Keys[1]`; scrubbing it with the tests' callback for these three paths invokes
the callback for `/Name` only, and the two strings held in the array stay in
the output as they are. -/
theorem C3_counterexample :
    stringLeaves false "" objWithStringArray =
      [(false, "/Name", .str .plain "n"), (true, "/Keys[0]", .str .plain "k0"),
        (true, "/Keys[1]", .str .plain "k1")] ∧
    Scrub objWithStringArray
        (some (OnValueFuncHandler.logged (scrubbingFunction ["/Name", "/Keys[0]", "/Keys[1]"])))
        [] =
      some (.ptr (.struct [(exportedField "Name", .str .plain "scrubbed/Name"),
          (exportedField "Keys", .array [.str .plain "k0", .str .plain "k1"])]),
        [("scrubbed/Name", "n")], [("/Name", .str .plain "n")]) :=
  ⟨by rfl, by rfl⟩

/-! ## C4: restoring by content -/

/-- C4 at a failing input: an object of the tests' type `B` holding the
literal `"$ref-" ++ "/x"` in the field `String` (type `string`) and in the
field `TypeString` (type `SomeType`), restored with secrets that map this
literal to `"secret"`.
The leaf of type `string` is replaced wherever it is; the leaf of type
`SomeType` keeps the token although its content is a key of the secrets. -/
theorem C4_named_string_leaf_kept :
    Restore (.ptr (structB (structA "$ref-/x" 1 .nilMap) "hideMe" "$ref-/x"))
        [("$ref-/x", "secret")] =
      some (.ptr (structB (structA "secret" 1 .nilMap) "hideMe" "$ref-/x")) := by
  rfl

/-! ## C5: the default policy -/

/-- The default policy where it behaves as described: the default callback
returns `"$ref-" ++ path` for every non-empty leaf of the predeclared type
`string` and declines for an empty string; it also declines for every leaf of
a named string type.  `Scrub` without a callback uses it: it returns exactly
when the traversal can complete, and then the output has the same leaves at
the same paths, a non-empty leaf of type `string` at path `p` holding
`"$ref-" ++ p`.  Scrubbing the map `field ↦ "value"` gives the map from
`field` to `"$ref-" ++ "/field"` and the secrets from that token to
`"value"`. -/
theorem default_policy_plain_leaves :
    (∀ (p x : String),
      defaultDecision p (.str .plain x) = if x ≠ "" then some ("$ref-" ++ p) else none) ∧
    (∀ (p n x : String), defaultDecision p (.str (.named n) x) = none) ∧
    (∀ (σ : Type) (V : Value) (st : σ),
      Scrub V (none : Option (OnValueFuncHandler σ)) st =
        if travelOk flag.rw V then
          some (scrubbed defaultDecision "" V, recorded defaultDecision [] (visits "" V), st)
        else none) ∧
    (∀ (V : Value),
      visits "" (scrubbed defaultDecision "" V) =
        (visits "" V).map (fun leaf => (leaf.1, scrubbed defaultDecision leaf.1 leaf.2))) ∧
    (∀ (p x : String),
      scrubbed defaultDecision p (.str .plain x) =
        if x ≠ "" then .str .plain ("$ref-" ++ p) else .str .plain "") ∧
    (∀ (p n x : String),
      scrubbed defaultDecision p (.str (.named n) x) = .str (.named n) x) ∧
    Scrub (.ptr (.map [("field", .iface (.str .plain "value"))]))
        (none : Option (OnValueFuncHandler Unit)) () =
      some (.ptr (.map [("field", .iface (.str .plain "$ref-/field"))]),
        [("$ref-/field", "value")], ()) := by
  refine ⟨fun p x => rfl, fun p n x => rfl, fun σ V st => Scrub_default V st,
    fun V => visits_scrubbed defaultDecision "" V, ?_, fun p n x => rfl, by rfl⟩
  intro p x
  by_cases hx : x = ""
  · subst hx
    simp [scrubbed, defaultDecision]
  · simp [scrubbed, defaultDecision, hx]

/-- C5 at a failing input: `Scrub` without a callback on the tests' object of
type `B`.  The leaf `TypeString` is a non-empty string leaf (its kind is
string, its type `SomeType`) and `travel` passes it to the default callback,
which declines it; in the output it still holds `"SomeTypeName"`, not
`"$ref-" ++ "/TypeString"`, while the three leaves of type `string` hold their
tokens. -/
theorem C5_default_keeps_named_string_leaf :
    Scrub rawB (none : Option (OnValueFuncHandler Unit)) () =
      some (defaultScrubbedB,
        [("$ref-/A/String", "Expose Me"), ("$ref-/A/MapStrToInterface/name", "B/A"),
          ("$ref-/StringOther", "hideMe")], ()) ∧
    visits "" defaultScrubbedB =
      [("/A/String", .str .plain "$ref-/A/String"),
        ("/A/MapStrToInterface/name", .str .plain "$ref-/A/MapStrToInterface/name"),
        ("/StringOther", .str .plain "$ref-/StringOther"),
        ("/TypeString", .str SomeType "SomeTypeName")] ∧
    "SomeTypeName" ≠ "" ∧ "SomeTypeName" ≠ "$ref-/TypeString" :=
  ⟨by rfl, by rfl, by decide, by decide⟩

/-! ## Shape of the copy -/

mutual
theorem travel_skeleton {σ : Type} (callback : OnValueFuncHandler σ) :
    ∀ (path : String) (fl : flag) (v : Value) (s : Secrets) (st : σ)
      (r : Value × Secrets × σ),
      travel callback path fl v s st = some r → skeleton r.1 = skeleton v
  | path, fl, .nilPtr, s, st, r, h => by
      simp only [travel, Option.some.injEq] at h
      rw [← h]
  | path, fl, .ptr v, s, st, r, h => by
      simp only [travel] at h
      cases hro : fl.ro with
      | true => simp [hro] at h
      | false =>
        cases ht : travel callback path flag.rw v s st with
        | none => simp [hro, ht] at h
        | some r' =>
          simp only [hro, ht, Bool.false_eq_true, if_false, Option.some.injEq] at h
          rw [← h]
          simp only [skeleton]
          rw [travel_skeleton callback path flag.rw v s st r' ht]
  | path, fl, .nilIface, s, st, r, h => by simp [travel] at h
  | path, fl, .iface v, s, st, r, h => by
      simp only [travel] at h
      cases hro : fl.ro with
      | true => simp [hro] at h
      | false =>
        cases ht : travel callback path flag.rw v s st with
        | none => simp [hro, ht] at h
        | some r' =>
          simp only [hro, ht, Bool.false_eq_true, if_false, Option.some.injEq] at h
          rw [← h]
          simp only [skeleton]
          rw [travel_skeleton callback path flag.rw v s st r' ht]
  | path, fl, .struct fields, s, st, r, h => by
      simp only [travel] at h
      cases ht : travelFields callback path fl fields s st with
      | none => simp [ht] at h
      | some r' =>
        simp only [ht, Option.some.injEq] at h
        rw [← h]
        simp only [skeleton]
        rw [travelFields_skeleton callback path fl fields s st r' ht]
  | path, fl, .nilSlice, s, st, r, h => by
      simp only [travel, Option.some.injEq] at h
      rw [← h]
  | path, fl, .slice elems, s, st, r, h => by
      simp only [travel] at h
      cases hro : fl.ro with
      | true => simp [hro] at h
      | false =>
        cases ht : travelElems callback path 0 elems s st with
        | none => simp [hro, ht] at h
        | some r' =>
          simp only [hro, ht, Bool.false_eq_true, if_false, Option.some.injEq] at h
          rw [← h]
          simp only [skeleton]
          rw [travelElems_skeleton callback path 0 elems s st r' ht]
  | path, fl, .nilMap, s, st, r, h => by
      simp only [travel, Option.some.injEq] at h
      rw [← h]
  | path, fl, .map entries, s, st, r, h => by
      simp only [travel] at h
      cases hro : fl.ro with
      | true => simp [hro] at h
      | false =>
        cases ht : travelEntries callback path entries s st with
        | none => simp [hro, ht] at h
        | some r' =>
          simp only [hro, ht, Bool.false_eq_true, if_false, Option.some.injEq] at h
          rw [← h]
          simp only [skeleton]
          rw [travelEntries_skeleton callback path entries s st r' ht]
  | path, fl, .str typ x, s, st, r, h => by
      simp only [travel] at h
      cases hro : fl.ro with
      | true => simp [hro] at h
      | false =>
        simp only [hro, Bool.false_eq_true, if_false] at h
        rcases hc : callback path (.str typ x) st with ⟨_ | t, st'⟩
        · simp only [hc, Option.some.injEq] at h
          rw [← h]
        · simp only [hc] at h
          by_cases hx : x = t
          · simp only [hx, ne_eq, not_true_eq_false, if_false, Option.some.injEq] at h
            rw [← h]
            simp [skeleton]
          · simp only [hx, ne_eq, not_false_eq_true, if_true, Option.some.injEq] at h
            rw [← h]
            simp [skeleton]
  | path, fl, .other n, s, st, r, h => by
      simp only [travel] at h
      cases hro : fl.ro with
      | true => simp [hro] at h
      | false =>
        simp only [hro, Bool.false_eq_true, if_false, Option.some.injEq] at h
        rw [← h]
  | path, fl, .array elems, s, st, r, h => by
      simp only [travel] at h
      cases hro : fl.ro with
      | true => simp [hro] at h
      | false =>
        simp only [hro, Bool.false_eq_true, if_false, Option.some.injEq] at h
        rw [← h]
theorem travelFields_skeleton {σ : Type} (callback : OnValueFuncHandler σ) :
    ∀ (path : String) (fl : flag) (fields : List (StructField × Value)) (s : Secrets) (st : σ)
      (r : List (StructField × Value) × Secrets × σ),
      travelFields callback path fl fields s st = some r →
        skeletonFields r.1 = skeletonFields fields
  | path, fl, [], s, st, r, h => by
      simp only [travelFields, Option.some.injEq] at h
      rw [← h]
  | path, fl, (f, v) :: rest, s, st, r, h => by
      simp only [travelFields] at h
      cases ht : travel callback (path ++ "/" ++ f.name) (fl.field f) v s st with
      | none => simp [ht] at h
      | some r₁ =>
        cases hr : travelFields callback path fl rest r₁.2.1 r₁.2.2 with
        | none => simp [ht, hr] at h
        | some r₂ =>
          simp only [ht, hr, Option.some.injEq] at h
          rw [← h]
          simp only [skeletonFields]
          rw [travel_skeleton callback _ _ v s st r₁ ht,
            travelFields_skeleton callback path fl rest _ _ r₂ hr]
theorem travelElems_skeleton {σ : Type} (callback : OnValueFuncHandler σ) :
    ∀ (path : String) (i : Nat) (elems : List Value) (s : Secrets) (st : σ)
      (r : List Value × Secrets × σ),
      travelElems callback path i elems s st = some r →
        skeletonElems r.1 = skeletonElems elems
  | path, i, [], s, st, r, h => by
      simp only [travelElems, Option.some.injEq] at h
      rw [← h]
  | path, i, v :: rest, s, st, r, h => by
      simp only [travelElems] at h
      cases ht : travel callback (path ++ "[" ++ toString i ++ "]") flag.rw v s st with
      | none => simp [ht] at h
      | some r₁ =>
        cases hr : travelElems callback path (i + 1) rest r₁.2.1 r₁.2.2 with
        | none => simp [ht, hr] at h
        | some r₂ =>
          simp only [ht, hr, Option.some.injEq] at h
          rw [← h]
          simp only [skeletonElems]
          rw [travel_skeleton callback _ _ v s st r₁ ht,
            travelElems_skeleton callback path (i + 1) rest _ _ r₂ hr]
theorem travelEntries_skeleton {σ : Type} (callback : OnValueFuncHandler σ) :
    ∀ (path : String) (entries : List (String × Value)) (s : Secrets) (st : σ)
      (r : List (String × Value) × Secrets × σ),
      travelEntries callback path entries s st = some r →
        skeletonEntries r.1 = skeletonEntries entries
  | path, [], s, st, r, h => by
      simp only [travelEntries, Option.some.injEq] at h
      rw [← h]
  | path, (key, v) :: rest, s, st, r, h => by
      simp only [travelEntries] at h
      cases ht : travel callback (path ++ "/" ++ key) flag.rw v s st with
      | none => simp [ht] at h
      | some r₁ =>
        cases hr : travelEntries callback path rest r₁.2.1 r₁.2.2 with
        | none => simp [ht, hr] at h
        | some r₂ =>
          simp only [ht, hr, Option.some.injEq] at h
          rw [← h]
          simp only [skeletonEntries]
          rw [travel_skeleton callback _ _ v s st r₁ ht,
            travelEntries_skeleton callback path rest _ _ r₂ hr]
end

/-! ## C6: embedded structs -/

theorem visitsFields_append (path : String) :
    ∀ (a b : List (StructField × Value)),
      visitsFields path (a ++ b) = visitsFields path a ++ visitsFields path b
  | [], b => by simp [visitsFields]
  | (f, v) :: a, b => by
      simp [visitsFields, visitsFields_append path a b]

theorem travel_logged (C : String → Value → Option String) (path : String) (fl : flag)
    (v : Value) (s : Secrets) (log : List (String × Value)) :
    travel (OnValueFuncHandler.logged C) path fl v s log =
      if travelOk fl v then
        some (scrubbed C path v, recorded C s (visits path v), log ++ visits path v)
      else none := by
  have h := travel_observe C
    (fun fieldPath valueToScrub log => log ++ [(fieldPath, valueToScrub)]) path fl v s log
  rw [observed_log] at h
  exact h

/-- C6 (amended): embedded sub-records are not flattened.  An embedded
sub-record is a field of the enclosing record, named after its type, and is
traversed like any other struct field: a string field `f` of the embedded
sub-record `emb` is presented to the callback with the path
`parentPath ++ "/" ++ emb.name ++ "/" ++ f.name`, between the invocations for
the fields before and after it. -/
theorem C6_embedded_struct_is_a_field (C : String → Value → Option String)
    (parentPath : String) (fl : flag) (emb f : StructField)
    (pre post ipre ipost : List (StructField × Value)) (typ : StringType) (x : String)
    (secrets : Secrets) (log : List (String × Value)) (r : Value × Secrets × List (String × Value))
    (_hemb : emb.anonymous = true)
    (h : travel (OnValueFuncHandler.logged C) parentPath fl
      (.struct (pre ++ (emb, .struct (ipre ++ (f, .str typ x) :: ipost)) :: post)) secrets log
        = some r) :
    r.2.2 = log ++ (visitsFields parentPath pre ++
      (visitsFields (parentPath ++ "/" ++ emb.name) ipre ++
        (parentPath ++ "/" ++ emb.name ++ "/" ++ f.name, .str typ x) ::
          visitsFields (parentPath ++ "/" ++ emb.name) ipost) ++
      visitsFields parentPath post) := by
  rw [travel_logged] at h
  split at h
  · simp only [Option.some.injEq] at h
    rw [← h]
    simp [visits, visitsFields, visitsFields_append]
  · cases h

/-- C6 (amended) at the tests' object of type `B`, which embeds `A`: the field
`String` of the embedded `A` is presented with the path `/A/String`. -/
theorem C6_embedded_struct_is_a_field_witness :
    (embeddedField "A").anonymous = true ∧
    travel (OnValueFuncHandler.logged declineAll) "" flag.rw
        (structB (structA "Expose Me" 1 .nilMap) "hideMe" "SomeTypeName") [] [] =
      some (structB (structA "Expose Me" 1 .nilMap) "hideMe" "SomeTypeName", [],
        [("/A/String", .str .plain "Expose Me"), ("/StringOther", .str .plain "hideMe"),
          ("/TypeString", .str SomeType "SomeTypeName")]) ∧
    [("/A/String", Value.str .plain "Expose Me"), ("/StringOther", .str .plain "hideMe"),
        ("/TypeString", .str SomeType "SomeTypeName")] =
      [] ++ (visitsFields "" [] ++
        (visitsFields ("" ++ "/" ++ "A") [] ++
          ("" ++ "/" ++ "A" ++ "/" ++ "String", .str .plain "Expose Me") ::
            visitsFields ("" ++ "/" ++ "A")
              [(exportedField "Int", .other 1), (exportedField "MapStrToInterface", .nilMap)]) ++
        visitsFields ""
          [(exportedField "StringOther", .str .plain "hideMe"),
            (exportedField "TypeString", .str SomeType "SomeTypeName")]) :=
  ⟨rfl, by rfl,
    C6_embedded_struct_is_a_field declineAll "" flag.rw (embeddedField "A")
      (exportedField "String") []
      [(exportedField "StringOther", .str .plain "hideMe"),
        (exportedField "TypeString", .str SomeType "SomeTypeName")]
      [] [(exportedField "Int", .other 1), (exportedField "MapStrToInterface", .nilMap)]
      .plain "Expose Me" [] []
      (structB (structA "Expose Me" 1 .nilMap) "hideMe" "SomeTypeName", [],
        [("/A/String", .str .plain "Expose Me"), ("/StringOther", .str .plain "hideMe"),
          ("/TypeString", .str SomeType "SomeTypeName")])
      rfl (by rfl)⟩

/-- C6 as stated fails: scrubbing the tests' object of type `B` (which embeds
`A`) with a callback that logs its invocations presents the field `String` of
the embedded `A` with the path `/A/String`; no invocation has the flattened
path `/String`. -/
theorem C6_counterexample :
    Scrub rawB (some (OnValueFuncHandler.logged declineAll)) [] =
      some (rawB, [],
        [("/A/String", .str .plain "Expose Me"),
          ("/A/MapStrToInterface/name", .str .plain "B/A"),
          ("/StringOther", .str .plain "hideMe"),
          ("/TypeString", .str SomeType "SomeTypeName")]) ∧
    "/String" ∉ ["/A/String", "/A/MapStrToInterface/name", "/StringOther", "/TypeString"] :=
  ⟨by rfl, by decide⟩

/-! ## C7: the working copy of the secrets -/

theorem lookup_recorded_isSome (C : String → Value → Option String) (k : String) :
    ∀ (leaves : List (String × Value)) (s : Secrets), (Secrets.lookup s k).isSome = true →
      (Secrets.lookup (recorded C s leaves) k).isSome = true
  | [], s, h => h
  | leaf :: leaves, s, h => by
      rw [recorded_cons]
      apply lookup_recorded_isSome C k leaves
      rcases untouched_or_touched C leaf with hu | ⟨t, hC, ht⟩
      · rw [recordLeaf_of_untouched C s leaf hu]
        exact h
      · rw [recordLeaf_of_touched C s leaf t hC ht, lookup_assign]
        by_cases e : t = k
        · simp [e]
        · simp [e, h]

theorem lookup_foldl_assign_isSome (k : String) :
    ∀ (S acc : Secrets),
      (Secrets.lookup acc k).isSome = true ∨ (Secrets.lookup S k).isSome = true →
        (Secrets.lookup
          (S.foldl (fun secretsCopy kv => Secrets.assign secretsCopy kv.1 kv.2) acc) k).isSome
            = true
  | [], acc, h => by
      rcases h with h | h
      · exact h
      · simp [Secrets.lookup] at h
  | (k₀, v₀) :: S, acc, h => by
      simp only [List.foldl_cons]
      apply lookup_foldl_assign_isSome k S
      rw [lookup_assign]
      by_cases e : k₀ = k
      · simp [e]
      · simp only [e, if_false]
        rcases h with h | h
        · exact Or.inl h
        · simp only [Secrets.lookup, e, if_false] at h
          exact Or.inr h

theorem Restore_eq_restored (V : Value) (S : Secrets) :
    Restore V S = if travelOk flag.rw V then some (restored S V) else none := by
  rw [Restore_eq_scrubbed, scrubbed_restoreDecision]

/-- C7 (amended): `Restore` does not consume tokens.  The lookups read the
caller's secrets, which stay the same during the whole traversal: `Restore`
returns exactly when the traversal can complete, and then every leaf of type
`string` whose content is a key is replaced by the entry (`restored`), however
many leaves hold the same token.  No key leaves the working copy, which only
receives writes.  In particular two leaves holding the same token are both
restored. -/
theorem C7_restore_keeps_every_entry :
    (∀ (V : Value) (S : Secrets),
      Restore V S = if travelOk flag.rw V then some (restored S V) else none) ∧
    (∀ (V : Value) (S : Secrets) (r : Value × Secrets × Unit),
      travel (OnValueFuncHandler.ofFun (restoreDecision S)) "/" flag.rw V (copySecrets S) ()
          = some r →
        ∀ k, (Secrets.lookup S k).isSome = true → (Secrets.lookup r.2.1 k).isSome = true) ∧
    (∀ (S : Secrets) (t o : String), Secrets.lookup S t = some o →
      Restore (.slice [.str .plain t, .str .plain t]) S =
        some (.slice [.str .plain o, .str .plain o])) := by
  refine ⟨Restore_eq_restored, ?_, ?_⟩
  · intro V S r h k hk
    rw [travel_ofFun] at h
    split at h
    · simp only [Option.some.injEq] at h
      rw [← h]
      apply lookup_recorded_isSome
      exact lookup_foldl_assign_isSome k S [] (Or.inr hk)
    · cases h
  · intro S t o h
    rw [Restore_eq_restored]
    simp [travelOk, travelOkElems, flag.ro, flag.rw, restored, restoredElems, h]

/-- C7 (amended) at two leaves holding the token `"token"`. -/
theorem C7_restore_keeps_every_entry_witness :
    Secrets.lookup [("token", "original")] "token" = some "original" ∧
    Restore (.slice [.str .plain "token", .str .plain "token"]) [("token", "original")] =
      some (.slice [.str .plain "original", .str .plain "original"]) :=
  ⟨by rfl, C7_restore_keeps_every_entry.2.2 [("token", "original")] "token" "original" (by rfl)⟩

/-- C7 as stated fails: with the secrets `token ↦ original`, both leaves of
`["token", "token"]` are restored; the second does not keep the token, and the
working copy still has the entry for `token` after the traversal (it has
gained the entry `original ↦ token`). -/
theorem C7_counterexample :
    Restore (.slice [.str .plain "token", .str .plain "token"]) [("token", "original")] =
      some (.slice [.str .plain "original", .str .plain "original"]) ∧
    Value.slice [.str .plain "original", .str .plain "original"] ≠
      Value.slice [.str .plain "original", .str .plain "token"] ∧
    travel (OnValueFuncHandler.ofFun (restoreDecision [("token", "original")])) "/" flag.rw
        (.slice [.str .plain "token", .str .plain "token"])
        (copySecrets [("token", "original")]) () =
      some (.slice [.str .plain "original", .str .plain "original"],
        [("token", "original"), ("original", "token")], ()) :=
  ⟨by rfl, by simp, by rfl⟩

/-! ## C8: scrubbing again -/

theorem rescrub_of_tokenStableOn (V : Value) (C : String → Value → Option String)
    (hC : TokenStableOn C (visits "" V)) :
    scrubbed C "" (scrubbed C "" V) = scrubbed C "" V ∧
      recorded C [] (visits "" (scrubbed C "" V)) = [] := by
  have hall : ∀ leaf ∈ visits "" (scrubbed C "" V), Untouched C leaf := by
    intro leaf hm
    rw [visits_scrubbed] at hm
    obtain ⟨l, hl, rfl⟩ := List.mem_map.mp hm
    obtain ⟨p, w⟩ := l
    obtain ⟨typ, x, hx⟩ := visits_isStr "" V (p, w) hl
    simp only at hx
    subst hx
    cases h : C p (.str typ x) with
    | none => simp [Untouched, scrubbed, h]
    | some t =>
      have := hC p typ x t hl h
      simpa [Untouched, scrubbed, h, Value.content] using this
  exact ⟨(scrubbed_eq_self_iff C "" _).mpr hall, (recorded_eq_nil_iff C _).mpr hall⟩

theorem tokenStableOn_of_rescrub (V : Value) (C : String → Value → Option String)
    (h : scrubbed C "" (scrubbed C "" V) = scrubbed C "" V) :
    TokenStableOn C (visits "" V) := by
  intro p typ x t hm ht
  have hall := (scrubbed_eq_self_iff C "" _).mp h
  have hmem : (p, scrubbed C p (.str typ x)) ∈ visits "" (scrubbed C "" V) := by
    rw [visits_scrubbed]
    exact List.mem_map.mpr ⟨(p, .str typ x), hm, rfl⟩
  have := hall _ hmem
  simpa [Untouched, scrubbed, ht, Value.content] using this

/-- C8 (amended): idempotent secret accumulation.  For every value `V` and
every deterministic callback `C` that is stable on the tokens it returns for
`V` (whenever `C` returns a token `t` for a string leaf of `V` at path `p`,
asked at `p` for that leaf holding `t` it declines or returns `t` again): if
`Scrub V C` returns `(V', S)`, then `Scrub V' C` returns `V'` and the empty
secrets map. -/
theorem C8_rescrub_stable_on_stable_tokens (V : Value) (C : String → Value → Option String)
    (V' : Value) (S : Secrets) (hC : TokenStableOn C (visits "" V))
    (h : Scrub V (some (OnValueFuncHandler.ofFun C)) () = some (V', S, ())) :
    Scrub V' (some (OnValueFuncHandler.ofFun C)) () = some (V', [], ()) := by
  rw [Scrub_ofFun] at h
  cases hok : travelOk flag.rw V with
  | false => simp [hok] at h
  | true =>
    simp only [hok, if_true, Option.some.injEq, Prod.mk.injEq, and_true] at h
    obtain ⟨hV, _⟩ := h
    have hok' : travelOk flag.rw V' = true := by
      rw [← hV, travelOk_scrubbed, hok]
    obtain ⟨h₁, h₂⟩ := rescrub_of_tokenStableOn V C hC
    rw [Scrub_ofFun, hok', ← hV, h₁, h₂]
    rfl

/-- C8 (amended) at the test case "Struct containing a list": the tests'
callback answers by the path alone, so it is stable on its tokens. -/
theorem C8_rescrub_stable_on_stable_tokens_witness :
    TokenStableOn (scrubbingFunction ["/List[0]", "/List[2]"]) (visits "" rawD) ∧
    Scrub rawD (some (OnValueFuncHandler.ofFun (scrubbingFunction ["/List[0]", "/List[2]"]))) ()
      = some (scrubbedD, secretsD, ()) ∧
    Scrub scrubbedD
        (some (OnValueFuncHandler.ofFun (scrubbingFunction ["/List[0]", "/List[2]"]))) ()
      = some (scrubbedD, [], ()) :=
  ⟨fun _ _ _ _ _ ht => Or.inr ht, by rfl,
    C8_rescrub_stable_on_stable_tokens rawD (scrubbingFunction ["/List[0]", "/List[2]"])
      scrubbedD secretsD (fun _ _ _ _ _ ht => Or.inr ht) (by rfl)⟩

/-- The condition of stability is also necessary: if scrubbing the scrubbed
value again changes nothing, the callback is stable on the tokens it returned
for `V`. -/
theorem rescrub_stable_only_if (V : Value) (C : String → Value → Option String)
    (V' : Value) (S : Secrets)
    (h : Scrub V (some (OnValueFuncHandler.ofFun C)) () = some (V', S, ()))
    (h' : Scrub V' (some (OnValueFuncHandler.ofFun C)) () = some (V', [], ())) :
    TokenStableOn C (visits "" V) := by
  rw [Scrub_ofFun] at h h'
  cases hok : travelOk flag.rw V with
  | false => simp [hok] at h
  | true =>
    simp only [hok, if_true, Option.some.injEq, Prod.mk.injEq, and_true] at h
    obtain ⟨hV, _⟩ := h
    have hok' : travelOk flag.rw V' = true := by
      rw [← hV, travelOk_scrubbed, hok]
    simp only [hok', if_true, Option.some.injEq, Prod.mk.injEq, and_true] at h'
    apply tokenStableOn_of_rescrub
    rw [hV]
    exact h'.1

/-- C8 as stated fails: the deterministic callback that appends `"!"` to the
value scrubs `["a"]` to `["a!"]`, and scrubbing the result again gives
`["a!!"]` and a secret, not the same value with an empty secrets map.  The
callback is not stable on its token: asked for `"a!"` it returns `"a!!"`. -/
theorem C8_counterexample :
    Scrub (.slice [.str .plain "a"]) (some (OnValueFuncHandler.ofFun appendMark)) () =
      some (.slice [.str .plain "a!"], [("a!", "a")], ()) ∧
    Scrub (.slice [.str .plain "a!"]) (some (OnValueFuncHandler.ofFun appendMark)) () =
      some (.slice [.str .plain "a!!"], [("a!!", "a!")], ()) ∧
    (Value.slice [.str .plain "a!!"], ([("a!!", "a!")] : Secrets), ()) ≠
      (Value.slice [.str .plain "a!"], ([] : Secrets), ()) :=
  ⟨by rfl, by rfl, by simp⟩

/-! ## C9: restoring again -/

theorem mem_of_lookup (k v : String) :
    ∀ (S : Secrets), Secrets.lookup S k = some v → (k, v) ∈ S
  | [], h => by simp [Secrets.lookup] at h
  | (k₀, v₀) :: S, h => by
      by_cases e : k₀ = k
      · simp only [Secrets.lookup, e, if_true, Option.some.injEq] at h
        simp [e, h]
      · simp only [Secrets.lookup, e, if_false] at h
        exact List.mem_cons_of_mem _ (mem_of_lookup k v S h)

theorem untouched_restored (S : Secrets) (hS : NoChains S) (path : String)
    (typ : StringType) (x : String) :
    Untouched (restoreDecision S) (path, scrubbed (restoreDecision S) path (.str typ x)) := by
  cases typ with
  | named n => simp [Untouched, scrubbed, restoreDecision]
  | plain =>
    cases hx : Secrets.lookup S x with
    | none => simp [Untouched, scrubbed, restoreDecision, hx]
    | some y =>
      have := hS (x, y) (mem_of_lookup x y S hx)
      simpa [Untouched, scrubbed, restoreDecision, hx, Value.content] using this

/-- C9 (amended): `Restore` is idempotent for secrets without chains.  For
every value `V` and every secrets map `S` in which no stored original is
itself a key mapped to a different string, restoring the result of
`Restore V S` again gives the same result (and both calls fail together). -/
theorem C9_restore_idempotent_without_chains (V : Value) (S : Secrets) (hS : NoChains S) :
    (Restore V S).bind (fun R => Restore R S) = Restore V S := by
  rw [Restore_eq_scrubbed]
  cases hok : travelOk flag.rw V with
  | false => simp
  | true =>
    simp only [if_true, Option.some_bind]
    rw [Restore_eq_scrubbed, travelOk_scrubbed, hok]
    simp only [if_true, Option.some.injEq]
    rw [scrubbed_eq_self_iff, visits_scrubbed]
    intro leaf hm
    obtain ⟨l, hl, rfl⟩ := List.mem_map.mp hm
    obtain ⟨typ, x, hx⟩ := visits_isStr "/" V l hl
    rw [hx]
    exact untouched_restored S hS l.1 typ x

/-- C9 (amended) at the test case "Struct containing a list". -/
theorem C9_restore_idempotent_without_chains_witness :
    NoChains secretsD ∧
    Restore scrubbedD secretsD = some rawD ∧
    (Restore scrubbedD secretsD).bind (fun R => Restore R secretsD) =
      Restore scrubbedD secretsD :=
  ⟨by decide, by rfl, C9_restore_idempotent_without_chains scrubbedD secretsD (by decide)⟩

/-- C9 as stated fails: with the secrets `a ↦ b`, `b ↦ c`, restoring `["a"]`
gives `["b"]` and restoring that gives `["c"]`. -/
theorem C9_counterexample :
    Restore (.slice [.str .plain "a"]) [("a", "b"), ("b", "c")] =
      some (.slice [.str .plain "b"]) ∧
    Restore (.slice [.str .plain "b"]) [("a", "b"), ("b", "c")] =
      some (.slice [.str .plain "c"]) ∧
    Value.slice [.str .plain "c"] ≠ Value.slice [.str .plain "b"] :=
  ⟨by rfl, by rfl, by simp⟩

/-! ## C10: absent and empty -/

mutual
theorem travel_isSome {σ : Type} (callback : OnValueFuncHandler σ) :
    ∀ (path : String) (fl : flag) (v : Value) (s : Secrets) (st : σ),
      (travel callback path fl v s st).isSome = travelOk fl v
  | path, fl, .nilPtr, s, st => by simp [travel, travelOk]
  | path, fl, .ptr v, s, st => by
      have ih := travel_isSome callback path flag.rw v s st
      simp only [travel, travelOk]
      cases hro : fl.ro with
      | true => simp
      | false =>
        rw [← ih]
        cases travel callback path flag.rw v s st <;> simp
  | path, fl, .nilIface, s, st => by simp [travel, travelOk]
  | path, fl, .iface v, s, st => by
      have ih := travel_isSome callback path flag.rw v s st
      simp only [travel, travelOk]
      cases hro : fl.ro with
      | true => simp
      | false =>
        rw [← ih]
        cases travel callback path flag.rw v s st <;> simp
  | path, fl, .struct fields, s, st => by
      have ih := travelFields_isSome callback path fl fields s st
      simp only [travel, travelOk]
      rw [← ih]
      cases travelFields callback path fl fields s st <;> simp
  | path, fl, .nilSlice, s, st => by simp [travel, travelOk]
  | path, fl, .slice elems, s, st => by
      have ih := travelElems_isSome callback path 0 elems s st
      simp only [travel, travelOk]
      cases hro : fl.ro with
      | true => simp
      | false =>
        rw [← ih]
        cases travelElems callback path 0 elems s st <;> simp
  | path, fl, .nilMap, s, st => by simp [travel, travelOk]
  | path, fl, .map entries, s, st => by
      have ih := travelEntries_isSome callback path entries s st
      simp only [travel, travelOk]
      cases hro : fl.ro with
      | true => simp
      | false =>
        rw [← ih]
        cases travelEntries callback path entries s st <;> simp
  | path, fl, .str typ x, s, st => by
      simp only [travel, travelOk]
      cases hro : fl.ro with
      | true => simp
      | false =>
        rcases hc : callback path (.str typ x) st with ⟨_ | t, st'⟩
        · simp
        · by_cases hx : x = t <;> simp [hx]
  | path, fl, .other n, s, st => by
      simp only [travel, travelOk]
      cases hro : fl.ro <;> simp
  | path, fl, .array elems, s, st => by
      simp only [travel, travelOk]
      cases hro : fl.ro <;> simp
theorem travelFields_isSome {σ : Type} (callback : OnValueFuncHandler σ) :
    ∀ (path : String) (fl : flag) (fields : List (StructField × Value)) (s : Secrets) (st : σ),
      (travelFields callback path fl fields s st).isSome = travelOkFields fl fields
  | path, fl, [], s, st => by simp [travelFields, travelOkFields]
  | path, fl, (f, v) :: rest, s, st => by
      have ih := travel_isSome callback (path ++ "/" ++ f.name) (fl.field f) v s st
      simp only [travelFields, travelOkFields]
      rw [← ih]
      cases ht : travel callback (path ++ "/" ++ f.name) (fl.field f) v s st with
      | none => simp
      | some r₁ =>
        have ih₂ := travelFields_isSome callback path fl rest r₁.2.1 r₁.2.2
        rw [← ih₂]
        cases hr : travelFields callback path fl rest r₁.2.1 r₁.2.2 <;> simp [hr]
theorem travelElems_isSome {σ : Type} (callback : OnValueFuncHandler σ) :
    ∀ (path : String) (i : Nat) (elems : List Value) (s : Secrets) (st : σ),
      (travelElems callback path i elems s st).isSome = travelOkElems elems
  | path, i, [], s, st => by simp [travelElems, travelOkElems]
  | path, i, v :: rest, s, st => by
      have ih := travel_isSome callback (path ++ "[" ++ toString i ++ "]") flag.rw v s st
      simp only [travelElems, travelOkElems]
      rw [← ih]
      cases ht : travel callback (path ++ "[" ++ toString i ++ "]") flag.rw v s st with
      | none => simp
      | some r₁ =>
        have ih₂ := travelElems_isSome callback path (i + 1) rest r₁.2.1 r₁.2.2
        rw [← ih₂]
        cases hr : travelElems callback path (i + 1) rest r₁.2.1 r₁.2.2 <;> simp [hr]
theorem travelEntries_isSome {σ : Type} (callback : OnValueFuncHandler σ) :
    ∀ (path : String) (entries : List (String × Value)) (s : Secrets) (st : σ),
      (travelEntries callback path entries s st).isSome = travelOkEntries entries
  | path, [], s, st => by simp [travelEntries, travelOkEntries]
  | path, (key, v) :: rest, s, st => by
      have ih := travel_isSome callback (path ++ "/" ++ key) flag.rw v s st
      simp only [travelEntries, travelOkEntries]
      rw [← ih]
      cases ht : travel callback (path ++ "/" ++ key) flag.rw v s st with
      | none => simp
      | some r₁ =>
        have ih₂ := travelEntries_isSome callback path rest r₁.2.1 r₁.2.2
        rw [← ih₂]
        cases hr : travelEntries callback path rest r₁.2.1 r₁.2.2 <;> simp [hr]
end

theorem fieldNamed_skeletonFields (name : String) :
    ∀ (fields : List (StructField × Value)),
      fieldNamed name (skeletonFields fields) = (fieldNamed name fields).map skeleton
  | [] => by simp [skeletonFields, fieldNamed]
  | (f, v) :: rest => by
      by_cases e : f.name = name <;>
        simp [skeletonFields, fieldNamed, e, fieldNamed_skeletonFields name rest]

theorem entryAt_skeletonEntries (k : String) :
    ∀ (entries : List (String × Value)),
      entryAt k (skeletonEntries entries) = (entryAt k entries).map skeleton
  | [] => by simp [skeletonEntries, entryAt]
  | (key, v) :: rest => by
      by_cases e : key = k <;>
        simp [skeletonEntries, entryAt, e, entryAt_skeletonEntries k rest]

theorem get?_skeletonElems :
    ∀ (elems : List Value) (i : Nat),
      (skeletonElems elems)[i]? = (elems[i]?).map skeleton
  | [], i => by simp [skeletonElems]
  | v :: rest, 0 => by simp [skeletonElems]
  | v :: rest, i + 1 => by
      simpa [skeletonElems] using get?_skeletonElems rest i

theorem child_skeleton (v : Value) (step : Step) :
    (skeleton v).child step = (v.child step).map skeleton := by
  cases v <;> cases step <;>
    simp [skeleton, Value.child, fieldNamed_skeletonFields, entryAt_skeletonEntries,
      get?_skeletonElems]

theorem sub_skeleton :
    ∀ (position : List Step) (v : Value),
      (skeleton v).sub position = (v.sub position).map skeleton
  | [], v => by simp [Value.sub]
  | step :: position, v => by
      simp only [Value.sub]
      rw [child_skeleton]
      cases v.child step with
      | none => simp
      | some w => simpa using sub_skeleton position w

theorem kind_skeleton (v : Value) : (skeleton v).kind = v.kind := by
  cases v <;> simp [skeleton, Value.kind]

theorem isAbsent_skeleton (v : Value) : (skeleton v).isAbsent = v.isAbsent := by
  cases v <;> simp [skeleton, Value.isAbsent]

theorem isEmptyInit_skeleton (v : Value) : (skeleton v).isEmptyInit = v.isEmptyInit := by
  cases v with
  | slice elems => cases elems <;> simp [skeleton, skeletonElems, Value.isEmptyInit]
  | map entries =>
    cases entries with
    | nil => simp [skeleton, skeletonEntries, Value.isEmptyInit]
    | cons e rest =>
      obtain ⟨key, v⟩ := e
      simp [skeleton, skeletonEntries, Value.isEmptyInit]
  | _ => simp [skeleton, Value.isEmptyInit]

theorem sub_map_of_skeleton_eq {α : Type} (f : Value → α) (hf : ∀ v, f (skeleton v) = f v)
    (a b : Value) (h : skeleton a = skeleton b) (position : List Step) :
    (a.sub position).map f = (b.sub position).map f := by
  have ha := sub_skeleton position a
  have hb := sub_skeleton position b
  rw [h, hb] at ha
  cases hx : a.sub position with
  | none =>
    cases hy : b.sub position with
    | none => rfl
    | some y => simp [hx, hy] at ha
  | some x =>
    cases hy : b.sub position with
    | none => simp [hx, hy] at ha
    | some y =>
      simp only [hx, hy, Option.map_some', Option.some.injEq] at ha ⊢
      rw [← hf x, ← hf y, ha]

theorem sameShape_of_skeleton_eq (V W : Value) (h : skeleton W = skeleton V) :
    SameShape V W := fun position =>
  ⟨sub_map_of_skeleton_eq Value.kind kind_skeleton W V h position,
    sub_map_of_skeleton_eq Value.isAbsent isAbsent_skeleton W V h position,
    sub_map_of_skeleton_eq Value.isEmptyInit isEmptyInit_skeleton W V h position⟩

/-- C10: absent versus empty.  For every value, callback (with any captured
state) and secrets map: `Scrub` and `Restore` return exactly when the
traversal can complete, and the output then has the shape of the input: at
every position an absent (nil) slice, map, pointer or interface of the input
is an absent value of the same kind in the output and the other way round,
and an initialized empty slice or map of the input is an initialized empty
slice or map in the output and the other way round. -/
theorem C10_absent_and_empty_preserved :
    (∀ (σ : Type) (V : Value) (cb : Option (OnValueFuncHandler σ)) (st : σ),
      (Scrub V cb st).isSome = travelOk flag.rw V ∧
      ∀ r, Scrub V cb st = some r → SameShape V r.1) ∧
    (∀ (V : Value) (S : Secrets),
      (Restore V S).isSome = travelOk flag.rw V ∧
      ∀ R, Restore V S = some R → SameShape V R) := by
  constructor
  · intro σ V cb st
    constructor
    · exact travel_isSome _ "" flag.rw V [] st
    · intro r h
      exact sameShape_of_skeleton_eq V r.1 (travel_skeleton _ "" flag.rw V [] st r h)
  · intro V S
    constructor
    · rw [Restore_eq_scrubbed]
      cases travelOk flag.rw V <;> simp
    · intro R h
      unfold Restore at h
      cases ht : travel (OnValueFuncHandler.ofFun (restoreDecision S)) "/" flag.rw V
          (copySecrets S) () with
      | none => simp [ht] at h
      | some r =>
        simp only [ht, Option.some.injEq] at h
        rw [← h]
        exact sameShape_of_skeleton_eq V r.1 (travel_skeleton _ "/" flag.rw V _ () r ht)

/-- C10 at the test case "Struct containing a list": the field
`UnInitializedList` is an absent slice and the field `InitializedListEmpty`
an initialized empty slice, in the input and in the output of `Scrub`. -/
theorem C10_absent_and_empty_preserved_witness :
    Scrub rawD (some (OnValueFuncHandler.ofFun (scrubbingFunction ["/List[0]", "/List[2]"]))) ()
      = some (scrubbedD, secretsD, ()) ∧
    (rawD.sub [.deref, .field "UnInitializedList"]).map Value.isAbsent = some true ∧
    (scrubbedD.sub [.deref, .field "UnInitializedList"]).map Value.isAbsent =
      (rawD.sub [.deref, .field "UnInitializedList"]).map Value.isAbsent ∧
    (rawD.sub [.deref, .field "InitializedListEmpty"]).map Value.isEmptyInit = some true ∧
    (scrubbedD.sub [.deref, .field "InitializedListEmpty"]).map Value.isEmptyInit =
      (rawD.sub [.deref, .field "InitializedListEmpty"]).map Value.isEmptyInit :=
  ⟨by rfl, by rfl,
    (((C10_absent_and_empty_preserved.1 Unit rawD
      (some (OnValueFuncHandler.ofFun (scrubbingFunction ["/List[0]", "/List[2]"]))) ()).2
        (scrubbedD, secretsD, ()) (by rfl)) [.deref, .field "UnInitializedList"]).2.1,
    by rfl,
    (((C10_absent_and_empty_preserved.1 Unit rawD
      (some (OnValueFuncHandler.ofFun (scrubbingFunction ["/List[0]", "/List[2]"]))) ()).2
        (scrubbedD, secretsD, ()) (by rfl)) [.deref, .field "InitializedListEmpty"]).2.2⟩

/-! ## C11: absent references -/

mutual
theorem travelOk_of_hasNilIface :
    ∀ (fl : flag) (v : Value), v.hasNilIface = true → travelOk fl v = false
  | fl, .nilIface, _ => by simp [travelOk]
  | fl, .iface v, h => by
      simp only [Value.hasNilIface] at h
      simp [travelOk, travelOk_of_hasNilIface flag.rw v h]
  | fl, .ptr v, h => by
      simp only [Value.hasNilIface] at h
      simp [travelOk, travelOk_of_hasNilIface flag.rw v h]
  | fl, .struct fields, h => by
      simp only [Value.hasNilIface] at h
      simp [travelOk, travelOkFields_of_hasNilIface fl fields h]
  | fl, .slice elems, h => by
      simp only [Value.hasNilIface] at h
      simp [travelOk, travelOkElems_of_hasNilIface elems h]
  | fl, .map entries, h => by
      simp only [Value.hasNilIface] at h
      simp [travelOk, travelOkEntries_of_hasNilIface entries h]
  | fl, .str _ _, h => by simp [Value.hasNilIface] at h
  | fl, .other _, h => by simp [Value.hasNilIface] at h
  | fl, .nilPtr, h => by simp [Value.hasNilIface] at h
  | fl, .nilSlice, h => by simp [Value.hasNilIface] at h
  | fl, .nilMap, h => by simp [Value.hasNilIface] at h
theorem travelOkFields_of_hasNilIface :
    ∀ (fl : flag) (fields : List (StructField × Value)),
      hasNilIfaceFields fields = true → travelOkFields fl fields = false
  | fl, [], h => by simp [hasNilIfaceFields] at h
  | fl, (f, v) :: rest, h => by
      simp only [hasNilIfaceFields, Bool.or_eq_true] at h
      rcases h with h | h
      · simp [travelOkFields, travelOk_of_hasNilIface (fl.field f) v h]
      · simp [travelOkFields, travelOkFields_of_hasNilIface fl rest h]
theorem travelOkElems_of_hasNilIface :
    ∀ (elems : List Value), hasNilIfaceElems elems = true → travelOkElems elems = false
  | [], h => by simp [hasNilIfaceElems] at h
  | v :: rest, h => by
      simp only [hasNilIfaceElems, Bool.or_eq_true] at h
      rcases h with h | h
      · simp [travelOkElems, travelOk_of_hasNilIface flag.rw v h]
      · simp [travelOkElems, travelOkElems_of_hasNilIface rest h]
theorem travelOkEntries_of_hasNilIface :
    ∀ (entries : List (String × Value)),
      hasNilIfaceEntries entries = true → travelOkEntries entries = false
  | [], h => by simp [hasNilIfaceEntries] at h
  | (key, v) :: rest, h => by
      simp only [hasNilIfaceEntries, Bool.or_eq_true] at h
      rcases h with h | h
      · simp [travelOkEntries, travelOk_of_hasNilIface flag.rw v h]
      · simp [travelOkEntries, travelOkEntries_of_hasNilIface rest h]
end

theorem Scrub_of_hasNilIface {σ : Type} (V : Value) (cb : Option (OnValueFuncHandler σ))
    (st : σ) (h : V.hasNilIface = true) : Scrub V cb st = none := by
  have h₁ : (Scrub V cb st).isSome = travelOk flag.rw V := travel_isSome _ "" flag.rw V [] st
  rw [travelOk_of_hasNilIface flag.rw V h] at h₁
  cases hs : Scrub V cb st with
  | none => rfl
  | some r => simp [hs] at h₁

theorem Restore_of_hasNilIface (V : Value) (S : Secrets) (h : V.hasNilIface = true) :
    Restore V S = none := by
  rw [Restore_eq_scrubbed, travelOk_of_hasNilIface flag.rw V h]
  simp

/-- C11 at failing inputs: an object of the tests' type `C` whose field
`Interface` holds no value, and an object of type `A` with a map entry that
holds no value.  `Scrub` and `Restore` panic on both (the interface branch of
`travel` asks the zero `reflect.Value` for its type), where the claim says they
complete.  A nil pointer is not an error: with a value in `Interface` and the
nil pointer `OtherStructPtr`, both calls return, the nil pointer stays nil and
the field `String` is processed. -/
theorem C11_nil_interface_panics :
    rawCNilInterface.hasNilIface = true ∧ rawANilEntry.hasNilIface = true ∧
    Scrub rawCNilInterface (none : Option (OnValueFuncHandler Unit)) () = none ∧
    Restore rawCNilInterface [] = none ∧
    Scrub rawANilEntry (none : Option (OnValueFuncHandler Unit)) () = none ∧
    Restore rawANilEntry [] = none ∧
    Scrub rawCNilPtr (none : Option (OnValueFuncHandler Unit)) () =
      some (.ptr (structC "$ref-/String" .nilMap (.iface (.str .plain "$ref-/Interface"))
        (structA "" 0 .nilMap) .nilPtr),
        [("$ref-/String", "C"), ("$ref-/Interface", "dontell")], ()) ∧
    Restore (.ptr (structC "$ref-/String" .nilMap (.iface (.str .plain "$ref-/Interface"))
        (structA "" 0 .nilMap) .nilPtr))
        [("$ref-/String", "C"), ("$ref-/Interface", "dontell")] = some rawCNilPtr :=
  ⟨by rfl, by rfl, by rfl, by rfl, by rfl, by rfl, by rfl, by rfl⟩

/-! ## Entries of the recorded secrets -/

theorem lookup_recorded_some (C : String → Value → Option String) (k v : String) :
    ∀ (leaves : List (String × Value)) (s : Secrets),
      Secrets.lookup (recorded C s leaves) k = some v →
        Secrets.lookup s k = some v ∨
          ∃ (i : Nat) (leaf : String × Value), leaves[i]? = some leaf ∧ C leaf.1 leaf.2 = some k ∧
            leaf.2.content = v ∧ k ≠ v
  | [], s, h => Or.inl h
  | leaf :: leaves, s, h => by
      rw [recorded_cons] at h
      rcases lookup_recorded_some C k v leaves _ h with h₁ | ⟨i, l, hi, hC, hv, hne⟩
      · rcases untouched_or_touched C leaf with hu | ⟨t, hC, ht⟩
        · rw [recordLeaf_of_untouched C s leaf hu] at h₁
          exact Or.inl h₁
        · rw [recordLeaf_of_touched C s leaf t hC ht, lookup_assign] at h₁
          by_cases e : t = k
          · subst e
            simp only [if_true, Option.some.injEq] at h₁
            refine Or.inr ⟨0, leaf, List.getElem?_cons_zero, hC, h₁, ?_⟩
            rw [← h₁]
            exact ht
          · simp only [e, if_false] at h₁
            exact Or.inl h₁
      · exact Or.inr ⟨i + 1, l, by rw [List.getElem?_cons_succ]; exact hi, hC, hv, hne⟩

theorem lookup_recorded_isSome_of_touched (C : String → Value → Option String) :
    ∀ (leaves : List (String × Value)) (s : Secrets) (leaf : String × Value) (t : String),
      leaf ∈ leaves → C leaf.1 leaf.2 = some t → t ≠ leaf.2.content →
        (Secrets.lookup (recorded C s leaves) t).isSome = true
  | [], s, leaf, t, hm, _, _ => by cases hm
  | l₀ :: leaves, s, leaf, t, hm, hC, ht => by
      rw [recorded_cons]
      rcases List.mem_cons.mp hm with e | hm'
      · subst e
        apply lookup_recorded_isSome
        rw [recordLeaf_of_touched C s leaf t hC ht, lookup_assign]
        simp
      · exact lookup_recorded_isSome_of_touched C leaves _ leaf t hm' hC ht

theorem assign_keys (m : Secrets) (key val : String) :
    ∀ k, k ∈ (Secrets.assign m key val).map Prod.fst ↔ k = key ∨ k ∈ m.map Prod.fst := by
  induction m with
  | nil => simp [Secrets.assign]
  | cons e m ih =>
    obtain ⟨k₀, v₀⟩ := e
    intro k
    by_cases h₀ : k₀ = key
    · subst h₀
      simp [Secrets.assign]
    · simp only [Secrets.assign, h₀, if_false, List.map_cons, List.mem_cons, ih k]
      tauto

theorem assign_nodupKeys (m : Secrets) (key val : String)
    (h : (m.map Prod.fst).Nodup) : ((Secrets.assign m key val).map Prod.fst).Nodup := by
  induction m with
  | nil => simp [Secrets.assign]
  | cons e m ih =>
    obtain ⟨k₀, v₀⟩ := e
    simp only [List.map_cons, List.nodup_cons] at h
    by_cases h₀ : k₀ = key
    · subst h₀
      simpa [Secrets.assign] using h
    · simp only [Secrets.assign, h₀, if_false, List.map_cons, List.nodup_cons]
      refine ⟨?_, ih h.2⟩
      intro hm
      rcases (assign_keys m key val k₀).mp hm with e | hm'
      · exact h₀ e
      · exact h.1 hm'

theorem recorded_nodupKeys (C : String → Value → Option String) :
    ∀ (leaves : List (String × Value)) (s : Secrets), (s.map Prod.fst).Nodup →
      ((recorded C s leaves).map Prod.fst).Nodup
  | [], s, h => h
  | leaf :: leaves, s, h => by
      rw [recorded_cons]
      apply recorded_nodupKeys C leaves
      rcases untouched_or_touched C leaf with hu | ⟨t, hC, ht⟩
      · rw [recordLeaf_of_untouched C s leaf hu]
        exact h
      · rw [recordLeaf_of_touched C s leaf t hC ht]
        exact assign_nodupKeys s t _ h

theorem lookup_eq_some_iff_mem (S : Secrets) (h : (S.map Prod.fst).Nodup) (k v : String) :
    Secrets.lookup S k = some v ↔ (k, v) ∈ S := by
  induction S with
  | nil => simp [Secrets.lookup]
  | cons e S ih =>
    obtain ⟨k₀, v₀⟩ := e
    simp only [List.map_cons, List.nodup_cons] at h
    by_cases h₀ : k₀ = k
    · subst h₀
      simp only [Secrets.lookup, if_true, Option.some.injEq, List.mem_cons, Prod.mk.injEq,
        true_and]
      constructor
      · intro e
        exact Or.inl e.symm
      · rintro (e | hm)
        · exact e.symm
        · exact absurd (List.mem_map.mpr ⟨(k₀, v), hm, rfl⟩) h.1
    · simp only [Secrets.lookup, h₀, if_false, List.mem_cons, Prod.mk.injEq, ih h.2]
      constructor
      · exact Or.inr
      · rintro (⟨e, _⟩ | hm)
        · exact absurd e.symm h₀
        · exact hm

/-! ## C12: colliding tokens -/

theorem visits_restored (S : Secrets) (path : String) (v : Value) :
    visits path (restored S v) = (visits path v).map (fun leaf => (leaf.1, restored S leaf.2)) := by
  have h := visits_scrubbed (restoreDecision S) path v
  rw [scrubbed_restoreDecision] at h
  rw [h]
  apply List.map_congr_left
  intro leaf _
  rw [scrubbed_restoreDecision]

/-- Collision of two leaves on the token `t`, the later of which is the last to
write `t`: the secrets hold exactly one entry for `t`, it maps to the original
of the later leaf, and restoring puts that original in every leaf of the
predeclared type `string` that was replaced by `t`. -/
theorem collision_last_write_wins (V : Value) (C : String → Value → Option String)
    (pre mid post : List (String × Value)) (l₁ l₂ : String × Value) (t : String)
    (hL : visits "" V = pre ++ l₁ :: (mid ++ l₂ :: post))
    (h₂ : C l₂.1 l₂.2 = some t) (ht₂ : t ≠ l₂.2.content)
    (hpost : t ∉ tokens C post)
    (V' : Value) (S : Secrets)
    (h : Scrub V (some (OnValueFuncHandler.ofFun C)) () = some (V', S, ())) :
    Secrets.lookup S t = some l₂.2.content ∧
    (S.map Prod.fst).count t = 1 ∧
    Restore V' S = some (restored S V') ∧
    visits "" (restored S V') =
      (visits "" V).map (fun leaf => (leaf.1, restored S (scrubbed C leaf.1 leaf.2))) ∧
    ∀ leaf : String × Value, C leaf.1 leaf.2 = some t → leaf.2.isPlain = true →
      restored S (scrubbed C leaf.1 leaf.2) = .str .plain l₂.2.content := by
  rw [Scrub_ofFun] at h
  cases hok : travelOk flag.rw V with
  | false => simp [hok] at h
  | true =>
    simp only [hok, if_true, Option.some.injEq, Prod.mk.injEq, and_true] at h
    obtain ⟨hV, hS⟩ := h
    have hlook : Secrets.lookup S t = some l₂.2.content := by
      rw [← hS, hL]
      have e : pre ++ l₁ :: (mid ++ l₂ :: post) = (pre ++ l₁ :: mid) ++ (l₂ :: post) := by simp
      rw [e, recorded_append, recorded_cons, lookup_recorded_frame C t post _ hpost,
        recordLeaf_of_touched C _ l₂ t h₂ ht₂, lookup_assign]
      simp
    have hnd : (S.map Prod.fst).Nodup := by
      rw [← hS]
      exact recorded_nodupKeys C _ [] (by simp)
    refine ⟨hlook, ?_, ?_, ?_, ?_⟩
    · apply List.count_eq_one_of_mem hnd
      exact List.mem_map.mpr ⟨(t, l₂.2.content), mem_of_lookup _ _ S hlook, rfl⟩
    · rw [Restore_eq_restored, ← hV, travelOk_scrubbed, hok]
      simp
    · rw [← hV, visits_restored, visits_scrubbed, List.map_map]
      rfl
    · intro leaf hC hp
      obtain ⟨p, w⟩ := leaf
      cases w with
      | str typ x =>
        cases typ with
        | plain => simp [scrubbed, hC, restored, hlook]
        | named n => simp [Value.isPlain] at hp
      | _ => simp [Value.isPlain] at hp

/-- C12 at a failing input: the tests' object of type `B` and a faulty
callback that maps the leaves `StringOther` (type `string`, original
`"hideMe"`) and `TypeString` (type `SomeType`, original `"SomeTypeName"`) to the
same token `"T"`.  The secrets hold one entry for `"T"`, with the original of
the later leaf, as claimed; restoring puts it in the leaf `StringOther`, but the
leaf `TypeString` keeps the token `"T"`. -/
theorem C12_collision_named_leaf_keeps_token :
    Scrub rawB (some (OnValueFuncHandler.ofFun collidingFunction)) () =
      some (collidedB, [("T", "SomeTypeName")], ()) ∧
    Restore collidedB [("T", "SomeTypeName")] =
      some (.ptr (structB
        (structA "Expose Me" 1 (.map [("name", .iface (.str .plain "B/A"))]))
        "SomeTypeName" "T")) ∧
    "T" ≠ "SomeTypeName" :=
  ⟨by rfl, by rfl, by decide⟩

/-! ## C13: the keys of the secrets -/

theorem mem_keys_iff_lookup_isSome (m : Secrets) (k : String) :
    k ∈ m.map Prod.fst ↔ (Secrets.lookup m k).isSome = true := by
  induction m with
  | nil => simp [Secrets.lookup]
  | cons e m ih =>
    obtain ⟨k₀, v₀⟩ := e
    by_cases h₀ : k₀ = k
    · simp [Secrets.lookup, h₀]
    · have h₁ : ¬ k = k₀ := fun e => h₀ e.symm
      simp only [List.map_cons, List.mem_cons, h₁, false_or, ih, Secrets.lookup, h₀, if_false]

theorem mem_keys_recorded_iff (C : String → Value → Option String)
    (leaves : List (String × Value)) (k : String) :
    k ∈ (recorded C [] leaves).map Prod.fst ↔
      ∃ leaf ∈ leaves, C leaf.1 leaf.2 = some k ∧ k ≠ leaf.2.content := by
  rw [mem_keys_iff_lookup_isSome]
  constructor
  · intro h
    obtain ⟨v, hv⟩ := Option.isSome_iff_exists.mp h
    rcases lookup_recorded_some C k v leaves [] hv with h₀ | ⟨i, leaf, hi, hC, hc, hne⟩
    · simp [Secrets.lookup] at h₀
    · refine ⟨leaf, List.getElem?_mem hi, hC, ?_⟩
      rw [hc]
      exact hne
  · rintro ⟨leaf, hm, hC, hne⟩
    exact lookup_recorded_isSome_of_touched C leaves [] leaf k hm hC hne

/-- C13 (amended): the secrets returned by `Scrub` are built from the empty
map by the writes of the traversal, and their key set is the set of strings
the callback returned for a leaf whose content differs from that string; a leaf
for which the callback declined, or returned the content the leaf already has,
contributes no entry.  No key occurs twice. -/
theorem C13_keys_are_the_replacing_tokens (V : Value) (C : String → Value → Option String)
    (V' : Value) (S : Secrets)
    (h : Scrub V (some (OnValueFuncHandler.ofFun C)) () = some (V', S, ())) :
    S = recorded C [] (visits "" V) ∧
    (S.map Prod.fst).Nodup ∧
    ∀ k, k ∈ S.map Prod.fst ↔
      ∃ leaf ∈ visits "" V, C leaf.1 leaf.2 = some k ∧ k ≠ leaf.2.content := by
  rw [Scrub_ofFun] at h
  cases hok : travelOk flag.rw V with
  | false => simp [hok] at h
  | true =>
    simp only [hok, if_true, Option.some.injEq, Prod.mk.injEq, and_true] at h
    obtain ⟨_, hS⟩ := h
    subst hS
    exact ⟨rfl, recorded_nodupKeys C _ [] (by simp), mem_keys_recorded_iff C _⟩

/-- C13 (amended) at the test case "Struct containing a list". -/
theorem C13_keys_are_the_replacing_tokens_witness :
    Scrub rawD (some (OnValueFuncHandler.ofFun (scrubbingFunction ["/List[0]", "/List[2]"]))) ()
      = some (scrubbedD, secretsD, ()) ∧
    (secretsD = recorded (scrubbingFunction ["/List[0]", "/List[2]"]) [] (visits "" rawD) ∧
      (secretsD.map Prod.fst).Nodup ∧
      ∀ k, k ∈ secretsD.map Prod.fst ↔
        ∃ leaf ∈ visits "" rawD,
          scrubbingFunction ["/List[0]", "/List[2]"] leaf.1 leaf.2 = some k ∧
            k ≠ leaf.2.content) :=
  ⟨by rfl,
    C13_keys_are_the_replacing_tokens rawD (scrubbingFunction ["/List[0]", "/List[2]"])
      scrubbedD secretsD (by rfl)⟩

/-- C13 as stated fails: scrubbing the already scrubbed object of the test case
"Struct containing a list" again, the callback returns the strings
`scrubbed/List[0]` and `scrubbed/List[2]`, but the returned secrets are empty,
because each string is the content the leaf already has. -/
theorem C13_counterexample :
    Scrub scrubbedD
        (some (OnValueFuncHandler.ofFun (scrubbingFunction ["/List[0]", "/List[2]"]))) ()
      = some (scrubbedD, [], ()) ∧
    tokens (scrubbingFunction ["/List[0]", "/List[2]"]) (visits "" scrubbedD) =
      ["scrubbed/List[0]", "scrubbed/List[2]"] :=
  ⟨by rfl, by rfl⟩

/-! ## C17: entries of the secrets -/

/-- C17: invariant of the secrets built by `Scrub`.  For every value `V` and
deterministic callback, every entry `(k, v)` of the returned secrets has
`k ≠ v`, and there is a string leaf position (the `i`-th visited leaf, at path
`p`) at which the input holds `v` and the scrubbed output holds `k`; hence
every key is the content of a string leaf of the output and every stored
original is the content of a string leaf of the input. -/
theorem C17_entries_come_from_leaves (V : Value) (C : String → Value → Option String)
    (V' : Value) (S : Secrets)
    (h : Scrub V (some (OnValueFuncHandler.ofFun C)) () = some (V', S, ())) :
    ∀ k v, (k, v) ∈ S →
      k ≠ v ∧
      (∃ (i : Nat) (p : String) (typ : StringType),
        (visits "" V)[i]? = some (p, .str typ v) ∧
        (visits "" V')[i]? = some (p, .str typ k)) ∧
      (∃ leaf ∈ visits "" V', leaf.2.content = k) ∧
      (∃ leaf ∈ visits "" V, leaf.2.content = v) := by
  rw [Scrub_ofFun] at h
  cases hok : travelOk flag.rw V with
  | false => simp [hok] at h
  | true =>
    simp only [hok, if_true, Option.some.injEq, Prod.mk.injEq, and_true] at h
    obtain ⟨hV, hS⟩ := h
    intro k v hm
    have hnd : (S.map Prod.fst).Nodup := by
      rw [← hS]
      exact recorded_nodupKeys C _ [] (by simp)
    have hl : Secrets.lookup (recorded C [] (visits "" V)) k = some v := by
      rw [hS]
      exact (lookup_eq_some_iff_mem S hnd k v).mpr hm
    rcases lookup_recorded_some C k v _ [] hl with h₀ | ⟨i, leaf, hi, hC, hc, hne⟩
    · simp [Secrets.lookup] at h₀
    · obtain ⟨typ, x, hx⟩ := visits_isStr "" V leaf (List.getElem?_mem hi)
      obtain ⟨p, w⟩ := leaf
      simp only at hx hC hc
      subst hx
      simp only [Value.content] at hc
      subst hc
      have hi' : (visits "" V')[i]? = some (p, .str typ k) := by
        rw [← hV, visits_scrubbed, List.getElem?_map, hi]
        simp [scrubbed, hC]
      exact ⟨hne, ⟨i, p, typ, hi, hi'⟩,
        ⟨(p, .str typ k), List.getElem?_mem hi', rfl⟩,
        ⟨(p, .str typ x), List.getElem?_mem hi, rfl⟩⟩

/-- C17 at the test case "Struct containing a list" and the entry for the
first element of `List`. -/
theorem C17_entries_come_from_leaves_witness :
    Scrub rawD (some (OnValueFuncHandler.ofFun (scrubbingFunction ["/List[0]", "/List[2]"]))) ()
      = some (scrubbedD, secretsD, ()) ∧
    ("scrubbed/List[0]", "a") ∈ secretsD ∧
    ("scrubbed/List[0]" ≠ "a" ∧
      (∃ (i : Nat) (p : String) (typ : StringType),
        (visits "" rawD)[i]? = some (p, .str typ "a") ∧
        (visits "" scrubbedD)[i]? = some (p, .str typ "scrubbed/List[0]")) ∧
      (∃ leaf ∈ visits "" scrubbedD, leaf.2.content = "scrubbed/List[0]") ∧
      (∃ leaf ∈ visits "" rawD, leaf.2.content = "a")) :=
  ⟨by rfl, by decide,
    C17_entries_come_from_leaves rawD (scrubbingFunction ["/List[0]", "/List[2]"])
      scrubbedD secretsD (by rfl) "scrubbed/List[0]" "a" (by decide)⟩

/-! ## C16: scrubbing again with a token-stable callback -/

theorem ref_append_ne_empty (p : String) : "$ref-" ++ p ≠ "" := by
  intro h
  have h₁ := congrArg String.length h
  simp [String.length_append] at h₁
  have h₂ : "$ref-".length = 5 := by decide
  omega

theorem untouched_scrubbed_of_tokenStable (C : String → Value → Option String)
    (hC : TokenStable C) (p : String) (typ : StringType) (x : String) :
    Untouched C (p, scrubbed C p (.str typ x)) := by
  cases h : C p (.str typ x) with
  | none => simp [Untouched, scrubbed, h]
  | some t =>
    have := hC p typ x t h
    simpa [Untouched, scrubbed, h, Value.content] using this

theorem rescrub_of_tokenStable (V : Value) (C : String → Value → Option String)
    (hC : TokenStable C) :
    travelOk flag.rw V = true →
      scrubbed C "" (scrubbed C "" V) = scrubbed C "" V ∧
      recorded C [] (visits "" (scrubbed C "" V)) = [] := by
  intro _
  have hall : ∀ leaf ∈ visits "" (scrubbed C "" V), Untouched C leaf := by
    intro leaf hm
    rw [visits_scrubbed] at hm
    obtain ⟨l, hl, rfl⟩ := List.mem_map.mp hm
    obtain ⟨typ, x, hx⟩ := visits_isStr "" V l hl
    rw [hx]
    exact untouched_scrubbed_of_tokenStable C hC l.1 typ x
  exact ⟨(scrubbed_eq_self_iff C "" _).mpr hall, (recorded_eq_nil_iff C _).mpr hall⟩

theorem tokenStable_defaultDecision : TokenStable defaultDecision := by
  intro p typ x t h
  cases typ with
  | named n => simp [defaultDecision] at h
  | plain =>
    by_cases hx : x = ""
    · simp [defaultDecision, hx] at h
    · simp only [defaultDecision, ne_eq, hx, not_false_eq_true, if_true,
        Option.some.injEq] at h
      subst h
      right
      simp [defaultDecision, ref_append_ne_empty]

/-- C16: scrubbing again is stable for token-stable callbacks.  For every
value `V` and every deterministic callback `C` such that whenever `C p v`
returns a token `t`, `C p t` declines or returns `t` again: if `Scrub V C`
returns `(V', S)` then `Scrub V' C` returns `V'` and the empty secrets map.
Every callback whose answer depends only on the path is token-stable, among
them the tests' `scrubbingFunction`, and so is the default policy, for which
the same holds when `Scrub` is called without a callback. -/
theorem C16_rescrub_stable_for_token_stable :
    (∀ (V : Value) (C : String → Value → Option String) (V' : Value) (S : Secrets),
      TokenStable C →
      Scrub V (some (OnValueFuncHandler.ofFun C)) () = some (V', S, ()) →
      Scrub V' (some (OnValueFuncHandler.ofFun C)) () = some (V', [], ())) ∧
    (∀ f : String → Option String, TokenStable (fun fieldPath _ => f fieldPath)) ∧
    (∀ allowedFieldPaths : List String, TokenStable (scrubbingFunction allowedFieldPaths)) ∧
    TokenStable defaultDecision ∧
    (∀ (σ : Type) (V : Value) (st : σ) (r : Value × Secrets × σ),
      Scrub V (none : Option (OnValueFuncHandler σ)) st = some r →
      Scrub r.1 (none : Option (OnValueFuncHandler σ)) r.2.2 = some (r.1, [], r.2.2)) := by
  refine ⟨?_, ?_, ?_, tokenStable_defaultDecision, ?_⟩
  · intro V C V' S hC h
    rw [Scrub_ofFun] at h
    cases hok : travelOk flag.rw V with
    | false => simp [hok] at h
    | true =>
      simp only [hok, if_true, Option.some.injEq, Prod.mk.injEq, and_true] at h
      obtain ⟨hV, _⟩ := h
      obtain ⟨h₁, h₂⟩ := rescrub_of_tokenStable V C hC hok
      rw [Scrub_ofFun, ← hV, travelOk_scrubbed, hok, h₁, h₂]
      simp
  · intro f p typ x t h
    cases hf : f p with
    | none => exact Or.inl hf
    | some u =>
      simp only [hf, Option.some.injEq] at h
      subst h
      exact Or.inr hf
  · intro paths p typ x t h
    unfold scrubbingFunction at h ⊢
    cases hs : stringInSlice p paths with
    | false => exact Or.inl (by simp)
    | true =>
      simp only [hs, if_true, Option.some.injEq] at h
      subst h
      exact Or.inr (by simp)
  · intro σ V st r h
    rw [Scrub_default] at h
    cases hok : travelOk flag.rw V with
    | false => simp [hok] at h
    | true =>
      simp only [hok, if_true, Option.some.injEq] at h
      obtain ⟨h₁, h₂⟩ := rescrub_of_tokenStable V defaultDecision tokenStable_defaultDecision hok
      rw [← h, Scrub_default, travelOk_scrubbed, hok, h₁, h₂]
      simp

/-- C16 at the test case "Struct containing a list" and the tests'
`scrubbingFunction`. -/
theorem C16_rescrub_stable_for_token_stable_witness :
    TokenStable (scrubbingFunction ["/List[0]", "/List[2]"]) ∧
    Scrub rawD (some (OnValueFuncHandler.ofFun (scrubbingFunction ["/List[0]", "/List[2]"]))) ()
      = some (scrubbedD, secretsD, ()) ∧
    Scrub scrubbedD
        (some (OnValueFuncHandler.ofFun (scrubbingFunction ["/List[0]", "/List[2]"]))) ()
      = some (scrubbedD, [], ()) :=
  ⟨C16_rescrub_stable_for_token_stable.2.2.1 ["/List[0]", "/List[2]"], by rfl,
    C16_rescrub_stable_for_token_stable.1 rawD (scrubbingFunction ["/List[0]", "/List[2]"])
      scrubbedD secretsD (C16_rescrub_stable_for_token_stable.2.2.1 ["/List[0]", "/List[2]"])
      (by rfl)⟩

/-! ## C18: round trip of the default policy -/

theorem append_left_cancel_string (a b c : String) (h : a ++ b = a ++ c) : b = c := by
  have h₁ := congrArg String.data h
  simp only [String.data_append, List.append_cancel_left_eq] at h₁
  exact String.ext h₁

theorem defaultDecision_eq_some (p : String) (w : Value) (t : String)
    (h : defaultDecision p w = some t) :
    t = "$ref-" ++ p ∧ ∃ x, w = .str .plain x ∧ x ≠ "" := by
  cases w with
  | str typ x =>
    cases typ with
    | named n => simp [defaultDecision] at h
    | plain =>
      by_cases hx : x = ""
      · simp [defaultDecision, hx] at h
      · simp only [defaultDecision, ne_eq, hx, not_false_eq_true, if_true,
          Option.some.injEq] at h
        exact ⟨h.symm, x, rfl, hx⟩
  | _ => simp [defaultDecision] at h

theorem default_writer_unique (leaves : List (String × Value))
    (hP : (leaves.map Prod.fst).Nodup) (leaf : String × Value) (hm : leaf ∈ leaves)
    (k v : String) (hk : k = "$ref-" ++ leaf.1)
    (hl : Secrets.lookup (recorded defaultDecision [] leaves) k = some v) :
    leaf.2.content = v ∧ k ≠ v := by
  rcases lookup_recorded_some defaultDecision k v leaves [] hl with
    h₀ | ⟨i, l, hi, hC, hc, hne⟩
  · simp [Secrets.lookup] at h₀
  · have hp : l.1 = leaf.1 := by
      have := (defaultDecision_eq_some l.1 l.2 k hC).1
      rw [hk] at this
      exact (append_left_cancel_string _ _ _ this).symm
    have e : l = leaf := List.inj_on_of_nodup_map hP (List.getElem?_mem hi) hm hp
    rw [← e]
    exact ⟨hc, hne⟩

theorem default_restored_leaf (leaves : List (String × Value))
    (hP : (leaves.map Prod.fst).Nodup) (leaf : String × Value) (hm : leaf ∈ leaves)
    (typ : StringType) (x : String) (hx : leaf.2 = .str typ x) :
    restored (recorded defaultDecision [] leaves) (scrubbed defaultDecision leaf.1 leaf.2)
      = leaf.2 := by
  obtain ⟨p, w⟩ := leaf
  simp only at hx
  subst hx
  cases typ with
  | named n => simp [scrubbed, defaultDecision, restored]
  | plain =>
    by_cases hx : x = ""
    · subst hx
      have hnone : Secrets.lookup (recorded defaultDecision [] leaves) "" = none := by
        cases hl : Secrets.lookup (recorded defaultDecision [] leaves) "" with
        | none => rfl
        | some v =>
          rcases lookup_recorded_some defaultDecision "" v leaves [] hl with
            h₀ | ⟨i, l, hi, hC, hc, hne⟩
          · simp [Secrets.lookup] at h₀
          · have := (defaultDecision_eq_some l.1 l.2 "" hC).1
            exact absurd this.symm (ref_append_ne_empty l.1)
      simp [scrubbed, defaultDecision, restored, hnone]
    · have hD : defaultDecision p (.str .plain x) = some ("$ref-" ++ p) := by
        simp [defaultDecision, hx]
      simp only [scrubbed, hD]
      by_cases ht : "$ref-" ++ p = x
      · -- the leaf already holds its own token: nothing is recorded for it
        have hnone : Secrets.lookup (recorded defaultDecision [] leaves) ("$ref-" ++ p)
            = none := by
          cases hl : Secrets.lookup (recorded defaultDecision [] leaves) ("$ref-" ++ p) with
          | none => rfl
          | some v =>
            have := default_writer_unique leaves hP (p, .str .plain x) hm _ v rfl hl
            simp only [Value.content] at this
            exact absurd (ht.trans this.1) this.2
        simp only [restored, hnone]
        rw [ht]
      · have hsome := lookup_recorded_isSome_of_touched defaultDecision leaves []
          (p, .str .plain x) ("$ref-" ++ p) hm hD (by simpa [Value.content] using ht)
        obtain ⟨v, hv⟩ := Option.isSome_iff_exists.mp hsome
        have := default_writer_unique leaves hP (p, .str .plain x) hm _ v rfl hv
        simp only [Value.content] at this
        simp [restored, hv, this.1]

/-- C18: round trip of the default policy.  For every value `V` whose string
leaves have pairwise distinct rendered paths: if `Scrub` without a callback
returns `(V', S)` then `Restore V' S` returns `V`, whatever the strings in `V`
are (also strings that start with `"$ref-"`). -/
theorem C18_default_round_trip (σ : Type) (V : Value) (st : σ) (r : Value × Secrets × σ)
    (hP : DistinctPaths V)
    (h : Scrub V (none : Option (OnValueFuncHandler σ)) st = some r) :
    Restore r.1 r.2.1 = some V := by
  rw [Scrub_default] at h
  cases hok : travelOk flag.rw V with
  | false => simp [hok] at h
  | true =>
    simp only [hok, if_true, Option.some.injEq] at h
    rw [← h]
    simp only
    rw [Restore_eq_restored, travelOk_scrubbed, hok]
    simp only [if_true, Option.some.injEq]
    apply restored_scrubbed_of_leaves
    intro leaf hm
    obtain ⟨typ, x, hx⟩ := visits_isStr "" V leaf hm
    exact default_restored_leaf (visits "" V) hP leaf hm typ x hx

/-- C18 at a slice whose elements already look like tokens: `"$ref-[1]"` at
index 0, `"x"` at index 1 and `"$ref-[2]"` (its own token) at index 2. -/
theorem C18_default_round_trip_witness :
    DistinctPaths tokenLikeSlice ∧
    Scrub tokenLikeSlice (none : Option (OnValueFuncHandler Unit)) () =
      some (.slice [.str .plain "$ref-[0]", .str .plain "$ref-[1]", .str .plain "$ref-[2]"],
        [("$ref-[0]", "$ref-[1]"), ("$ref-[1]", "x")], ()) ∧
    Restore (.slice [.str .plain "$ref-[0]", .str .plain "$ref-[1]", .str .plain "$ref-[2]"])
        [("$ref-[0]", "$ref-[1]"), ("$ref-[1]", "x")] = some tokenLikeSlice :=
  ⟨by decide, by rfl,
    C18_default_round_trip Unit tokenLikeSlice ()
      (.slice [.str .plain "$ref-[0]", .str .plain "$ref-[1]", .str .plain "$ref-[2]"],
        [("$ref-[0]", "$ref-[1]"), ("$ref-[1]", "x")], ()) (by decide) (by rfl)⟩

/-! ## C19: leaves of a named string type -/

/-- C19: leaves of a named string type are scrubbed but never restored.  A
leaf of kind string whose type is a named string type is passed to the
callback, and `Scrub` replaces it by the token the callback returns and
records the token when it differs from the content; this holds for the leaf
alone and at every leaf position of every value.  The default policy declines
such a leaf, so `Scrub` without a callback leaves it as it is, and the callback
of `Restore` declines it whatever the secrets are, so `Restore` leaves it as it
is even when its content is a key of the secrets. -/
theorem C19_named_string_scrubbed_not_restored :
    (∀ (C : String → Value → Option String) (p n x t : String) (s : Secrets),
      C p (.str (.named n) x) = some t → t ≠ x →
      travel (OnValueFuncHandler.logged C) p flag.rw (.str (.named n) x) s [] =
        some (.str (.named n) t, Secrets.assign s t x, [(p, .str (.named n) x)])) ∧
    (∀ (V : Value) (C : String → Value → Option String) (V' : Value) (S : Secrets),
      Scrub V (some (OnValueFuncHandler.ofFun C)) () = some (V', S, ()) →
      ∀ (i : Nat) (p n x t : String),
        (visits "" V)[i]? = some (p, .str (.named n) x) →
        C p (.str (.named n) x) = some t →
          (visits "" V')[i]? = some (p, .str (.named n) t) ∧
          (t ≠ x → t ∈ S.map Prod.fst)) ∧
    (∀ (p n x : String), defaultDecision p (.str (.named n) x) = none) ∧
    (∀ (σ : Type) (V : Value) (st : σ) (r : Value × Secrets × σ),
      Scrub V (none : Option (OnValueFuncHandler σ)) st = some r →
      ∀ (i : Nat) (p n x : String),
        (visits "" V)[i]? = some (p, .str (.named n) x) →
          (visits "" r.1)[i]? = some (p, .str (.named n) x)) ∧
    (∀ (S : Secrets) (p n x : String), restoreDecision S p (.str (.named n) x) = none) ∧
    (∀ (V : Value) (S : Secrets) (R : Value),
      Restore V S = some R →
      ∀ (i : Nat) (p n x : String),
        (visits "" V)[i]? = some (p, .str (.named n) x) →
          (visits "" R)[i]? = some (p, .str (.named n) x)) := by
  refine ⟨?_, ?_, fun p n x => rfl, ?_, fun S p n x => rfl, ?_⟩
  · intro C p n x t s hC ht
    rw [travel_logged]
    have hx : ¬ x = t := fun e => ht e.symm
    simp [travelOk, flag.ro, flag.rw, scrubbed, hC, visits, recorded, recordLeaf,
      Value.content, hx]
  · intro V C V' S h i p n x t hi hC
    rw [Scrub_ofFun] at h
    cases hok : travelOk flag.rw V with
    | false => simp [hok] at h
    | true =>
      simp only [hok, if_true, Option.some.injEq, Prod.mk.injEq, and_true] at h
      obtain ⟨hV, hS⟩ := h
      constructor
      · rw [← hV, visits_scrubbed, List.getElem?_map, hi]
        simp [scrubbed, hC]
      · intro ht
        rw [← hS, mem_keys_recorded_iff]
        exact ⟨(p, .str (.named n) x), List.getElem?_mem hi, hC, ht⟩
  · intro σ V st r h i p n x hi
    rw [Scrub_default] at h
    cases hok : travelOk flag.rw V with
    | false => simp [hok] at h
    | true =>
      simp only [hok, if_true, Option.some.injEq] at h
      rw [← h]
      simp only
      rw [visits_scrubbed, List.getElem?_map, hi]
      simp [scrubbed, defaultDecision]
  · intro V S R h i p n x hi
    rw [Restore_eq_restored] at h
    cases hok : travelOk flag.rw V with
    | false => simp [hok] at h
    | true =>
      simp only [hok, if_true, Option.some.injEq] at h
      rw [← h, visits_restored, List.getElem?_map, hi]
      simp [restored]

/-- C19 at the tests' object of type `B`, whose field `TypeString` has the type
`SomeType`: scrubbed by the path-based callback for `/TypeString`, the leaf
becomes the token and the token is a key of the secrets. -/
theorem C19_named_string_scrubbed_not_restored_witness :
    Scrub rawB (some (OnValueFuncHandler.ofFun (scrubbingFunction ["/TypeString"]))) () =
      some (scrubbedTypeStringB, [("scrubbed/TypeString", "SomeTypeName")], ()) ∧
    (visits "" rawB)[3]? = some ("/TypeString", .str (.named "SomeType") "SomeTypeName") ∧
    scrubbingFunction ["/TypeString"] "/TypeString" (.str (.named "SomeType") "SomeTypeName") =
      some "scrubbed/TypeString" ∧
    ((visits "" scrubbedTypeStringB)[3]? =
        some ("/TypeString", .str (.named "SomeType") "scrubbed/TypeString") ∧
      ("scrubbed/TypeString" ≠ "SomeTypeName" →
        "scrubbed/TypeString" ∈
          ([("scrubbed/TypeString", "SomeTypeName")] : Secrets).map Prod.fst)) :=
  ⟨by rfl, by rfl, by rfl,
    C19_named_string_scrubbed_not_restored.2.1 rawB (scrubbingFunction ["/TypeString"])
      scrubbedTypeStringB [("scrubbed/TypeString", "SomeTypeName")] (by rfl) 3
      "/TypeString" "SomeType" "SomeTypeName" "scrubbed/TypeString" (by rfl) (by rfl)⟩

/-! ## C14: the caller's secrets -/

theorem read_set_self (heap : MapHeap) (a : Nat) (W : Secrets) (h : a < heap.length) :
    MapHeap.read (heap.set a W) (some a) = W := by
  simp [MapHeap.read, List.getD_eq_getElem?_getD, h]

theorem read_set_ne (heap : MapHeap) (a : Nat) (W : Secrets) (m : MapRef) (h : m ≠ some a) :
    MapHeap.read (heap.set a W) m = heap.read m := by
  cases m with
  | none => rfl
  | some b =>
    have hne : a ≠ b := fun e => h (by rw [e])
    simp [MapHeap.read, List.getD_eq_getElem?_getD, List.getElem?_set_ne hne]

theorem set_read_self (heap : MapHeap) (a : Nat) (h : a < heap.length) :
    heap.set a (heap.read (some a)) = heap := by
  apply List.ext_getElem?
  intro i
  by_cases e : a = i
  · subst e
    simp [MapHeap.read, List.getD_eq_getElem?_getD, h]
  · simp [List.getElem?_set_ne e]

theorem assign_some (heap : MapHeap) (a : Nat) (key val : String) (h : a < heap.length) :
    heap.assign (some a) key val =
      some (heap.set a (Secrets.assign (heap.read (some a)) key val)) := by
  simp [MapHeap.assign, h]

mutual
theorem travelAt_eq_travel {σ : Type} (cb : OnValueFuncHandlerAt σ) (dst : Nat)
    (hind : ∀ p w (h : MapHeap) W st, cb p w (h.set dst W) st = cb p w h st) :
    ∀ (path : String) (fl : flag) (v : Value) (heap : MapHeap) (st : σ),
      dst < heap.length →
      travelAt cb path fl (some dst) v heap st =
        (travel (fun p w s => cb p w heap s) path fl v (heap.read (some dst)) st).map
          (fun r => (r.1, heap.set dst r.2.1, r.2.2))
  | path, fl, .nilPtr, heap, st, hlt => by simp [travelAt, travel, set_read_self heap dst hlt]
  | path, fl, .ptr v, heap, st, hlt => by
      simp only [travelAt, travel]
      rw [travelAt_eq_travel cb dst hind path flag.rw v heap st hlt]
      cases fl.ro <;>
        cases travel (fun p w s => cb p w heap s) path flag.rw v (heap.read (some dst)) st <;>
        simp
  | path, fl, .nilIface, heap, st, hlt => by simp [travelAt, travel]
  | path, fl, .iface v, heap, st, hlt => by
      simp only [travelAt, travel]
      rw [travelAt_eq_travel cb dst hind path flag.rw v heap st hlt]
      cases fl.ro <;>
        cases travel (fun p w s => cb p w heap s) path flag.rw v (heap.read (some dst)) st <;>
        simp
  | path, fl, .struct fields, heap, st, hlt => by
      simp only [travelAt, travel]
      rw [travelFieldsAt_eq_travelFields cb dst hind path fl fields heap st hlt]
      cases travelFields (fun p w s => cb p w heap s) path fl fields (heap.read (some dst)) st <;>
        simp
  | path, fl, .nilSlice, heap, st, hlt => by
      simp [travelAt, travel, set_read_self heap dst hlt]
  | path, fl, .slice elems, heap, st, hlt => by
      simp only [travelAt, travel]
      rw [travelElemsAt_eq_travelElems cb dst hind path 0 elems heap st hlt]
      cases fl.ro <;>
        cases travelElems (fun p w s => cb p w heap s) path 0 elems (heap.read (some dst)) st <;>
        simp
  | path, fl, .nilMap, heap, st, hlt => by simp [travelAt, travel, set_read_self heap dst hlt]
  | path, fl, .map entries, heap, st, hlt => by
      simp only [travelAt, travel]
      rw [travelEntriesAt_eq_travelEntries cb dst hind path entries heap st hlt]
      cases fl.ro <;>
        cases travelEntries (fun p w s => cb p w heap s) path entries (heap.read (some dst)) st <;>
        simp
  | path, fl, .str typ x, heap, st, hlt => by
      simp only [travelAt, travel]
      cases fl.ro
      · rcases hc : cb path (.str typ x) heap st with ⟨_ | t, st'⟩
        · simp [set_read_self heap dst hlt]
        · by_cases hx : x = t
          · simp [hx, set_read_self heap dst hlt]
          · simp [hx, assign_some heap dst t x hlt]
      · simp
  | path, fl, .other n, heap, st, hlt => by
      simp only [travelAt, travel]
      cases fl.ro <;> simp [set_read_self heap dst hlt]
  | path, fl, .array elems, heap, st, hlt => by
      simp only [travelAt, travel]
      cases fl.ro <;> simp [set_read_self heap dst hlt]
termination_by structural _ _ v => v
theorem travelFieldsAt_eq_travelFields {σ : Type} (cb : OnValueFuncHandlerAt σ) (dst : Nat)
    (hind : ∀ p w (h : MapHeap) W st, cb p w (h.set dst W) st = cb p w h st) :
    ∀ (path : String) (fl : flag) (fields : List (StructField × Value)) (heap : MapHeap)
      (st : σ), dst < heap.length →
      travelFieldsAt cb path fl (some dst) fields heap st =
        (travelFields (fun p w s => cb p w heap s) path fl fields (heap.read (some dst)) st).map
          (fun r => (r.1, heap.set dst r.2.1, r.2.2))
  | path, fl, [], heap, st, hlt => by
      simp [travelFieldsAt, travelFields, set_read_self heap dst hlt]
  | path, fl, (f, v) :: rest, heap, st, hlt => by
      simp only [travelFieldsAt, travelFields]
      rw [travelAt_eq_travel cb dst hind (path ++ "/" ++ f.name) (fl.field f) v heap st hlt]
      cases ht : travel (fun p w s => cb p w heap s) (path ++ "/" ++ f.name) (fl.field f) v
          (heap.read (some dst)) st with
      | none => simp
      | some r₁ =>
        simp only [Option.map_some']
        have hlt₁ : dst < (heap.set dst r₁.2.1).length := by simpa using hlt
        have hcb : (fun p w s => cb p w (heap.set dst r₁.2.1) s) = (fun p w s => cb p w heap s) := by
          funext p w s
          exact hind p w heap r₁.2.1 s
        rw [travelFieldsAt_eq_travelFields cb dst hind path fl rest _ r₁.2.2 hlt₁, hcb,
          read_set_self heap dst _ hlt]
        cases hr : travelFields (fun p w s => cb p w heap s) path fl rest r₁.2.1 r₁.2.2 <;>
          simp [hr, List.set_set]
termination_by structural _ _ fields => fields
theorem travelElemsAt_eq_travelElems {σ : Type} (cb : OnValueFuncHandlerAt σ) (dst : Nat)
    (hind : ∀ p w (h : MapHeap) W st, cb p w (h.set dst W) st = cb p w h st) :
    ∀ (path : String) (i : Nat) (elems : List Value) (heap : MapHeap)
      (st : σ), dst < heap.length →
      travelElemsAt cb path i (some dst) elems heap st =
        (travelElems (fun p w s => cb p w heap s) path i elems (heap.read (some dst)) st).map
          (fun r => (r.1, heap.set dst r.2.1, r.2.2))
  | path, i, [], heap, st, hlt => by
      simp [travelElemsAt, travelElems, set_read_self heap dst hlt]
  | path, i, v :: rest, heap, st, hlt => by
      simp only [travelElemsAt, travelElems]
      rw [travelAt_eq_travel cb dst hind (path ++ "[" ++ toString i ++ "]") flag.rw v heap st hlt]
      cases ht : travel (fun p w s => cb p w heap s) (path ++ "[" ++ toString i ++ "]") flag.rw v
          (heap.read (some dst)) st with
      | none => simp
      | some r₁ =>
        simp only [Option.map_some']
        have hlt₁ : dst < (heap.set dst r₁.2.1).length := by simpa using hlt
        have hcb : (fun p w s => cb p w (heap.set dst r₁.2.1) s) = (fun p w s => cb p w heap s) := by
          funext p w s
          exact hind p w heap r₁.2.1 s
        rw [travelElemsAt_eq_travelElems cb dst hind path (i + 1) rest _ r₁.2.2 hlt₁, hcb,
          read_set_self heap dst _ hlt]
        cases hr : travelElems (fun p w s => cb p w heap s) path (i + 1) rest r₁.2.1 r₁.2.2 <;>
          simp [hr, List.set_set]
termination_by structural _ _ elems => elems
theorem travelEntriesAt_eq_travelEntries {σ : Type} (cb : OnValueFuncHandlerAt σ) (dst : Nat)
    (hind : ∀ p w (h : MapHeap) W st, cb p w (h.set dst W) st = cb p w h st) :
    ∀ (path : String) (entries : List (String × Value)) (heap : MapHeap)
      (st : σ), dst < heap.length →
      travelEntriesAt cb path (some dst) entries heap st =
        (travelEntries (fun p w s => cb p w heap s) path entries (heap.read (some dst)) st).map
          (fun r => (r.1, heap.set dst r.2.1, r.2.2))
  | path, [], heap, st, hlt => by
      simp [travelEntriesAt, travelEntries, set_read_self heap dst hlt]
  | path, (key, v) :: rest, heap, st, hlt => by
      simp only [travelEntriesAt, travelEntries]
      rw [travelAt_eq_travel cb dst hind (path ++ "/" ++ key) flag.rw v heap st hlt]
      cases ht : travel (fun p w s => cb p w heap s) (path ++ "/" ++ key) flag.rw v
          (heap.read (some dst)) st with
      | none => simp
      | some r₁ =>
        simp only [Option.map_some']
        have hlt₁ : dst < (heap.set dst r₁.2.1).length := by simpa using hlt
        have hcb : (fun p w s => cb p w (heap.set dst r₁.2.1) s) = (fun p w s => cb p w heap s) := by
          funext p w s
          exact hind p w heap r₁.2.1 s
        rw [travelEntriesAt_eq_travelEntries cb dst hind path rest _ r₁.2.2 hlt₁, hcb,
          read_set_self heap dst _ hlt]
        cases hr : travelEntries (fun p w s => cb p w heap s) path rest r₁.2.1 r₁.2.2 <;>
          simp [hr, List.set_set]
termination_by structural _ entries => entries
end

theorem read_append_of_valid (heap : MapHeap) (W : Secrets) (m : MapRef)
    (hvalid : ∀ a, m = some a → a < heap.length) :
    MapHeap.read (heap ++ [W]) m = heap.read m := by
  cases m with
  | none => rfl
  | some a =>
    have h := hvalid a rfl
    simp [MapHeap.read, List.getD_eq_getElem?_getD, List.getElem?_append_left h]

theorem read_append_last (heap : MapHeap) (W : Secrets) :
    MapHeap.read (heap ++ [W]) (some heap.length) = W := by
  simp [MapHeap.read, List.getD_eq_getElem?_getD]

theorem set_append_last (heap : MapHeap) (W W' : Secrets) :
    (heap ++ [W]).set heap.length W' = heap ++ [W'] := by
  simp [List.set_append_right]

theorem assign_append_last (heap : MapHeap) (W : Secrets) (key val : String) :
    MapHeap.assign (heap ++ [W]) (some heap.length) key val =
      some (heap ++ [Secrets.assign W key val]) := by
  rw [assign_some _ _ _ _ (by simp), read_append_last, set_append_last]

theorem copy_loop_append_last (heap : MapHeap) :
    ∀ (entries : List (String × String)) (W : Secrets),
      entries.foldl
          (fun h kv => h.bind (fun h => MapHeap.assign h (some heap.length) kv.1 kv.2))
          (some (heap ++ [W])) =
        some (heap ++
          [entries.foldl (fun secretsCopy kv => Secrets.assign secretsCopy kv.1 kv.2) W])
  | [], W => rfl
  | kv :: entries, W => by
      simp only [List.foldl_cons, Option.some_bind, assign_append_last]
      exact copy_loop_append_last heap entries _

theorem copySecretsAt_fresh (heap : MapHeap) (secrets : MapRef)
    (hvalid : ∀ a, secrets = some a → a < heap.length) :
    copySecretsAt (heap ++ [[]]) secrets (some heap.length) =
      some (heap ++ [copySecrets (heap.read secrets)]) := by
  unfold copySecretsAt copySecrets
  rw [read_append_of_valid heap [] secrets hvalid]
  exact copy_loop_append_last heap _ []

theorem restoreCallbackAt_set (secrets : MapRef) (dst : Nat) (hne : secrets ≠ some dst)
    (p : String) (w : Value) (h : MapHeap) (W : Secrets) (st : Unit) :
    restoreCallbackAt secrets p w (h.set dst W) st = restoreCallbackAt secrets p w h st := by
  unfold restoreCallbackAt
  rw [read_set_ne h dst W secrets hne]

theorem RestoreAt_eq (heap : MapHeap) (obj : Value) (secrets : MapRef)
    (hvalid : ∀ a, secrets = some a → a < heap.length) :
    RestoreAt heap obj secrets =
      (travel (OnValueFuncHandler.ofFun (restoreDecision (heap.read secrets))) "/" flag.rw obj
        (copySecrets (heap.read secrets)) ()).map (fun r => (r.1, heap ++ [r.2.1])) := by
  have hne : secrets ≠ some heap.length := by
    intro e
    exact Nat.lt_irrefl _ (hvalid _ e)
  unfold RestoreAt
  simp only [copySecretsAt_fresh heap secrets hvalid]
  rw [travelAt_eq_travel (restoreCallbackAt secrets) heap.length
    (restoreCallbackAt_set secrets heap.length hne) "/" flag.rw obj _ () (by simp)]
  have hcb : (fun p w s => restoreCallbackAt secrets p w
      (heap ++ [copySecrets (heap.read secrets)]) s) =
      OnValueFuncHandler.ofFun (restoreDecision (heap.read secrets)) := by
    funext p w s
    simp [restoreCallbackAt, OnValueFuncHandler.ofFun, read_append_of_valid heap _ secrets hvalid]
  rw [hcb, read_append_last]
  cases travel (OnValueFuncHandler.ofFun (restoreDecision (heap.read secrets))) "/" flag.rw obj
      (copySecrets (heap.read secrets)) () with
  | none => rfl
  | some r => simp [set_append_last]

/-- C14: `Restore` never mutates the caller's secrets.  With the maps in a heap
and the parameter `secrets` a reference (nil or the address of an existing
map), `Restore` returns what it returns on the content of that map, and after
the call the heap is the heap before the call followed by one new map, the
internal copy: every map that existed before the call, the caller's secrets
among them, has exactly the entries it had, and every write of the traversal
went to the internal copy. -/
theorem C14_restore_keeps_callers_secrets (heap : MapHeap) (obj : Value) (secrets : MapRef)
    (hvalid : ∀ a, secrets = some a → a < heap.length) :
    (RestoreAt heap obj secrets).map Prod.fst = Restore obj (heap.read secrets) ∧
    ∀ r, RestoreAt heap obj secrets = some r →
      (∃ secretsCopy, r.2 = heap ++ [secretsCopy]) ∧
      MapHeap.read r.2 secrets = heap.read secrets ∧
      ∀ a, a < heap.length → MapHeap.read r.2 (some a) = heap.read (some a) := by
  rw [RestoreAt_eq heap obj secrets hvalid]
  constructor
  · unfold Restore
    cases travel (OnValueFuncHandler.ofFun (restoreDecision (heap.read secrets))) "/" flag.rw obj
        (copySecrets (heap.read secrets)) () with
    | none => rfl
    | some r => rfl
  · intro r h
    cases ht : travel (OnValueFuncHandler.ofFun (restoreDecision (heap.read secrets))) "/"
        flag.rw obj (copySecrets (heap.read secrets)) () with
    | none => simp [ht] at h
    | some r' =>
      simp only [ht, Option.map_some', Option.some.injEq] at h
      rw [← h]
      refine ⟨⟨r'.2.1, rfl⟩, read_append_of_valid heap _ secrets hvalid, ?_⟩
      intro a ha
      exact read_append_of_valid heap _ (some a) (fun b e => by cases e; exact ha)

/-- C14 at the test case "Struct containing a list", the caller's secrets being
the only map that exists before the call: after the call they are unchanged at
address 0 and the internal copy, with the writes of the traversal, is at
address 1. -/
theorem C14_restore_keeps_callers_secrets_witness :
    (∀ a, (some 0 : MapRef) = some a → a < [secretsD].length) ∧
    RestoreAt [secretsD] scrubbedD (some 0) =
      some (rawD, [secretsD, [("scrubbed/List[0]", "a"), ("scrubbed/List[2]", "c"),
        ("a", "scrubbed/List[0]"), ("c", "scrubbed/List[2]")]]) ∧
    ((RestoreAt [secretsD] scrubbedD (some 0)).map Prod.fst =
        Restore scrubbedD (MapHeap.read [secretsD] (some 0)) ∧
      ∀ r, RestoreAt [secretsD] scrubbedD (some 0) = some r →
        (∃ secretsCopy, r.2 = [secretsD] ++ [secretsCopy]) ∧
        MapHeap.read r.2 (some 0) = MapHeap.read [secretsD] (some 0) ∧
        ∀ a, a < [secretsD].length →
          MapHeap.read r.2 (some a) = MapHeap.read [secretsD] (some a)) :=
  ⟨by intro a e; cases e; decide, by rfl,
    C14_restore_keeps_callers_secrets [secretsD] scrubbedD (some 0)
      (by intro a e; cases e; decide)⟩

/-- The heap model can tell the difference: `travel` given the caller's map
itself (address 0) writes into it. -/
theorem travelAt_writes_the_given_map :
    travelAt (restoreCallbackAt (some 0)) "/" flag.rw (some 0) scrubbedD [secretsD] () =
      some (rawD, [[("scrubbed/List[0]", "a"), ("scrubbed/List[2]", "c"),
        ("a", "scrubbed/List[0]"), ("c", "scrubbed/List[2]")]], ()) := by
  rfl

/-! ## C15: effects on memory -/

mutual
theorem travelIn_erase {σ : Type} (callback : OnValueFuncHandler σ) :
    ∀ (path : String) (fl : flag) (tv sa : Nat) (v : AValue) (s : Secrets) (st : σ)
      (mem : Memory),
      (travelIn callback path fl tv sa v s st mem).map (fun r => (r.1.erase, r.2.1, r.2.2.1)) =
        travel callback path fl v.erase s st
  | path, fl, tv, sa, .nilPtr, s, st, mem => by simp [travelIn, travel, AValue.erase]
  | path, fl, tv, sa, .ptr a v, s, st, mem => by
      simp only [travelIn, travel, AValue.erase]
      rw [← travelIn_erase callback path flag.rw mem.next sa v s st (mem.alloc.write tv)]
      cases fl.ro <;>
        cases travelIn callback path flag.rw mem.next sa v s st (mem.alloc.write tv) <;>
        simp [AValue.erase]
  | path, fl, tv, sa, .nilIface, s, st, mem => by simp [travelIn, travel, AValue.erase]
  | path, fl, tv, sa, .iface v, s, st, mem => by
      simp only [travelIn, travel, AValue.erase]
      rw [← travelIn_erase callback path flag.rw mem.next sa v s st mem.alloc]
      cases fl.ro <;>
        cases travelIn callback path flag.rw mem.next sa v s st mem.alloc <;>
        simp [AValue.erase]
  | path, fl, tv, sa, .struct fields, s, st, mem => by
      simp only [travelIn, travel, AValue.erase]
      rw [← travelFieldsIn_erase callback path fl tv sa fields s st mem]
      cases travelFieldsIn callback path fl tv sa fields s st mem <;> simp [AValue.erase]
  | path, fl, tv, sa, .nilSlice, s, st, mem => by simp [travelIn, travel, AValue.erase]
  | path, fl, tv, sa, .slice a elems, s, st, mem => by
      simp only [travelIn, travel, AValue.erase]
      rw [← travelElemsIn_erase callback path 0 mem.next sa elems s st (mem.alloc.write tv)]
      cases fl.ro <;>
        cases travelElemsIn callback path 0 mem.next sa elems s st (mem.alloc.write tv) <;>
        simp [AValue.erase]
  | path, fl, tv, sa, .nilMap, s, st, mem => by simp [travelIn, travel, AValue.erase]
  | path, fl, tv, sa, .map a entries, s, st, mem => by
      simp only [travelIn, travel, AValue.erase]
      rw [← travelEntriesIn_erase callback path mem.next sa entries s st (mem.alloc.write tv)]
      cases fl.ro <;>
        cases travelEntriesIn callback path mem.next sa entries s st (mem.alloc.write tv) <;>
        simp [AValue.erase]
  | path, fl, tv, sa, .str typ x, s, st, mem => by
      simp only [travelIn, travel, AValue.erase]
      cases fl.ro
      · rcases hc : callback path (.str typ x) st with ⟨_ | t, st'⟩
        · simp [AValue.erase]
        · by_cases hx : x = t <;> simp [hx, AValue.erase]
      · simp
  | path, fl, tv, sa, .other n refs, s, st, mem => by
      simp only [travelIn, travel, AValue.erase]
      cases fl.ro <;> simp [AValue.erase]
  | path, fl, tv, sa, .array elems, s, st, mem => by
      simp only [travelIn, travel, AValue.erase]
      cases fl.ro <;> simp [AValue.erase]
termination_by structural _ _ _ _ v => v
theorem travelFieldsIn_erase {σ : Type} (callback : OnValueFuncHandler σ) :
    ∀ (path : String) (fl : flag) (tv sa : Nat) (fields : List (StructField × AValue))
      (s : Secrets) (st : σ) (mem : Memory),
      (travelFieldsIn callback path fl tv sa fields s st mem).map
          (fun r => (eraseFields r.1, r.2.1, r.2.2.1)) =
        travelFields callback path fl (eraseFields fields) s st
  | path, fl, tv, sa, [], s, st, mem => by simp [travelFieldsIn, travelFields, eraseFields]
  | path, fl, tv, sa, (f, v) :: rest, s, st, mem => by
      simp only [travelFieldsIn, travelFields, eraseFields]
      rw [← travelIn_erase callback (path ++ "/" ++ f.name) (fl.field f) tv sa v s st mem]
      cases ht : travelIn callback (path ++ "/" ++ f.name) (fl.field f) tv sa v s st mem with
      | none => simp
      | some r₁ =>
        simp only [Option.map_some']
        rw [← travelFieldsIn_erase callback path fl tv sa rest r₁.2.1 r₁.2.2.1 r₁.2.2.2]
        cases hr : travelFieldsIn callback path fl tv sa rest r₁.2.1 r₁.2.2.1 r₁.2.2.2 <;>
          simp [hr, eraseFields]
termination_by structural _ _ _ _ fields => fields
theorem travelElemsIn_erase {σ : Type} (callback : OnValueFuncHandler σ) :
    ∀ (path : String) (i : Nat) (tv sa : Nat) (elems : List AValue)
      (s : Secrets) (st : σ) (mem : Memory),
      (travelElemsIn callback path i tv sa elems s st mem).map
          (fun r => (eraseElems r.1, r.2.1, r.2.2.1)) =
        travelElems callback path i (eraseElems elems) s st
  | path, i, tv, sa, [], s, st, mem => by simp [travelElemsIn, travelElems, eraseElems]
  | path, i, tv, sa, v :: rest, s, st, mem => by
      simp only [travelElemsIn, travelElems, eraseElems]
      rw [← travelIn_erase callback (path ++ "[" ++ toString i ++ "]") flag.rw tv sa v s st mem]
      cases ht : travelIn callback (path ++ "[" ++ toString i ++ "]") flag.rw tv sa v s st mem with
      | none => simp
      | some r₁ =>
        simp only [Option.map_some']
        rw [← travelElemsIn_erase callback path (i + 1) tv sa rest r₁.2.1 r₁.2.2.1 r₁.2.2.2]
        cases hr : travelElemsIn callback path (i + 1) tv sa rest r₁.2.1 r₁.2.2.1 r₁.2.2.2 <;>
          simp [hr, eraseElems]
termination_by structural _ _ _ _ elems => elems
theorem travelEntriesIn_erase {σ : Type} (callback : OnValueFuncHandler σ) :
    ∀ (path : String) (tv sa : Nat) (entries : List (String × AValue))
      (s : Secrets) (st : σ) (mem : Memory),
      (travelEntriesIn callback path tv sa entries s st mem).map
          (fun r => (eraseEntries r.1, r.2.1, r.2.2.1)) =
        travelEntries callback path (eraseEntries entries) s st
  | path, tv, sa, [], s, st, mem => by simp [travelEntriesIn, travelEntries, eraseEntries]
  | path, tv, sa, (key, v) :: rest, s, st, mem => by
      simp only [travelEntriesIn, travelEntries, eraseEntries]
      rw [← travelIn_erase callback (path ++ "/" ++ key) flag.rw mem.next sa v s st mem.alloc]
      cases ht : travelIn callback (path ++ "/" ++ key) flag.rw mem.next sa v s st mem.alloc with
      | none => simp
      | some r₁ =>
        simp only [Option.map_some']
        rw [← travelEntriesIn_erase callback path tv sa rest r₁.2.1 r₁.2.2.1
          (r₁.2.2.2.write tv)]
        cases hr : travelEntriesIn callback path tv sa rest r₁.2.1 r₁.2.2.1
            (r₁.2.2.2.write tv) <;>
          simp [hr, eraseEntries]
termination_by structural _ _ _ entries => entries
end

theorem freshFrom_write (mem : Memory) (lo a : Nat) (h : mem.FreshFrom lo) (ha : lo ≤ a) :
    (mem.write a).FreshFrom lo := by
  refine ⟨?_, h.2⟩
  intro b hb
  simp only [Memory.write, List.mem_cons] at hb
  rcases hb with e | hb
  · rw [e]
    exact ha
  · exact h.1 b hb

theorem freshFrom_alloc (mem : Memory) (lo : Nat) (h : mem.FreshFrom lo) :
    mem.alloc.FreshFrom lo :=
  ⟨h.1, Nat.le_succ_of_le h.2⟩

mutual
theorem travelIn_effects {σ : Type} (callback : OnValueFuncHandler σ) :
    ∀ (path : String) (fl : flag) (tv sa : Nat) (v : AValue) (s : Secrets) (st : σ)
      (mem : Memory) (r : AValue × Secrets × σ × Memory),
      travelIn callback path fl tv sa v s st mem = some r →
        mem.next ≤ r.2.2.2.next ∧
        (∀ lo, lo ≤ tv → lo ≤ sa → mem.FreshFrom lo → r.2.2.2.FreshFrom lo) ∧
        (∀ a ∈ r.1.addresses, mem.next ≤ a ∨ a ∈ v.opaqueRefs)
  | path, fl, tv, sa, .nilPtr, s, st, mem, r, h => by
      simp only [travelIn, Option.some.injEq] at h
      subst h
      exact ⟨Nat.le_refl _, fun lo _ _ hf => hf, by simp [AValue.addresses]⟩
  | path, fl, tv, sa, .ptr a v, s, st, mem, r, h => by
      simp only [travelIn] at h
      cases hro : fl.ro with
      | true => simp [hro] at h
      | false =>
        cases ht : travelIn callback path flag.rw mem.next sa v s st (mem.alloc.write tv) with
        | none => simp [hro, ht] at h
        | some r₁ =>
          simp only [hro, ht, Bool.false_eq_true, if_false, Option.some.injEq] at h
          subst h
          obtain ⟨hn, hf, ha⟩ := travelIn_effects callback path flag.rw mem.next sa v s st _ r₁ ht
          have hn' : mem.next + 1 ≤ r₁.2.2.2.next := hn
          refine ⟨Nat.le_trans (Nat.le_succ _) hn', ?_, ?_⟩
          · intro lo h₁ h₂ h₃
            exact hf lo h₃.2 h₂ (freshFrom_write _ lo tv (freshFrom_alloc mem lo h₃) h₁)
          · intro b hb
            simp only [AValue.addresses, List.mem_cons] at hb
            rcases hb with e | hb
            · exact Or.inl (by omega)
            · rcases ha b hb with h₄ | h₄
              · have h₅ : mem.next + 1 ≤ b := h₄
                exact Or.inl (by omega)
              · exact Or.inr (by simpa [AValue.opaqueRefs] using h₄)
  | path, fl, tv, sa, .nilIface, s, st, mem, r, h => by simp [travelIn] at h
  | path, fl, tv, sa, .iface v, s, st, mem, r, h => by
      simp only [travelIn] at h
      cases hro : fl.ro with
      | true => simp [hro] at h
      | false =>
        cases ht : travelIn callback path flag.rw mem.next sa v s st mem.alloc with
        | none => simp [hro, ht] at h
        | some r₁ =>
          simp only [hro, ht, Bool.false_eq_true, if_false, Option.some.injEq] at h
          subst h
          obtain ⟨hn, hf, ha⟩ := travelIn_effects callback path flag.rw mem.next sa v s st _ r₁ ht
          have hn' : mem.next + 1 ≤ r₁.2.2.2.next := hn
          refine ⟨Nat.le_trans (Nat.le_succ _) hn', ?_, ?_⟩
          · intro lo h₁ h₂ h₃
            exact freshFrom_write _ lo tv (hf lo h₃.2 h₂ (freshFrom_alloc mem lo h₃)) h₁
          · intro b hb
            simp only [AValue.addresses] at hb
            rcases ha b hb with h₄ | h₄
            · have h₅ : mem.next + 1 ≤ b := h₄
              exact Or.inl (by omega)
            · exact Or.inr (by simpa [AValue.opaqueRefs] using h₄)
  | path, fl, tv, sa, .struct fields, s, st, mem, r, h => by
      simp only [travelIn] at h
      cases ht : travelFieldsIn callback path fl tv sa fields s st mem with
      | none => simp [ht] at h
      | some r₁ =>
        simp only [ht, Option.some.injEq] at h
        subst h
        obtain ⟨hn, hf, ha⟩ := travelFieldsIn_effects callback path fl tv sa fields s st mem r₁ ht
        exact ⟨hn, hf, by simpa [AValue.addresses, AValue.opaqueRefs] using ha⟩
  | path, fl, tv, sa, .nilSlice, s, st, mem, r, h => by
      simp only [travelIn, Option.some.injEq] at h
      subst h
      exact ⟨Nat.le_refl _, fun lo _ _ hf => hf, by simp [AValue.addresses]⟩
  | path, fl, tv, sa, .slice a elems, s, st, mem, r, h => by
      simp only [travelIn] at h
      cases hro : fl.ro with
      | true => simp [hro] at h
      | false =>
        cases ht : travelElemsIn callback path 0 mem.next sa elems s st (mem.alloc.write tv) with
        | none => simp [hro, ht] at h
        | some r₁ =>
          simp only [hro, ht, Bool.false_eq_true, if_false, Option.some.injEq] at h
          subst h
          obtain ⟨hn, hf, ha⟩ :=
            travelElemsIn_effects callback path 0 mem.next sa elems s st _ r₁ ht
          have hn' : mem.next + 1 ≤ r₁.2.2.2.next := hn
          refine ⟨Nat.le_trans (Nat.le_succ _) hn', ?_, ?_⟩
          · intro lo h₁ h₂ h₃
            exact hf lo h₃.2 h₂ (freshFrom_write _ lo tv (freshFrom_alloc mem lo h₃) h₁)
          · intro b hb
            simp only [AValue.addresses, List.mem_cons] at hb
            rcases hb with e | hb
            · exact Or.inl (by omega)
            · rcases ha b hb with h₄ | h₄
              · have h₅ : mem.next + 1 ≤ b := h₄
                exact Or.inl (by omega)
              · exact Or.inr (by simpa [AValue.opaqueRefs] using h₄)
  | path, fl, tv, sa, .nilMap, s, st, mem, r, h => by
      simp only [travelIn, Option.some.injEq] at h
      subst h
      exact ⟨Nat.le_refl _, fun lo _ _ hf => hf, by simp [AValue.addresses]⟩
  | path, fl, tv, sa, .map a entries, s, st, mem, r, h => by
      simp only [travelIn] at h
      cases hro : fl.ro with
      | true => simp [hro] at h
      | false =>
        cases ht : travelEntriesIn callback path mem.next sa entries s st (mem.alloc.write tv) with
        | none => simp [hro, ht] at h
        | some r₁ =>
          simp only [hro, ht, Bool.false_eq_true, if_false, Option.some.injEq] at h
          subst h
          obtain ⟨hn, hf, ha⟩ :=
            travelEntriesIn_effects callback path mem.next sa entries s st _ r₁ ht
          have hn' : mem.next + 1 ≤ r₁.2.2.2.next := hn
          refine ⟨Nat.le_trans (Nat.le_succ _) hn', ?_, ?_⟩
          · intro lo h₁ h₂ h₃
            exact hf lo h₃.2 h₂ (freshFrom_write _ lo tv (freshFrom_alloc mem lo h₃) h₁)
          · intro b hb
            simp only [AValue.addresses, List.mem_cons] at hb
            rcases hb with e | hb
            · exact Or.inl (by omega)
            · rcases ha b hb with h₄ | h₄
              · have h₅ : mem.next + 1 ≤ b := h₄
                exact Or.inl (by omega)
              · exact Or.inr (by simpa [AValue.opaqueRefs] using h₄)
  | path, fl, tv, sa, .str typ x, s, st, mem, r, h => by
      simp only [travelIn] at h
      cases hro : fl.ro with
      | true => simp [hro] at h
      | false =>
        simp only [hro, Bool.false_eq_true, if_false] at h
        rcases hc : callback path (.str typ x) st with ⟨_ | t, st'⟩
        · simp only [hc, Option.some.injEq] at h
          subst h
          exact ⟨Nat.le_refl _, fun lo h₁ _ h₃ => freshFrom_write mem lo tv h₃ h₁,
            by simp [AValue.addresses]⟩
        · simp only [hc] at h
          by_cases hx : x = t
          · simp only [hx, ne_eq, not_true_eq_false, if_false, Option.some.injEq] at h
            subst h
            exact ⟨Nat.le_refl _, fun lo h₁ _ h₃ => freshFrom_write mem lo tv h₃ h₁,
              by simp [AValue.addresses]⟩
          · simp only [hx, ne_eq, not_false_eq_true, if_true, Option.some.injEq] at h
            subst h
            exact ⟨Nat.le_refl _,
              fun lo h₁ h₂ h₃ => freshFrom_write _ lo tv (freshFrom_write mem lo sa h₃ h₂) h₁,
              by simp [AValue.addresses]⟩
  | path, fl, tv, sa, .other n refs, s, st, mem, r, h => by
      simp only [travelIn] at h
      cases hro : fl.ro with
      | true => simp [hro] at h
      | false =>
        simp only [hro, Bool.false_eq_true, if_false, Option.some.injEq] at h
        subst h
        exact ⟨Nat.le_refl _, fun lo h₁ _ h₃ => freshFrom_write mem lo tv h₃ h₁,
          fun b hb => Or.inr (by simpa [AValue.addresses, AValue.opaqueRefs] using hb)⟩
  | path, fl, tv, sa, .array elems, s, st, mem, r, h => by
      simp only [travelIn] at h
      cases hro : fl.ro with
      | true => simp [hro] at h
      | false =>
        simp only [hro, Bool.false_eq_true, if_false, Option.some.injEq] at h
        subst h
        exact ⟨Nat.le_refl _, fun lo h₁ _ h₃ => freshFrom_write mem lo tv h₃ h₁,
          fun b hb => Or.inr (by simpa [AValue.addresses, AValue.opaqueRefs] using hb)⟩
termination_by structural _ _ _ _ v => v
theorem travelFieldsIn_effects {σ : Type} (callback : OnValueFuncHandler σ) :
    ∀ (path : String) (fl : flag) (tv sa : Nat) (fields : List (StructField × AValue))
      (s : Secrets) (st : σ) (mem : Memory)
      (r : List (StructField × AValue) × Secrets × σ × Memory),
      travelFieldsIn callback path fl tv sa fields s st mem = some r →
        mem.next ≤ r.2.2.2.next ∧
        (∀ lo, lo ≤ tv → lo ≤ sa → mem.FreshFrom lo → r.2.2.2.FreshFrom lo) ∧
        (∀ a ∈ addressesFields r.1, mem.next ≤ a ∨ a ∈ opaqueRefsFields fields)
  | path, fl, tv, sa, [], s, st, mem, r, h => by
      simp only [travelFieldsIn, Option.some.injEq] at h
      subst h
      exact ⟨Nat.le_refl _, fun lo _ _ hf => hf, by simp [addressesFields]⟩
  | path, fl, tv, sa, (f, v) :: rest, s, st, mem, r, h => by
      simp only [travelFieldsIn] at h
      cases ht : travelIn callback (path ++ "/" ++ f.name) (fl.field f) tv sa v s st mem with
      | none => simp [ht] at h
      | some r₁ =>
        cases hr : travelFieldsIn callback path fl tv sa rest r₁.2.1 r₁.2.2.1 r₁.2.2.2 with
        | none => simp [ht, hr] at h
        | some r₂ =>
          simp only [ht, hr, Option.some.injEq] at h
          subst h
          obtain ⟨hn₁, hf₁, ha₁⟩ := travelIn_effects callback _ _ tv sa v s st mem r₁ ht
          obtain ⟨hn₂, hf₂, ha₂⟩ :=
            travelFieldsIn_effects callback path fl tv sa rest _ _ _ r₂ hr
          refine ⟨Nat.le_trans hn₁ hn₂, fun lo h₁ h₂ h₃ => hf₂ lo h₁ h₂ (hf₁ lo h₁ h₂ h₃), ?_⟩
          intro b hb
          simp only [addressesFields, List.mem_append] at hb
          simp only [opaqueRefsFields, List.mem_append]
          rcases hb with hb | hb
          · rcases ha₁ b hb with h₄ | h₄
            · exact Or.inl h₄
            · exact Or.inr (Or.inl h₄)
          · rcases ha₂ b hb with h₄ | h₄
            · exact Or.inl (Nat.le_trans hn₁ h₄)
            · exact Or.inr (Or.inr h₄)
termination_by structural _ _ _ _ fields => fields
theorem travelElemsIn_effects {σ : Type} (callback : OnValueFuncHandler σ) :
    ∀ (path : String) (i : Nat) (tv sa : Nat) (elems : List AValue)
      (s : Secrets) (st : σ) (mem : Memory) (r : List AValue × Secrets × σ × Memory),
      travelElemsIn callback path i tv sa elems s st mem = some r →
        mem.next ≤ r.2.2.2.next ∧
        (∀ lo, lo ≤ tv → lo ≤ sa → mem.FreshFrom lo → r.2.2.2.FreshFrom lo) ∧
        (∀ a ∈ addressesElems r.1, mem.next ≤ a ∨ a ∈ opaqueRefsElems elems)
  | path, i, tv, sa, [], s, st, mem, r, h => by
      simp only [travelElemsIn, Option.some.injEq] at h
      subst h
      exact ⟨Nat.le_refl _, fun lo _ _ hf => hf, by simp [addressesElems]⟩
  | path, i, tv, sa, v :: rest, s, st, mem, r, h => by
      simp only [travelElemsIn] at h
      cases ht : travelIn callback (path ++ "[" ++ toString i ++ "]") flag.rw tv sa v s st mem with
      | none => simp [ht] at h
      | some r₁ =>
        cases hr : travelElemsIn callback path (i + 1) tv sa rest r₁.2.1 r₁.2.2.1 r₁.2.2.2 with
        | none => simp [ht, hr] at h
        | some r₂ =>
          simp only [ht, hr, Option.some.injEq] at h
          subst h
          obtain ⟨hn₁, hf₁, ha₁⟩ := travelIn_effects callback _ _ tv sa v s st mem r₁ ht
          obtain ⟨hn₂, hf₂, ha₂⟩ :=
            travelElemsIn_effects callback path (i + 1) tv sa rest _ _ _ r₂ hr
          refine ⟨Nat.le_trans hn₁ hn₂, fun lo h₁ h₂ h₃ => hf₂ lo h₁ h₂ (hf₁ lo h₁ h₂ h₃), ?_⟩
          intro b hb
          simp only [addressesElems, List.mem_append] at hb
          simp only [opaqueRefsElems, List.mem_append]
          rcases hb with hb | hb
          · rcases ha₁ b hb with h₄ | h₄
            · exact Or.inl h₄
            · exact Or.inr (Or.inl h₄)
          · rcases ha₂ b hb with h₄ | h₄
            · exact Or.inl (Nat.le_trans hn₁ h₄)
            · exact Or.inr (Or.inr h₄)
termination_by structural _ _ _ _ elems => elems
theorem travelEntriesIn_effects {σ : Type} (callback : OnValueFuncHandler σ) :
    ∀ (path : String) (tv sa : Nat) (entries : List (String × AValue))
      (s : Secrets) (st : σ) (mem : Memory)
      (r : List (String × AValue) × Secrets × σ × Memory),
      travelEntriesIn callback path tv sa entries s st mem = some r →
        mem.next ≤ r.2.2.2.next ∧
        (∀ lo, lo ≤ tv → lo ≤ sa → mem.FreshFrom lo → r.2.2.2.FreshFrom lo) ∧
        (∀ a ∈ addressesEntries r.1, mem.next ≤ a ∨ a ∈ opaqueRefsEntries entries)
  | path, tv, sa, [], s, st, mem, r, h => by
      simp only [travelEntriesIn, Option.some.injEq] at h
      subst h
      exact ⟨Nat.le_refl _, fun lo _ _ hf => hf, by simp [addressesEntries]⟩
  | path, tv, sa, (key, v) :: rest, s, st, mem, r, h => by
      simp only [travelEntriesIn] at h
      cases ht : travelIn callback (path ++ "/" ++ key) flag.rw mem.next sa v s st mem.alloc with
      | none => simp [ht] at h
      | some r₁ =>
        cases hr : travelEntriesIn callback path tv sa rest r₁.2.1 r₁.2.2.1
            (r₁.2.2.2.write tv) with
        | none => simp [ht, hr] at h
        | some r₂ =>
          simp only [ht, hr, Option.some.injEq] at h
          subst h
          obtain ⟨hn₁, hf₁, ha₁⟩ := travelIn_effects callback _ _ mem.next sa v s st _ r₁ ht
          obtain ⟨hn₂, hf₂, ha₂⟩ :=
            travelEntriesIn_effects callback path tv sa rest _ _ _ r₂ hr
          have hn₁' : mem.next + 1 ≤ r₁.2.2.2.next := hn₁
          have hn₂' : r₁.2.2.2.next ≤ r₂.2.2.2.next := hn₂
          refine ⟨Nat.le_trans (Nat.le_trans (Nat.le_succ _) hn₁') hn₂', ?_, ?_⟩
          · intro lo h₁ h₂ h₃
            exact hf₂ lo h₁ h₂
              (freshFrom_write _ lo tv (hf₁ lo h₃.2 h₂ (freshFrom_alloc mem lo h₃)) h₁)
          · intro b hb
            simp only [addressesEntries, List.mem_append] at hb
            simp only [opaqueRefsEntries, List.mem_append]
            rcases hb with hb | hb
            · rcases ha₁ b hb with h₄ | h₄
              · have h₅ : mem.next + 1 ≤ b := h₄
                exact Or.inl (by omega)
              · exact Or.inr (Or.inl h₄)
            · rcases ha₂ b hb with h₄ | h₄
              · have h₅ : r₁.2.2.2.next ≤ b := h₄
                exact Or.inl (by omega)
              · exact Or.inr (Or.inr h₄)
termination_by structural _ _ _ entries => entries
end

theorem travelIn_from_call {σ : Type} (callback : OnValueFuncHandler σ) (path : String)
    (obj : AValue) (s : Secrets) (st : σ) (next : Nat) (written : List Nat)
    (hw : ∀ a ∈ written, next ≤ a) (r : AValue × Secrets × σ × Memory)
    (h : travelIn callback path flag.rw next (next + 1) obj s st ⟨written, next + 2⟩ = some r) :
    (∀ a ∈ r.2.2.2.written, next ≤ a) ∧
    ((∀ a ∈ obj.addresses, a < next) → ∀ a ∈ obj.addresses, a ∉ r.2.2.2.written) ∧
    (∀ a ∈ r.1.addresses, next ≤ a ∨ a ∈ obj.opaqueRefs) := by
  obtain ⟨_, hf, ha⟩ := travelIn_effects callback path flag.rw next (next + 1) obj s st _ r h
  have hfresh := hf next (Nat.le_refl _) (Nat.le_succ _) ⟨hw, Nat.le_add_right _ _⟩
  refine ⟨hfresh.1, ?_, ?_⟩
  · intro hold a ha₁ ha₂
    exact absurd (hfresh.1 a ha₂) (Nat.not_le.mpr (hold a ha₁))
  · intro a ha₁
    rcases ha a ha₁ with h₁ | h₁
    · have h₂ : next + 2 ≤ a := h₁
      exact Or.inl (by omega)
    · exact Or.inr h₁

/-- C15 (amended): no mutation of the input.  With the objects in memory
(`ScrubIn`, `RestoreIn` return what `Scrub` and `Restore` return, and record the
objects written), for every input value, callback and secrets map and whatever
the next free address `next` is when the call starts: every object written
during the call has an address from `next` on, that is, was allocated by the
call; hence no object the input refers to is written when these all existed
before the call.  The variable of every pointer, the backing array of every
slice and the table of every map of the output was allocated by the call; the
only older objects the output refers to are those that an array or an opaque
value of the input (copied as it is by the default branch of `travel`) refers
to. -/
theorem C15_input_objects_not_written :
    (∀ (σ : Type) (obj : AValue) (cb : Option (OnValueFuncHandler σ)) (st : σ) (next : Nat),
      (ScrubIn obj cb st next).map (fun r => (r.1.erase, r.2.1, r.2.2.1)) =
        Scrub obj.erase cb st ∧
      ∀ r, ScrubIn obj cb st next = some r →
        (∀ a ∈ r.2.2.2.written, next ≤ a) ∧
        ((∀ a ∈ obj.addresses, a < next) → ∀ a ∈ obj.addresses, a ∉ r.2.2.2.written) ∧
        (∀ a ∈ r.1.addresses, next ≤ a ∨ a ∈ obj.opaqueRefs)) ∧
    (∀ (obj : AValue) (secrets : Secrets) (next : Nat),
      (RestoreIn obj secrets next).map (fun r => r.1.erase) = Restore obj.erase secrets ∧
      ∀ r, RestoreIn obj secrets next = some r →
        (∀ a ∈ r.2.written, next ≤ a) ∧
        ((∀ a ∈ obj.addresses, a < next) → ∀ a ∈ obj.addresses, a ∉ r.2.written) ∧
        (∀ a ∈ r.1.addresses, next ≤ a ∨ a ∈ obj.opaqueRefs)) := by
  constructor
  · intro σ obj cb st next
    constructor
    · exact travelIn_erase _ "" flag.rw next (next + 1) obj [] st _
    · intro r h
      exact travelIn_from_call _ "" obj [] st next [] (by simp) r h
  · intro obj secrets next
    constructor
    · unfold RestoreIn Restore
      rw [← travelIn_erase (OnValueFuncHandler.ofFun (restoreDecision secrets)) "/" flag.rw next
        (next + 1) obj (copySecrets secrets) () ⟨secrets.map (fun _ => next + 1), next + 2⟩]
      cases travelIn (OnValueFuncHandler.ofFun (restoreDecision secrets)) "/" flag.rw next
        (next + 1) obj (copySecrets secrets) () ⟨secrets.map (fun _ => next + 1), next + 2⟩ <;>
        rfl
    · intro r h
      unfold RestoreIn at h
      cases ht : travelIn (OnValueFuncHandler.ofFun (restoreDecision secrets)) "/" flag.rw next
          (next + 1) obj (copySecrets secrets) ()
          ⟨secrets.map (fun _ => next + 1), next + 2⟩ with
      | none =>
        rw [ht] at h
        exact absurd h (by simp)
      | some r₁ =>
        rw [ht] at h
        simp only [Option.some.injEq] at h
        rw [← h]
        refine travelIn_from_call _ "/" obj _ () next _ ?_ r₁ ht
        intro a ha
        obtain ⟨_, _, e⟩ := List.mem_map.mp ha
        rw [← e]
        exact Nat.le_succ _

/-- C15 (amended) at an object whose struct lies at address 0 and whose array
field refers to an object at address 1, the next free address being 2. -/
theorem C15_input_objects_not_written_witness :
    ScrubIn objWithArray (none : Option (OnValueFuncHandler Unit)) () 2 =
      some (.ptr 4 (.struct [(exportedField "Name", .str .plain "$ref-/Name"),
        (exportedField "Arr", .array [.slice 1 [.str .plain "x"]])]),
        [("$ref-/Name", "secret")], (), ⟨[4, 4, 3, 2], 5⟩) ∧
    (∀ a ∈ objWithArray.addresses, a < 2) ∧
    ((∀ a ∈ [4, 4, 3, 2], 2 ≤ a) ∧
      ((∀ a ∈ objWithArray.addresses, a < 2) →
        ∀ a ∈ objWithArray.addresses, a ∉ [4, 4, 3, 2]) ∧
      (∀ a ∈ (AValue.ptr 4 (.struct [(exportedField "Name", .str .plain "$ref-/Name"),
          (exportedField "Arr", .array [.slice 1 [.str .plain "x"]])])).addresses,
        2 ≤ a ∨ a ∈ objWithArray.opaqueRefs)) :=
  ⟨by rfl, by decide,
    (C15_input_objects_not_written.1 Unit objWithArray none () 2).2
      (.ptr 4 (.struct [(exportedField "Name", .str .plain "$ref-/Name"),
        (exportedField "Arr", .array [.slice 1 [.str .plain "x"]])]),
        [("$ref-/Name", "secret")], (), ⟨[4, 4, 3, 2], 5⟩) (by rfl)⟩

/-- C15 as stated fails in its last part: scrubbing an object whose array
field holds a slice (backing array at address 1, allocated before the call,
the next free address being 2) gives an output that refers to the object at
address 1: that part of the output is not freshly allocated, it is shared
with the input. -/
theorem C15_counterexample :
    ScrubIn objWithArray (none : Option (OnValueFuncHandler Unit)) () 2 =
      some (.ptr 4 (.struct [(exportedField "Name", .str .plain "$ref-/Name"),
        (exportedField "Arr", .array [.slice 1 [.str .plain "x"]])]),
        [("$ref-/Name", "secret")], (), ⟨[4, 4, 3, 2], 5⟩) ∧
    1 ∈ (AValue.ptr 4 (.struct [(exportedField "Name", .str .plain "$ref-/Name"),
        (exportedField "Arr", .array [.slice 1 [.str .plain "x"]])])).addresses ∧
    1 ∈ objWithArray.addresses ∧ 1 < 2 :=
  ⟨by rfl, by decide, by decide, by decide⟩

end Gosecretive
